import Mathlib

/-! # aedis: request builder, incremental RESP parser, sinks and sentinel discovery

A shallow embedding of `include/aedis/aedis.hpp` and `include/aedis/response.hpp`.

* A `std::string` is the list of its bytes, each byte a `Char`.
* `std::to_string` is the decimal text of a number.
* An `int` is an integer in the range of `int`: the header count that
  `assemble` computes is converted with `to_int`, the count that the parser
  reads with `size_to_int`, and `--sizes[..]` on `INT_MIN` is a signed overflow.
* A byte read through `char const*` is signed (`char_value`).
* The parser state is the record `parse_op`; one resumption of the
  coroutine `parse_op::operator()` is `parse_op.resume`. The parser functions
  take the build as a last argument `NDEBUG`, false (assertions enabled) when
  it is left out.
-/

namespace aedis
namespace resp

/-- Byte strings: the model of `std::string` (alias `resp::buffer`). -/
abbrev Bytes := List Char

/-- Decimal text of an unsigned value: `std::to_string(std::size_t)`. -/
def to_string_size (n : Nat) : Bytes := Nat.toDigits 10 n

/-- Decimal text of a signed value: `std::to_string(int)`. -/
def to_string (i : Int) : Bytes :=
  if i < 0 then '-' :: Nat.toDigits 10 (-i).toNat else Nat.toDigits 10 i.toNat

/-- The flat response of `aedis.hpp`: `struct response` with `res` and `add`. -/
structure response where
  res : List Bytes
deriving DecidableEq, Repr

/-- Appends one entry: `response::add`. -/
def response.add (r : response) (s : Bytes) : response :=
  { res := r.res ++ [s] }

/-- Appends `$<len>\r\n<param>\r\n` to the string `to`, one `+=` after the other. -/
def make_bulky_item (to_ : Bytes) (param : Bytes) : Bytes :=
  let to_ := to_ ++ ['$']
  let to_ := to_ ++ to_string_size param.length
  let to_ := to_ ++ ['\r', '\n']
  let to_ := to_ ++ param
  to_ ++ ['\r', '\n']

/-- Appends `*<size>\r\n` to `to`. -/
def make_header (to_ : Bytes) (size : Int) : Bytes :=
  let to_ := to_ ++ ['*']
  let to_ := to_ ++ to_string size
  to_ ++ ['\r', '\n']

/-- The element types `accumulator::operator()` is overloaded for. -/
inductive Elem where
  | str (b : Bytes)
  | int (b : Int)
  | pair_ss (first second : Bytes)
  | pair_is (first : Int) (second : Bytes)
deriving DecidableEq, Repr

/-- The four overloads of `accumulator::operator()`. -/
def accumulator (a : Bytes) : Elem → Bytes
  | .str b => make_bulky_item a b
  | .int b => make_bulky_item a (to_string b)
  | .pair_ss first second => make_bulky_item (make_bulky_item a first) second
  | .pair_is first second => make_bulky_item (make_bulky_item a (to_string first)) second

/-- Conversion of an integer value to `int`: the value modulo `2^32` in the
range of `int`. -/
def to_int (v : Int) : Int := (v + 2 ^ 31) % 2 ^ 32 - 2 ^ 31

/-- The overload `assemble(ret, cmd)`: a one-item array. -/
def assemble_cmd (ret : Bytes) (cmd : Bytes) : Bytes :=
  make_bulky_item (make_header ret 1) cmd

/-- The generic `assemble(ret, cmd, key, begin, end, size)`; `std::accumulate`
is a left fold and the range `[begin, end)` is the list `range`. The sum
`1 + d1 + size * d2` has the type `std::ptrdiff_t` of the distances and is
converted to the `int` parameter of `make_header`. -/
def assemble (ret : Bytes) (cmd : Bytes) (key : List Bytes) (range : List Elem)
    (size : Int := 1) : Bytes :=
  let d1 : Int := key.length
  let d2 : Int := range.length
  let a : Bytes := []
  let a := make_header a (to_int (1 + d1 + size * d2))
  let a := make_bulky_item a cmd
  let b := key.foldl (fun acc k => accumulator acc (.str k)) a
  ret ++ range.foldl accumulator b

/-- The overload `assemble(ret, cmd, key)` for a single key. -/
def assemble_key (ret : Bytes) (cmd : Bytes) (key : Bytes) : Bytes :=
  assemble ret cmd [key] []

/-- The value of `*p` for a `char const* p`: plain `char` is signed, so a byte
from 0x80 on reads as a negative number. -/
def char_value (c : Char) : Int :=
  if c.toNat < 128 then (c.toNat : Int) else (c.toNat : Int) - 256

/-- Converts a decimal number in ascii format to integer: the loop of
`get_length`, with `len` a `std::size_t` (arithmetic modulo `2^64`) and
`*p - '0'` an `int` that is converted to `std::size_t` by the addition. The
loop stops at the first `\r`; the line it is called on always holds one. -/
def get_length_loop (len : Nat) : Bytes → Nat
  | [] => len
  | c :: p =>
    if c = '\r' then len
    else get_length_loop ((((10 * len : Nat) : Int) + (char_value c - 48)) % 2 ^ 64).toNat p

/-- The function `get_length(char const* p)`. -/
def get_length (p : Bytes) : Nat := get_length_loop 0 p

/-- Conversion of a `std::size_t` to `int`, as in `sizes[++depth] = get_length(..)`. -/
def size_to_int (n : Nat) : Int := ((n : Int) + 2 ^ 31) % 2 ^ 32 - 2 ^ 31

/-- Completion codes of the transport; success is `none : Option error_code`. -/
inductive error_code where
  | eof
  | operation_aborted
  | other (value : Nat)
deriving DecidableEq, Repr

/-- Index of the first `\r\n` of a buffer. -/
def find_crlf : Bytes → Option Nat
  | [] => none
  | c :: t => if c = '\r' ∧ t.head? = some '\n' then some 0 else (find_crlf t).map (· + 1)

/-- The call `net::async_read_until(socket, net::dynamic_buffer(*buf), "\r\n")`
on a buffer that holds the bytes of the transport: it completes with the number
of bytes up to and including the first `\r\n`, and with end-of-file and zero
bytes when the stream has no further `\r\n`. -/
def async_read_until (buf : Bytes) : Option error_code × Nat :=
  match find_crlf buf with
  | some i => (none, i + 2)
  | none => (some .eof, 0)

/-- The state of `struct parse_op`: the read buffer and the response it points
to, and the members `start`, `depth`, `sizes` and `bulky` with their default
initialisers. -/
structure parse_op where
  buf : Bytes
  res : response
  start : Int := 1
  depth : Nat := 0
  sizes : List Int := [2, 1, 1, 1, 1, 1]
  bulky : Bool := false
deriving DecidableEq, Repr

/-- What one resumption of `parse_op::operator()` ends in: `self.complete(ec)`,
a new `async_read_until` (the operation is suspended), a failed `assert(false)`
(builds without `NDEBUG` only), an access outside `sizes[0..5]`, or the
decrement of a frame count that holds `INT_MIN`, a signed overflow. The last
two are undefined behaviour. -/
inductive outcome where
  | complete (ec : Option error_code) (op : parse_op)
  | suspended (op : parse_op)
  | assert_failed (op : parse_op)
  | undefined
  | signed_overflow
deriving DecidableEq, Repr

/-- The least value of `int`. -/
def INT_MIN : Int := -2 ^ 31

/-- The statement `--sizes[depth]` on an entry above `INT_MIN`; on `INT_MIN` the
decrement overflows `int`, which every use checks first. -/
def dec_size (sizes : List Int) (depth : Nat) : List Int :=
  sizes.set depth (sizes.getD depth 0 - 1)

/-- How the loop `while (sizes[depth] == 0) --sizes[--depth];` ends: it stops
at a non-zero entry, or `--depth` leaves the array below index 0, or the
decrement of an entry overflows. -/
inductive collapse_result where
  | stopped (depth : Nat) (sizes : List Int)
  | below_sentinel
  | signed_overflow
deriving DecidableEq, Repr

/-- The loop `while (sizes[depth] == 0) --sizes[--depth];`. -/
def collapse : Nat → List Int → collapse_result
  | 0, sizes => if sizes.getD 0 0 = 0 then .below_sentinel else .stopped 0 sizes
  | d + 1, sizes =>
    if sizes.getD (d + 1) 0 = 0 then
      if sizes.getD d 0 = INT_MIN then .signed_overflow else collapse d (dec_size sizes d)
    else .stopped (d + 1) sizes

/-- Result of the part of the loop body that looks at the line. -/
inductive line_result where
  | ok (op : parse_op) (str_flag : Bool)
  | assert_failed
  | undefined
  | signed_overflow
deriving DecidableEq, Repr

/-- The body of the loop from `auto str_flag = false;` up to `buf->erase`: the
line of `n` bytes at the front of the buffer is a blob body (`bulky`) or a
header line selected by its first byte. `NDEBUG` tells whether the translation
unit is compiled with `NDEBUG` defined, which makes `assert(false)` an empty
statement; the default is a build with assertions. -/
def parse_op.line (op : parse_op) (n : Nat) (NDEBUG : Bool := false) : line_result :=
  if op.bulky then
    if op.sizes.getD op.depth 0 = INT_MIN then .signed_overflow
    else .ok { op with res := op.res.add (op.buf.take (n - 2)),
                       sizes := dec_size op.sizes op.depth } false
  else if op.sizes.getD op.depth 0 ≠ 0 then
    match op.buf.head? with
    | none => .undefined
    | some c =>
      if c = '$' then
        if (op.buf.drop 1).take 2 = ['-', '1'] then
          if op.sizes.getD op.depth 0 = INT_MIN then .signed_overflow
          else .ok { op with res := op.res.add [], sizes := dec_size op.sizes op.depth } false
        else .ok op true
      else if c = '+' ∨ c = '-' ∨ c = ':' then
        if op.sizes.getD op.depth 0 = INT_MIN then .signed_overflow
        else .ok { op with res := op.res.add ((op.buf.drop 1).take (n - 3)),
                           sizes := dec_size op.sizes op.depth } false
      else if c = '*' then
        if op.depth + 1 < 6 then
          .ok { op with depth := op.depth + 1,
                        sizes := op.sizes.set (op.depth + 1)
                          (size_to_int (get_length (op.buf.drop 1))) } false
        else .undefined
      else if NDEBUG then .ok op false
      else .assert_failed
  else .ok op false

/-- One resumption `operator()(self, ec, n)`. With `start == 1` the operation
issues its first read; otherwise it runs the loop body on the line just read
and either completes or issues the next read. -/
def parse_op.resume (op : parse_op) (ec : Option error_code) (n : Nat)
    (NDEBUG : Bool := false) : outcome :=
  if op.start = 1 then .suspended { op with start := 0 }
  else if ec.isSome ∨ n < 3 then .complete ec op
  else
    match op.line n NDEBUG with
    | .assert_failed => .assert_failed op
    | .undefined => .undefined
    | .signed_overflow => .signed_overflow
    | .ok op str_flag =>
      let op := { op with buf := op.buf.drop n }
      match collapse op.depth op.sizes with
      | .below_sentinel => .undefined
      | .signed_overflow => .signed_overflow
      | .stopped depth sizes =>
        let op := { op with depth := depth, sizes := sizes }
        if depth = 0 ∧ str_flag = false then .complete none op
        else .suspended { op with bulky := str_flag, start := 0 }

/-- Drives a suspended operation: each unit of `fuel` is one completed
`async_read_until` followed by one resumption. With no fuel left the operation
is still suspended. -/
def run (fuel : Nat) (op : parse_op) (NDEBUG : Bool := false) : outcome :=
  match fuel with
  | 0 => .suspended op
  | fuel + 1 =>
    let r := async_read_until op.buf
    match op.resume r.1 r.2 NDEBUG with
    | .suspended op => run fuel op NDEBUG
    | o => o

/-- The composed operation `async_read(stream, buffer, res)`: a fresh
`parse_op` on the buffer and the response, started and then driven. -/
def async_read (fuel : Nat) (buffer : Bytes) (res : response) (NDEBUG : Bool := false) :
    outcome :=
  match ({ buf := buffer, res := res } : parse_op).resume none 0 NDEBUG with
  | .suspended op => run fuel op NDEBUG
  | o => o

/-- The request builder `struct pipeline`: its only member is the payload. -/
structure pipeline where
  payload : Bytes
deriving DecidableEq, Repr

/-- An element of a `std::map<Key, T>` handed to `hset` or `zadd`: the key is a
string or an `int`, the mapped value a string (the pair types `accumulator`
accepts). -/
inductive map_key where
  | str (b : Bytes)
  | int (b : Int)
deriving DecidableEq, Repr

/-- The `std::pair` a map iterator yields, as an element for `accumulator`. -/
def map_entry (e : map_key × Bytes) : Elem :=
  match e.1 with
  | .str k => .pair_ss k e.2
  | .int k => .pair_is k e.2

/-- A range of strings (`std::initializer_list<std::string>`) as elements. -/
def strs (l : List Bytes) : List Elem := l.map Elem.str

def pipeline.ping (p : pipeline) : pipeline :=
  { payload := assemble_cmd p.payload "PING".toList }

def pipeline.quit (p : pipeline) : pipeline :=
  { payload := assemble_cmd p.payload "QUIT".toList }

def pipeline.multi (p : pipeline) : pipeline :=
  { payload := assemble_cmd p.payload "MULTI".toList }

def pipeline.exec (p : pipeline) : pipeline :=
  { payload := assemble_cmd p.payload "EXEC".toList }

def pipeline.bgrewriteaof (p : pipeline) : pipeline :=
  { payload := assemble_cmd p.payload "BGREWRITEAOF".toList }

def pipeline.role (p : pipeline) : pipeline :=
  { payload := assemble_cmd p.payload "ROLE".toList }

def pipeline.bgsave (p : pipeline) : pipeline :=
  { payload := assemble_cmd p.payload "BGSAVE".toList }

def pipeline.flushall (p : pipeline) : pipeline :=
  { payload := assemble_cmd p.payload "FLUSHALL".toList }

def pipeline.incr (p : pipeline) (key : Bytes) : pipeline :=
  { payload := assemble_key p.payload "INCR".toList key }

def pipeline.auth (p : pipeline) (pwd : Bytes) : pipeline :=
  { payload := assemble_key p.payload "AUTH".toList pwd }

def pipeline.lpop (p : pipeline) (key : Bytes) : pipeline :=
  { payload := assemble_key p.payload "LPOP".toList key }

def pipeline.subscribe (p : pipeline) (key : Bytes) : pipeline :=
  { payload := assemble_key p.payload "SUBSCRIBE".toList key }

def pipeline.unsubscribe (p : pipeline) (key : Bytes) : pipeline :=
  { payload := assemble_key p.payload "UNSUBSCRIBE".toList key }

def pipeline.get (p : pipeline) (key : Bytes) : pipeline :=
  { payload := assemble_key p.payload "GET".toList key }

def pipeline.hello (p : pipeline) (key : Bytes) : pipeline :=
  { payload := assemble_key p.payload "HELLO".toList key }

def pipeline.hlen (p : pipeline) (key : Bytes) : pipeline :=
  { payload := assemble_key p.payload "HLEN".toList key }

def pipeline.hgetall (p : pipeline) (key : Bytes) : pipeline :=
  { payload := assemble_key p.payload "HGETALL".toList key }

def pipeline.hvals (p : pipeline) (key : Bytes) : pipeline :=
  { payload := assemble_key p.payload "HVALS".toList key }

def pipeline.del (p : pipeline) (key : Bytes) : pipeline :=
  { payload := assemble_key p.payload "DEL".toList key }

def pipeline.llen (p : pipeline) (key : Bytes) : pipeline :=
  { payload := assemble_key p.payload "LLEN".toList key }

def pipeline.sentinel (p : pipeline) (arg name : Bytes) : pipeline :=
  let par := [name]
  { payload := assemble p.payload "SENTINEL".toList [arg] (strs par) }

def pipeline.append (p : pipeline) (key msg : Bytes) : pipeline :=
  let par := [msg]
  { payload := assemble p.payload "APPEND".toList [key] (strs par) }

def pipeline.bitcount (p : pipeline) (key : Bytes) (start : Int := 0) (end_ : Int := -1) :
    pipeline :=
  let par := [to_string start, to_string end_]
  { payload := assemble p.payload "BITCOUNT".toList [key] (strs par) }

/-- The method `rpush(key, begin, end)`; every container overload of `rpush`
forwards to it. The element type is whatever `accumulator` accepts. -/
def pipeline.rpush (p : pipeline) (key : Bytes) (range : List Elem) : pipeline :=
  { payload := assemble p.payload "RPUSH".toList [key] range }

def pipeline.lpush (p : pipeline) (key : Bytes) (range : List Elem) : pipeline :=
  { payload := assemble p.payload "LPUSH".toList [key] range }

def pipeline.psubscribe (p : pipeline) (l : List Bytes) : pipeline :=
  { payload := assemble p.payload "PSUBSCRIBE".toList l [] }

def pipeline.publish (p : pipeline) (key msg : Bytes) : pipeline :=
  let par := [msg]
  { payload := assemble p.payload "PUBLISH".toList [key] (strs par) }

def pipeline.set (p : pipeline) (key : Bytes) (args : List Bytes) : pipeline :=
  { payload := assemble p.payload "SET".toList [key] (strs args) }

def pipeline.hset (p : pipeline) (key : Bytes) (l : List Bytes) : pipeline :=
  { payload := assemble p.payload "HSET".toList [key] (strs l) }

/-- The overload `hset(key, std::map const& m)`: the map is the list of its
entries in iteration order; the arity 2 is passed as `size`. -/
def pipeline.hset_map (p : pipeline) (key : Bytes) (m : List (map_key × Bytes)) : pipeline :=
  { payload := assemble p.payload "HSET".toList [key] (m.map map_entry) 2 }

def pipeline.hincrby (p : pipeline) (key field : Bytes) (byv : Int) : pipeline :=
  let par := [field, to_string byv]
  { payload := assemble p.payload "HINCRBY".toList [key] (strs par) }

def pipeline.hkeys (p : pipeline) (key : Bytes) : pipeline :=
  let par : List Bytes := [[]]
  { payload := assemble p.payload "HKEYS".toList [key] (strs par) }

def pipeline.hget (p : pipeline) (key field : Bytes) : pipeline :=
  let par := [field]
  { payload := assemble p.payload "HGET".toList [key] (strs par) }

def pipeline.hmget (p : pipeline) (key : Bytes) (fields : List Bytes) : pipeline :=
  { payload := assemble p.payload "HMGET".toList [key] (strs fields) }

def pipeline.expire (p : pipeline) (key : Bytes) (secs : Int) : pipeline :=
  let par := [to_string secs]
  { payload := assemble p.payload "EXPIRE".toList [key] (strs par) }

def pipeline.zadd (p : pipeline) (key : Bytes) (score : Int) (value : Bytes) : pipeline :=
  let par := [to_string score, value]
  { payload := assemble p.payload "ZADD".toList [key] (strs par) }

/-- The overload `zadd(std::initializer_list<std::string> key, std::map const& m)`. -/
def pipeline.zadd_map (p : pipeline) (key : List Bytes) (m : List (map_key × Bytes)) :
    pipeline :=
  { payload := assemble p.payload "ZADD".toList key (m.map map_entry) 2 }

def pipeline.zrange (p : pipeline) (key : Bytes) (min : Int := 0) (max : Int := -1) :
    pipeline :=
  let par := [to_string min, to_string max]
  { payload := assemble p.payload "ZRANGE".toList [key] (strs par) }

def pipeline.zrangebyscore (p : pipeline) (key : Bytes) (min max : Int) : pipeline :=
  let max_str := "inf".toList
  let max_str := if max ≠ -1 then to_string max else max_str
  let par := [to_string min, max_str]
  { payload := assemble p.payload "zrangebyscore".toList [key] (strs par) }

def pipeline.zremrangebyscore (p : pipeline) (key : Bytes) (score : Int) : pipeline :=
  let s := to_string score
  let par := [s, s]
  { payload := assemble p.payload "ZREMRANGEBYSCORE".toList [key] (strs par) }

def pipeline.lrange (p : pipeline) (key : Bytes) (min : Int := 0) (max : Int := -1) :
    pipeline :=
  let par := [to_string min, to_string max]
  { payload := assemble p.payload "LRANGE".toList [key] (strs par) }

def pipeline.ltrim (p : pipeline) (key : Bytes) (min : Int := 0) (max : Int := -1) :
    pipeline :=
  let par := [to_string min, to_string max]
  { payload := assemble p.payload "LTRIM".toList [key] (strs par) }

/-- One call of a builder method of `pipeline`, with its arguments. -/
inductive builder_call where
  | ping
  | quit
  | multi
  | exec
  | bgrewriteaof
  | role
  | bgsave
  | flushall
  | incr (key : Bytes)
  | auth (pwd : Bytes)
  | lpop (key : Bytes)
  | subscribe (key : Bytes)
  | unsubscribe (key : Bytes)
  | get (key : Bytes)
  | hello (key : Bytes)
  | hlen (key : Bytes)
  | hgetall (key : Bytes)
  | hvals (key : Bytes)
  | del (key : Bytes)
  | llen (key : Bytes)
  | sentinel (arg : Bytes) (name : Bytes)
  | append (key : Bytes) (msg : Bytes)
  | bitcount (key : Bytes) (start : Int) (end_ : Int)
  | rpush (key : Bytes) (range : List Elem)
  | lpush (key : Bytes) (range : List Elem)
  | psubscribe (l : List Bytes)
  | publish (key : Bytes) (msg : Bytes)
  | set (key : Bytes) (args : List Bytes)
  | hset (key : Bytes) (l : List Bytes)
  | hset_map (key : Bytes) (m : List (map_key × Bytes))
  | hincrby (key : Bytes) (field : Bytes) (byv : Int)
  | hkeys (key : Bytes)
  | hget (key : Bytes) (field : Bytes)
  | hmget (key : Bytes) (fields : List Bytes)
  | expire (key : Bytes) (secs : Int)
  | zadd (key : Bytes) (score : Int) (value : Bytes)
  | zadd_map (key : List Bytes) (m : List (map_key × Bytes))
  | zrange (key : Bytes) (min : Int) (max : Int)
  | zrangebyscore (key : Bytes) (min : Int) (max : Int)
  | zremrangebyscore (key : Bytes) (score : Int)
  | lrange (key : Bytes) (min : Int) (max : Int)
  | ltrim (key : Bytes) (min : Int) (max : Int)
deriving DecidableEq, Repr

/-- Performs one builder call on a pipeline. -/
def pipeline.call (p : pipeline) : builder_call → pipeline
  | .ping => p.ping
  | .quit => p.quit
  | .multi => p.multi
  | .exec => p.exec
  | .bgrewriteaof => p.bgrewriteaof
  | .role => p.role
  | .bgsave => p.bgsave
  | .flushall => p.flushall
  | .incr key => p.incr key
  | .auth pwd => p.auth pwd
  | .lpop key => p.lpop key
  | .subscribe key => p.subscribe key
  | .unsubscribe key => p.unsubscribe key
  | .get key => p.get key
  | .hello key => p.hello key
  | .hlen key => p.hlen key
  | .hgetall key => p.hgetall key
  | .hvals key => p.hvals key
  | .del key => p.del key
  | .llen key => p.llen key
  | .sentinel arg name => p.sentinel arg name
  | .append key msg => p.append key msg
  | .bitcount key start end_ => p.bitcount key start end_
  | .rpush key range => p.rpush key range
  | .lpush key range => p.lpush key range
  | .psubscribe l => p.psubscribe l
  | .publish key msg => p.publish key msg
  | .set key args => p.set key args
  | .hset key l => p.hset key l
  | .hset_map key m => p.hset_map key m
  | .hincrby key field byv => p.hincrby key field byv
  | .hkeys key => p.hkeys key
  | .hget key field => p.hget key field
  | .hmget key fields => p.hmget key fields
  | .expire key secs => p.expire key secs
  | .zadd key score value => p.zadd key score value
  | .zadd_map key m => p.zadd_map key m
  | .zrange key min max => p.zrange key min max
  | .zrangebyscore key min max => p.zrangebyscore key min max
  | .zremrangebyscore key score => p.zremrangebyscore key score
  | .lrange key min max => p.lrange key min max
  | .ltrim key min max => p.ltrim key min max

/-- Performs a sequence of builder calls, first to last. -/
def pipeline.calls (p : pipeline) (cs : List builder_call) : pipeline :=
  cs.foldl pipeline.call p

/-- The wire form of a bulk item, `$<len>\r\n<bytes>\r\n`, with `len` the
decimal text of the number of bytes. -/
def bulk_item (bytes : Bytes) : Bytes :=
  '$' :: (Nat.repr bytes.length).toList ++ ['\r', '\n'] ++ bytes ++ ['\r', '\n']

/-- The wire form of an array header, `*<n>\r\n`. -/
def array_header (n : Int) : Bytes :=
  '*' :: (toString n).toList ++ ['\r', '\n']

/-- The bulk items an element of a repeated section stands for: one for a string
or an integer (in decimal text), two for a pair, first then second. -/
def Elem.items : Elem → List Bytes
  | .str b => [b]
  | .int b => [(toString b).toList]
  | .pair_ss first second => [first, second]
  | .pair_is first second => [(toString first).toList, second]

/-- Concatenation of the wire forms of a list of bulk items. -/
def bulk_items (items : List Bytes) : Bytes :=
  (items.map bulk_item).flatten

/-- Value of a list of decimal digit bytes, most significant first. -/
def digits_value (l : Bytes) : Nat :=
  l.foldl (fun a c => 10 * a + (c.toNat - 48)) 0

/-- One command of a payload: `*<n>\r\n` followed by the `n` bulk items. -/
def segment (items : List Bytes) : Bytes :=
  array_header items.length ++ bulk_items items

/-- The payload invariant: a concatenation of segments, each an array header
followed by exactly as many bulk items as the header says. -/
def valid_payload (payload : Bytes) : Prop :=
  ∃ segs : List (List Bytes), payload = (segs.map segment).flatten

/-- The elements handed to `rpush` and `lpush` are strings or integers. -/
def builder_call.scalar_ranges : builder_call → Prop
  | .rpush _ range => ∀ e ∈ range, e.items.length = 1
  | .lpush _ range => ∀ e ∈ range, e.items.length = 1
  | _ => True

/-- The number of bulk items of a call fits the `int` parameter of
`make_header`; only a call that takes a container can exceed it. -/
def builder_call.header_fits : builder_call → Prop
  | .rpush _ range => 2 + range.length < 2 ^ 31
  | .lpush _ range => 2 + range.length < 2 ^ 31
  | .psubscribe l => 1 + l.length < 2 ^ 31
  | .set _ args => 2 + args.length < 2 ^ 31
  | .hset _ l => 2 + l.length < 2 ^ 31
  | .hset_map _ m => 2 + 2 * m.length < 2 ^ 31
  | .hmget _ fields => 2 + fields.length < 2 ^ 31
  | .zadd_map key m => 1 + key.length + 2 * m.length < 2 ^ 31
  | _ => True

/-- A reply of the server as a tree: the leaves are simple strings, simple
errors, numbers, null blobs and blob strings; the internal nodes are arrays. -/
inductive reply where
  | simple_string (body : Bytes)
  | simple_error (body : Bytes)
  | number (value : Int)
  | null
  | blob_string (body : Bytes)
  | array (children : List reply)

mutual
/-- The RESP encoding of a reply. -/
def reply.encode : reply → Bytes
  | .simple_string body => '+' :: body ++ ['\r', '\n']
  | .simple_error body => '-' :: body ++ ['\r', '\n']
  | .number value => ':' :: (toString value).toList ++ ['\r', '\n']
  | .null => ['$', '-', '1', '\r', '\n']
  | .blob_string body =>
    '$' :: (Nat.repr body.length).toList ++ ['\r', '\n'] ++ body ++ ['\r', '\n']
  | .array children =>
    '*' :: (Nat.repr children.length).toList ++ ['\r', '\n'] ++ reply.encode_list children
/-- The encodings of a list of replies, one after the other. -/
def reply.encode_list : List reply → Bytes
  | [] => []
  | c :: cs => c.encode ++ reply.encode_list cs
end

mutual
/-- The leaf bodies of a reply, left to right; a null has the empty body. -/
def reply.leaves : reply → List Bytes
  | .simple_string body => [body]
  | .simple_error body => [body]
  | .number value => [(toString value).toList]
  | .null => [[]]
  | .blob_string body => [body]
  | .array children => reply.leaves_list children
/-- The leaf bodies of a list of replies. -/
def reply.leaves_list : List reply → List Bytes
  | [] => []
  | c :: cs => c.leaves ++ reply.leaves_list cs
end

mutual
/-- Nesting depth of a reply: 0 for a leaf, one more than its deepest child for
an array. -/
def reply.nesting : reply → Nat
  | .array children => 1 + reply.nesting_list children
  | _ => 0
/-- The deepest nesting among a list of replies. -/
def reply.nesting_list : List reply → Nat
  | [] => 0
  | c :: cs => max c.nesting (reply.nesting_list cs)
end

mutual
/-- Number of `\r\n`-terminated lines the parser reads for a reply: two for a
blob string, one for every other leaf and for an array header. -/
def reply.lines : reply → Nat
  | .blob_string _ => 2
  | .array children => 1 + reply.lines_list children
  | _ => 1
/-- Number of lines of a list of replies. -/
def reply.lines_list : List reply → Nat
  | [] => 0
  | c :: cs => c.lines + reply.lines_list cs
end

mutual
/-- The replies the round trip is stated for: line bodies contain no `\r\n`,
blob bodies are non-empty and contain no `\r\n`, and the child count of an
array fits the `int` it is stored in. -/
def reply.well_formed : reply → Prop
  | .simple_string body => find_crlf body = none
  | .simple_error body => find_crlf body = none
  | .number _ => True
  | .null => True
  | .blob_string body => body ≠ [] ∧ find_crlf body = none
  | .array children => children.length < 2 ^ 31 ∧ reply.well_formed_list children
/-- Every reply of the list is well formed. -/
def reply.well_formed_list : List reply → Prop
  | [] => True
  | c :: cs => c.well_formed ∧ reply.well_formed_list cs
end

/-- The end of an iteration that has finished a token (`str_flag` false), after
`buf->erase`: the collapse loop, then completion at depth 0 or the next read. -/
def after_token (fuel : Nat) (op : parse_op) : outcome :=
  match collapse op.depth op.sizes with
  | .below_sentinel => .undefined
  | .signed_overflow => .signed_overflow
  | .stopped depth sizes =>
    if depth = 0 then .complete none { op with depth := depth, sizes := sizes }
    else run fuel { op with depth := depth, sizes := sizes, bulky := false, start := 0 }

/-- What holds of the state `op'` reached from `op` once a token sequence with
the given leaf bodies has been consumed: only `rest` is left in the buffer, the
bodies have been appended, and the frames up to the current depth hold the
counts of `target`. -/
def token_post (op op' : parse_op) (rest : Bytes) (leaves : List Bytes)
    (target : List Int) : Prop :=
  op'.buf = rest ∧ op'.res = ⟨op.res.res ++ leaves⟩ ∧ op'.start = 0 ∧
    op'.depth = op.depth ∧ op'.sizes.length = 6 ∧
    ∀ i, i ≤ op.depth → op'.sizes.getD i 0 = target.getD i 0

/-- The parser reads a whole well-formed reply of nesting at most `m`: from any
state in header mode with an open frame (whose count is not `INT_MIN`) and room
for `m` more frames, the reads of the reply end in `after_token` of a state
satisfying `token_post`. -/
def reply_ok (m : Nat) : Prop :=
  ∀ t : reply, t.nesting ≤ m → t.well_formed →
    ∀ (op : parse_op) (rest : Bytes), op.start = 0 → op.bulky = false →
      op.buf = t.encode ++ rest → op.depth + m ≤ 5 → op.sizes.length = 6 →
      op.sizes.getD op.depth 0 ≠ 0 → op.sizes.getD op.depth 0 ≠ INT_MIN →
      ∃ op', token_post op op' rest t.leaves (dec_size op.sizes op.depth) ∧
        ∀ fuel, run (fuel + t.lines) op = after_token fuel op'

/-! ### Response sinks (`response.hpp`) -/

/-- The error kinds of `enum class error`. -/
inductive error where
  | simple_error
  | blob_error
  | none
deriving DecidableEq, Repr

/-- The private members of `class response_base` with their initialisers. -/
structure response_base where
  err_ : error := .none
  is_null_ : Bool := false
  err_msg_ : Bytes := []
deriving DecidableEq, Repr

def response_base.get_error (b : response_base) : error := b.err_

def response_base.message (b : response_base) : Bytes := b.err_msg_

def response_base.on_simple_error (b : response_base) (s : Bytes) : response_base :=
  { b with err_ := .simple_error, err_msg_ := s }

def response_base.on_blob_error (b : response_base) (s : Bytes) : response_base :=
  { b with err_ := .blob_error, err_msg_ := s }

def response_base.on_null (b : response_base) : response_base :=
  { b with is_null_ := true }

/-- A sink derived from `response_base`: the base subobject and the member
`result` the derived struct adds, of the type `R` of that sink. -/
structure sink (R : Type) where
  base : response_base := {}
  result : R

/-- The inherited, non-virtual `on_simple_error` on a derived sink. -/
def sink.on_simple_error {R : Type} (s : sink R) (m : Bytes) : sink R :=
  { s with base := s.base.on_simple_error m }

/-- The inherited, non-virtual `on_blob_error` on a derived sink. -/
def sink.on_blob_error {R : Type} (s : sink R) (m : Bytes) : sink R :=
  { s with base := s.base.on_blob_error m }

/-- The inherited `on_null` on a derived sink. -/
def sink.on_null {R : Type} (s : sink R) : sink R :=
  { s with base := s.base.on_null }

def sink.get_error {R : Type} (s : sink R) : error := s.base.get_error

def sink.message {R : Type} (s : sink R) : Bytes := s.base.message

/-- What a callback of a sink throws. -/
inductive exception where
  | runtime_error (what : String)
deriving DecidableEq, Repr

/-- An integral type `T`: signedness and width in bits. -/
structure int_type where
  signed : Bool
  bits : Nat
deriving DecidableEq, Repr

/-- The least value of an integral type. -/
def int_type.min (T : int_type) : Int :=
  if T.signed then -(2 ^ (T.bits - 1)) else 0

/-- The greatest value of an integral type. -/
def int_type.max (T : int_type) : Int :=
  if T.signed then 2 ^ (T.bits - 1) - 1 else 2 ^ T.bits - 1

/-- The values of `std::errc` that `std::from_chars` reports; `ok` is the
value-initialised `errc`. -/
inductive errc where
  | ok
  | invalid_argument
  | result_out_of_range
deriving DecidableEq, Repr

/-- The struct `std::from_chars_result`; `ptr` is an offset from `first`. -/
structure from_chars_result where
  ptr : Nat
  ec : errc
deriving DecidableEq, Repr

/-- A decimal digit byte. -/
def is_digit (c : Char) : Bool := 48 ≤ c.toNat && c.toNat ≤ 57

/-- The library function `std::from_chars(first, last, value)` for an integral
`value` in base 10, as the C++ standard describes it: the pattern is a minus
sign (signed types only) followed by one or more digits, with no leading
white space and no plus sign. Without a match the result is
`invalid_argument`; a match whose value is not representable gives
`result_out_of_range`; in both cases `value` is left unmodified. The second
component is `value` after the call. -/
def from_chars (T : int_type) (s : Bytes) (value : Int) : from_chars_result × Int :=
  let neg : Bool := T.signed && s.head? = some '-'
  let body := if neg then s.drop 1 else s
  let ds := body.takeWhile is_digit
  if ds = [] then (⟨0, .invalid_argument⟩, value)
  else
    let v : Int := if neg then -(digits_value ds : Int) else (digits_value ds : Int)
    let ptr := (if neg then 1 else 0) + ds.length
    if T.min ≤ v ∧ v ≤ T.max then (⟨ptr, .ok⟩, v)
    else (⟨ptr, .result_out_of_range⟩, value)

/-- The overload `from_string_view(std::string_view s, T& n)` for integral `T`;
the result is `n` after the call. -/
def from_string_view_int (T : int_type) (s : Bytes) (n : Int) : Except exception Int :=
  let r := from_chars T s n
  if r.1.ec = .invalid_argument then .error (.runtime_error "from_chars: Unable to convert")
  else .ok r.2

/-- The overload `from_string_view(std::string_view s, std::string& r)`. -/
def from_string_view (s : Bytes) (_r : Bytes) : Bytes := s

/-- The sink `response_number<T>`: `result` of the integral type `T`. -/
abbrev response_number := sink Int

/-- The override `response_number<T>::on_number`. -/
def response_number.on_number (T : int_type) (r : response_number) (s : Bytes) :
    Except exception response_number :=
  match from_string_view_int T s r.result with
  | .error e => .error e
  | .ok n => .ok { r with result := n }

/-- The sink `response_simple_string`. -/
abbrev response_simple_string := sink Bytes

/-- The override `response_simple_string::on_simple_string`. -/
def response_simple_string.on_simple_string (r : response_simple_string) (s : Bytes) :
    response_simple_string :=
  { r with result := from_string_view s r.result }

/-- A default-constructed `response_simple_string`: no error, empty result. -/
def response_simple_string.fresh : response_simple_string := { result := [] }

/-- The sink `response_bool`. -/
abbrev response_bool := sink Bool

/-- The override `response_bool::on_bool`: a body whose size is not 1 throws,
otherwise `result = s[0] == 't'`. -/
def response_bool.on_bool (r : response_bool) (s : Bytes) : Except exception response_bool :=
  if (s.length : Int) ≠ 1 then .error (.runtime_error "Bool has wrong size")
  else .ok { r with result := decide (s.head? = some 't') }

/-- The virtual member functions of `response_base`, each with its argument: the
aggregate selectors and the leaf callbacks a derived sink may override. -/
inductive callback where
  | select_push (n : Int)
  | select_attribute (n : Int)
  | select_array (n : Int)
  | select_set (n : Int)
  | select_map (n : Int)
  | on_simple_string (s : Bytes)
  | on_number (s : Bytes)
  | on_double (s : Bytes)
  | on_bool (s : Bytes)
  | on_big_number (s : Bytes)
  | on_verbatim_string (s : Bytes)
  | on_blob_string (s : Bytes)
  | on_streamed_string_part (s : Bytes)
deriving DecidableEq, Repr

/-- The body of a virtual member in `response_base`: it throws a
`std::runtime_error` that names the member. -/
def response_base.not_overridden : callback → exception
  | .select_push _ => .runtime_error "select_push: Has not been overridden."
  | .select_attribute _ => .runtime_error "select_attribute: Has not been overridden."
  | .select_array _ => .runtime_error "select_array: Has not been overridden."
  | .select_set _ => .runtime_error "select_set: Has not been overridden."
  | .select_map _ => .runtime_error "select_map: Has not been overridden."
  | .on_simple_string _ => .runtime_error "on_simple_string: Has not been overridden."
  | .on_number _ => .runtime_error "on_number: Has not been overridden."
  | .on_double _ => .runtime_error "on_double: Has not been overridden."
  | .on_bool _ => .runtime_error "on_bool: Has not been overridden."
  | .on_big_number _ => .runtime_error "on_big_number: Has not been overridden."
  | .on_verbatim_string _ => .runtime_error "on_verbatim_string: Has not been overridden."
  | .on_blob_string _ => .runtime_error "on_blob_string: Has not been overridden."
  | .on_streamed_string_part _ =>
    .runtime_error "on_streamed_string_part: Has not been overridden."

/-- The body a leaf callback carries; a selector carries none. -/
def callback.body : callback → Option Bytes
  | .on_simple_string s => some s
  | .on_number s => some s
  | .on_double s => some s
  | .on_bool s => some s
  | .on_big_number s => some s
  | .on_verbatim_string s => some s
  | .on_blob_string s => some s
  | .on_streamed_string_part s => some s
  | _ => none

/-- The effect of a virtual call on a sink: the sink after the call and the
exception the call has thrown, if any. -/
structure call_result (R : Type) where
  after : sink R
  raised : Option exception

/-- A virtual call on `response_number<T>`: `on_number` is the only override. -/
def response_number.call (T : int_type) (r : response_number) :
    callback → call_result Int
  | .on_number s =>
    match response_number.on_number T r s with
    | .ok r1 => ⟨r1, none⟩
    | .error e => ⟨r, some e⟩
  | cb => ⟨r, some (response_base.not_overridden cb)⟩

/-- The sink `response_array<std::string>` (also `response_flat_map`,
`response_flat_set`): `result` is a `std::vector<std::string>`. -/
abbrev response_array := sink (List Bytes)

/-- The private member `response_array::add`: converts the body and appends it. -/
def response_array.add (r : response_array) (s : Bytes := []) : response_array :=
  let t := from_string_view s []
  { r with result := r.result ++ [t] }

/-- A virtual call on `response_array<std::string>`: the five selectors are
overridden with empty bodies, the eight leaf callbacks with `add(s)`. -/
def response_array.call (r : response_array) : callback → call_result (List Bytes)
  | .select_array _ => ⟨r, none⟩
  | .select_push _ => ⟨r, none⟩
  | .select_set _ => ⟨r, none⟩
  | .select_map _ => ⟨r, none⟩
  | .select_attribute _ => ⟨r, none⟩
  | .on_simple_string s => ⟨r.add s, none⟩
  | .on_number s => ⟨r.add s, none⟩
  | .on_double s => ⟨r.add s, none⟩
  | .on_bool s => ⟨r.add s, none⟩
  | .on_big_number s => ⟨r.add s, none⟩
  | .on_verbatim_string s => ⟨r.add s, none⟩
  | .on_blob_string s => ⟨r.add s, none⟩
  | .on_streamed_string_part s => ⟨r.add s, none⟩

/-- A sequence of virtual calls on a `response_array`, first to last, up to the
first call that throws. -/
def response_array.calls (r : response_array) : List callback → call_result (List Bytes)
  | [] => ⟨r, none⟩
  | cb :: cs =>
    match (r.call cb).raised with
    | none => response_array.calls (r.call cb).after cs
    | some e => ⟨(r.call cb).after, some e⟩

/-- A default-constructed `response_array<std::string>`. -/
def response_array.fresh : response_array := { result := [] }

/-- The sink `response_set<std::string>`: `result` is a `std::set<std::string>`,
a container of distinct keys. -/
abbrev response_set := sink (Finset Bytes)

/-- The private member `response_set::add`: `result.insert(std::end(result), r)`
inserts the converted body unless an equal key is already there. -/
def response_set.add (r : response_set) (s : Bytes) : response_set :=
  let t := from_string_view s []
  { r with result := insert t r.result }

/-- A virtual call on `response_set<std::string>`: `select_set`,
`on_blob_string` and `on_simple_string` are the overrides. -/
def response_set.call (r : response_set) : callback → call_result (Finset Bytes)
  | .select_set _ => ⟨r, none⟩
  | .on_blob_string s => ⟨r.add s, none⟩
  | .on_simple_string s => ⟨r.add s, none⟩
  | cb => ⟨r, some (response_base.not_overridden cb)⟩

/-- A sequence of virtual calls on a `response_set`, up to the first that throws. -/
def response_set.calls (r : response_set) : List callback → call_result (Finset Bytes)
  | [] => ⟨r, none⟩
  | cb :: cs =>
    match (r.call cb).raised with
    | none => response_set.calls (r.call cb).after cs
    | some e => ⟨(r.call cb).after, some e⟩

/-- A default-constructed `response_set<std::string>`. -/
def response_set.fresh : response_set := { result := ∅ }

/-- A body delivered to a set sink: through `on_simple_string` when the flag is
true, through `on_blob_string` otherwise. -/
def set_delivery (d : Bool × Bytes) : callback :=
  if d.1 then .on_simple_string d.2 else .on_blob_string d.2

/-- The states of a parse between two resumptions in which the slot
`sizes[0]` is untouched: a read has been issued, `depth` is an index of
`sizes[0..5]`, `sizes[0]` still holds 2 and the current frame is open. -/
def slot_inv (op : parse_op) : Prop :=
  op.start = 0 ∧ op.depth ≤ 5 ∧ op.sizes.length = 6 ∧ op.sizes.getD 0 0 = 2 ∧
    op.sizes.getD op.depth 0 ≠ 0

end resp

/-! ### Sentinel discovery (`sentinel_op2`) -/

open resp

/-- The record `struct instance` (a reserved word here): host, port and name. -/
structure instance_record where
  host : Bytes
  port : Bytes
  name : Bytes
deriving DecidableEq, Repr

/-- The struct `sentinel_op2::config` with its default member initialisers. -/
structure sentinel_op2.config where
  sentinels : List Bytes := ["127.0.0.1".toList, "26379".toList]
  name : Bytes := "mymaster".toList
  role : Bytes := "master".toList
deriving DecidableEq, Repr

/-- The states of `sentinel_op2::op_state`. -/
inductive sentinel_op2.op_state where
  | on_connect
  | on_write
  | on_read
deriving DecidableEq, Repr

/-- The struct `sentinel_op2::impl` without the stream and the resolver: the
read buffer, the response, the caller's instance record `*inst`, the state,
the command and the configuration. -/
structure sentinel_op2.impl where
  buffer : Bytes := []
  res : response := ⟨[]⟩
  inst : instance_record
  opstate : sentinel_op2.op_state := .on_connect
  cmd : Bytes := []
  cfg : sentinel_op2.config
deriving DecidableEq, Repr

/-- The constructor of `sentinel_op2`: it builds the `impl` and throws when the
flat sentinel list is empty or of odd size. -/
def sentinel_op2.construct (cfg : sentinel_op2.config) (inst : instance_record) :
    Except exception sentinel_op2.impl :=
  let impl_ : sentinel_op2.impl := { inst := inst, cfg := cfg }
  let n := cfg.sentinels.length
  if n = 0 ∨ n % 2 ≠ 0 then .error (.runtime_error "sentinel_op2: wrong size.")
  else .ok impl_

/-- The outcomes of the network for the candidates of the sentinel list, by
index `i` of the pair `(sentinels[2 * i], sentinels[2 * i + 1])`: the error
code of `resolve` and the error code of `net::connect` on the resolved
endpoints (`none` is success). -/
structure network where
  resolve : Nat → Option error_code
  connect : Nat → Option error_code

/-- How the loop of the `on_connect` case ends: with `self.complete(ec)`, with
`break` after a successful connect to candidate `i`, or with its condition
`i < n` false. -/
inductive loop_exit where
  | completed (ec : error_code)
  | connected (i : Nat)
  | exhausted (i : Nat)
deriving DecidableEq, Repr

/-- The loop `for (i = 0; i < n; ++i)` of the `on_connect` case, from index `i`
with `remaining = n - i` iterations to go; `size` is `std::size(sentinels)`. -/
def sentinel_op2.connect_loop (size : Nat) (net : network) : Nat → Nat → loop_exit
  | 0, i => .exhausted i
  | remaining + 1, i =>
    match net.resolve i with
    | some ec => .completed ec
    | none =>
      match net.connect i with
      | none => .connected i
      | some ec =>
        if 2 * (i + 1) = size then .completed ec
        else sentinel_op2.connect_loop size net remaining (i + 1)

/-- What one resumption of `sentinel_op2::operator()` ends in. -/
inductive sentinel_outcome where
  | complete (ec : Option error_code) (s : sentinel_op2.impl)
  | async_write (s : sentinel_op2.impl)
  | async_read (s : sentinel_op2.impl)
deriving DecidableEq, Repr

/-- One resumption `sentinel_op2::operator()(self, ec, n)`, by the state
`opstate`. In the `on_read` case the response `res` is the one the parse has
filled. -/
def sentinel_op2.resume (s : sentinel_op2.impl) (net : network) (ec : Option error_code) :
    sentinel_outcome :=
  match s.opstate with
  | .on_connect =>
    let n := s.cfg.sentinels.length / 2
    match sentinel_op2.connect_loop s.cfg.sentinels.length net n 0 with
    | .completed e => .complete (some e) s
    | _ =>
      let p : pipeline := ⟨[]⟩
      let p := p.sentinel "get-master-addr-by-name".toList s.inst.name
      let s := { s with inst := { s.inst with name := s.cfg.name } }
      let s := { s with cmd := p.payload }
      let s := { s with opstate := .on_write }
      .async_write s
  | .on_write =>
    if ec.isSome then .complete ec s
    else .async_read { s with opstate := .on_read }
  | .on_read =>
    let n := s.res.res.length
    let s := if n > 1 then
        { s with inst := { s.inst with host := s.res.res.getD 0 [], port := s.res.res.getD 1 [] } }
      else s
    .complete ec s

namespace resp

/-- What `slot_inv` gives for the result of looking at a line: a state whose
slot `sizes[0]` holds 2, or 1 when it was decremented at depth 0, and whose
frames below the current one are untouched; an overflow of `sizes` only from
an array header at depth 5; a signed overflow only from the decrement of a
current frame count that holds `INT_MIN`. -/
def line_slot (op : parse_op) : line_result → Prop
  | .ok op1 flag =>
    op1.start = 0 ∧ op1.depth ≤ 5 ∧ op1.sizes.length = 6 ∧
      (op1.depth = 0 → op1.sizes.getD 0 0 = 1 ∨ op1.sizes.getD 0 0 = 2) ∧
      (op1.depth ≠ 0 → op1.sizes.getD 0 0 = 2) ∧
      (flag = true → op1.sizes.getD op1.depth 0 ≠ 0 ∧ op1.sizes.getD 0 0 = 2) ∧
      op1.depth ≤ op.depth + 1 ∧
      (∀ i, i < op1.depth → op1.sizes.getD i 0 = op.sizes.getD i 0)
  | .assert_failed => True
  | .undefined => op.depth = 5 ∧ op.bulky = false ∧ op.buf.head? = some '*'
  | .signed_overflow => op.sizes.getD op.depth 0 = INT_MIN

/-- What `slot_inv` gives for the outcome of a resumption: the next suspended
state satisfies it again, a completion has `depth` within `sizes[0..5]` and
`sizes[0] >= 1`, an access outside `sizes` comes only from an array header at
depth 5, never from the collapse loop, and a signed overflow only from a frame
count at or below the current depth that holds `INT_MIN`. -/
def resume_slot (op : parse_op) : outcome → Prop
  | .suspended op1 => slot_inv op1
  | .complete _ op1 => op1.depth ≤ 5 ∧ 1 ≤ op1.sizes.getD 0 0
  | .assert_failed _ => True
  | .undefined => op.depth = 5 ∧ op.bulky = false ∧ op.buf.head? = some '*'
  | .signed_overflow => ∃ i, i ≤ op.depth ∧ op.sizes.getD i 0 = INT_MIN

end resp
end aedis

namespace aedis
namespace resp

/-! ## Request builder -/

theorem to_string_size_eq (n : Nat) : to_string_size n = (Nat.repr n).toList := rfl

theorem to_string_eq (i : Int) : to_string i = (toString i).toList := by
  cases i with
  | ofNat n =>
    have h : ¬ ((Int.ofNat n) < 0) := by simp
    simp only [to_string, h, if_false]
    rfl
  | negSucc n =>
    have h : (Int.negSucc n) < 0 := Int.negSucc_lt_zero n
    simp only [to_string, h, if_true]
    rfl

theorem make_bulky_item_eq (a b : Bytes) : make_bulky_item a b = a ++ bulk_item b := by
  simp [make_bulky_item, bulk_item, to_string_size_eq]

theorem make_header_eq (a : Bytes) (n : Int) : make_header a n = a ++ array_header n := by
  simp [make_header, array_header, to_string_eq]

theorem accumulator_eq (a : Bytes) (e : Elem) : accumulator a e = a ++ bulk_items e.items := by
  cases e <;> simp [accumulator, make_bulky_item_eq, bulk_items, Elem.items, to_string_eq]

theorem foldl_accumulator (range : List Elem) (a : Bytes) :
    range.foldl accumulator a = a ++ bulk_items (range.flatMap Elem.items) := by
  induction range generalizing a with
  | nil => simp [bulk_items]
  | cons e t ih => simp [ih, accumulator_eq, bulk_items]

theorem foldl_key (key : List Bytes) (a : Bytes) :
    key.foldl (fun acc k => accumulator acc (.str k)) a = a ++ bulk_items key := by
  induction key generalizing a with
  | nil => simp [bulk_items]
  | cons e t ih =>
    rw [List.foldl_cons, ih, accumulator_eq]
    simp [bulk_items, Elem.items]

theorem assemble_eq (ret cmd : Bytes) (key : List Bytes) (range : List Elem) (size : Int) :
    assemble ret cmd key range size =
      ret ++ (array_header (to_int (1 + key.length + size * range.length)) ++
        bulk_items (cmd :: key ++ range.flatMap Elem.items)) := by
  simp [assemble, foldl_accumulator, foldl_key, make_header_eq, make_bulky_item_eq, bulk_items]

theorem to_int_small (v : Int) (h0 : -2 ^ 31 ≤ v) (h1 : v < 2 ^ 31) : to_int v = v := by
  unfold to_int
  omega

/-- C5: `make_bulky_item(to, param)` leaves `to` equal to its old value followed
by `$`, the decimal text of the byte length of `param`, `\r\n`, `param` and
`\r\n`; for the empty string the appended bytes are exactly `$0\r\n\r\n`. -/
theorem make_bulky_item_encoding (to_ param : Bytes) :
    make_bulky_item to_ param =
        to_ ++ (['$'] ++ (Nat.repr param.length).toList ++ ['\r', '\n'] ++ param ++ ['\r', '\n']) ∧
      make_bulky_item to_ [] = to_ ++ ['$', '0', '\r', '\n', '\r', '\n'] := by
  constructor
  · simp [make_bulky_item, to_string_size_eq]
  · simp [make_bulky_item, to_string_size_eq]
    rfl

/-- C3: for a command name, `k` fixed arguments and a repeated section of `m`
elements with the arity `t` passed as `size`, whenever `n = 1 + k + m * t` is a
value of the `int` that `make_header` takes, the generic `assemble` appends
exactly the header `*<n>\r\n`, then the bulk-encoded command name, the fixed
arguments as bulks in order, and the repeated elements flattened in arrival
order (pair first then second, integers in decimal text). -/
theorem assemble_header_arithmetic (ret cmd : Bytes) (key : List Bytes) (range : List Elem)
    (t : Int) (hlo : -2 ^ 31 ≤ 1 + (key.length : Int) + range.length * t)
    (hhi : 1 + (key.length : Int) + range.length * t < 2 ^ 31) :
    assemble ret cmd key range t =
      ret ++ array_header (1 + key.length + range.length * t) ++ bulk_item cmd ++
        bulk_items key ++ bulk_items (range.flatMap Elem.items) := by
  rw [assemble_eq, mul_comm, to_int_small _ hlo hhi]
  simp [bulk_items]

theorem assemble_header_arithmetic_witness :
    -2 ^ 31 ≤ 1 + (([['k']] : List Bytes).length : Int) +
        ([Elem.pair_ss ['a'] ['b'], Elem.pair_ss ['c'] ['d']].length : Int) * 2 ∧
      1 + (([['k']] : List Bytes).length : Int) +
        ([Elem.pair_ss ['a'] ['b'], Elem.pair_ss ['c'] ['d']].length : Int) * 2 < 2 ^ 31 ∧
      assemble ['x'] "HSET".toList [['k']]
          [Elem.pair_ss ['a'] ['b'], Elem.pair_ss ['c'] ['d']] 2 =
        ['x'] ++ array_header (1 + ([['k']] : List Bytes).length +
            [Elem.pair_ss ['a'] ['b'], Elem.pair_ss ['c'] ['d']].length * 2) ++
          bulk_item "HSET".toList ++ bulk_items [['k']] ++
          bulk_items ([Elem.pair_ss ['a'] ['b'], Elem.pair_ss ['c'] ['d']].flatMap Elem.items) :=
  ⟨by decide, by decide,
    assemble_header_arithmetic ['x'] "HSET".toList [['k']]
      [Elem.pair_ss ['a'] ['b'], Elem.pair_ss ['c'] ['d']] 2 (by decide) (by decide)⟩

theorem assemble_frame (ret cmd : Bytes) (key : List Bytes) (range : List Elem) (size : Int) :
    assemble ret cmd key range size = ret ++ assemble [] cmd key range size := by
  rw [assemble_eq, assemble_eq]
  simp

theorem assemble_cmd_frame (ret cmd : Bytes) : assemble_cmd ret cmd = ret ++ assemble_cmd [] cmd := by
  simp [assemble_cmd, make_header_eq, make_bulky_item_eq]

theorem assemble_key_frame (ret cmd key : Bytes) :
    assemble_key ret cmd key = ret ++ assemble_key [] cmd key := by
  unfold assemble_key
  exact assemble_frame ret cmd [key] [] 1

theorem call_frame (p : pipeline) (c : builder_call) :
    (p.call c).payload = p.payload ++ ((⟨[]⟩ : pipeline).call c).payload := by
  cases c <;>
    simp only [pipeline.call, pipeline.ping, pipeline.quit, pipeline.multi, pipeline.exec, pipeline.bgrewriteaof, pipeline.role,
      pipeline.bgsave, pipeline.flushall, pipeline.incr, pipeline.auth, pipeline.lpop, pipeline.subscribe,
      pipeline.unsubscribe, pipeline.get, pipeline.hello, pipeline.hlen, pipeline.hgetall, pipeline.hvals,
      pipeline.del, pipeline.llen, pipeline.sentinel, pipeline.append, pipeline.bitcount, pipeline.rpush,
      pipeline.lpush, pipeline.psubscribe, pipeline.publish, pipeline.set, pipeline.hset, pipeline.hset_map,
      pipeline.hincrby, pipeline.hkeys, pipeline.hget, pipeline.hmget, pipeline.expire, pipeline.zadd,
      pipeline.zadd_map, pipeline.zrange, pipeline.zrangebyscore, pipeline.zremrangebyscore, pipeline.lrange, pipeline.ltrim] <;>
    first
    | rw [assemble_cmd_frame]
    | rw [assemble_key_frame]
    | rw [assemble_frame]

/-- C6: appending a command `c1` and then a command `c2` to any payload `P`
yields `P`, unchanged as a leading part, followed by exactly the bytes that
appending `c1` and then `c2` to a fresh empty payload produces. -/
theorem append_independent_of_payload (P : Bytes) (c1 c2 : builder_call) :
    (((⟨P⟩ : pipeline).call c1).call c2).payload =
      P ++ (((⟨[]⟩ : pipeline).call c1).call c2).payload := by
  rw [call_frame ((⟨P⟩ : pipeline).call c1) c2, call_frame ⟨P⟩ c1,
    call_frame ((⟨[]⟩ : pipeline).call c1) c2]
  simp

/-! ## Decimal text -/

theorem digitChar_toNat (d : Nat) (h : d < 10) : (Nat.digitChar d).toNat = 48 + d := by
  interval_cases d <;> rfl

theorem digits_value_snoc (l : Bytes) (c : Char) :
    digits_value (l ++ [c]) = 10 * digits_value l + (c.toNat - 48) := by
  simp [digits_value, List.foldl_append]

theorem toDigitsCore_spec (fuel : Nat) : ∀ (n : Nat) (ds : List Char), n < fuel →
    ∃ l, Nat.toDigitsCore 10 fuel n ds = l ++ ds ∧ l ≠ [] ∧
      (∀ c ∈ l, 48 ≤ c.toNat ∧ c.toNat < 58) ∧ digits_value l = n := by
  induction fuel with
  | zero => intro n ds h; omega
  | succ fuel ih =>
    intro n ds h
    have hd : n % 10 < 10 := Nat.mod_lt _ (by decide)
    have hc := digitChar_toNat (n % 10) hd
    by_cases h0 : n / 10 = 0
    · refine ⟨[Nat.digitChar (n % 10)], ?_, by simp, ?_, ?_⟩
      · simp [Nat.toDigitsCore, h0]
      · intro c hmem
        simp only [List.mem_singleton] at hmem
        subst hmem
        omega
      · simp only [digits_value, List.foldl_cons, List.foldl_nil, hc]
        omega
    · have hlt : n / 10 < fuel := by omega
      obtain ⟨l, hl, _, hdig, hval⟩ := ih (n / 10) (Nat.digitChar (n % 10) :: ds) hlt
      refine ⟨l ++ [Nat.digitChar (n % 10)], ?_, by simp, ?_, ?_⟩
      · simp [Nat.toDigitsCore, h0, hl]
      · intro c hmem
        rcases List.mem_append.1 hmem with hm | hm
        · exact hdig c hm
        · simp only [List.mem_singleton] at hm
          subst hm
          omega
      · rw [digits_value_snoc, hval, hc]
        omega

theorem toDigits_spec (n : Nat) :
    Nat.toDigits 10 n ≠ [] ∧ (∀ c ∈ Nat.toDigits 10 n, 48 ≤ c.toNat ∧ c.toNat < 58) ∧
      digits_value (Nat.toDigits 10 n) = n := by
  obtain ⟨l, hl, hne, hdig, hval⟩ := toDigitsCore_spec (n + 1) n [] (Nat.lt_succ_self n)
  have : Nat.toDigits 10 n = l := by simpa [Nat.toDigits] using hl
  rw [this]
  exact ⟨hne, hdig, hval⟩

theorem repr_toList (n : Nat) : (Nat.repr n).toList = Nat.toDigits 10 n := rfl

theorem digit_ne_cr (c : Char) (h : 48 ≤ c.toNat ∧ c.toNat < 58) : c ≠ '\r' := by
  rintro rfl
  revert h
  decide

theorem split_at_cr (l1 : Bytes) : ∀ (l2 x y : Bytes), (∀ c ∈ l1, c ≠ '\r') →
    (∀ c ∈ l2, c ≠ '\r') → l1 ++ '\r' :: x = l2 ++ '\r' :: y → l1 = l2 ∧ x = y := by
  induction l1 with
  | nil =>
    intro l2 x y _ h2 h
    cases l2 with
    | nil => simpa using h
    | cons c t =>
      simp only [List.nil_append, List.cons_append, List.cons.injEq] at h
      exact absurd h.1.symm (h2 c (by simp))
  | cons a t ih =>
    intro l2 x y h1 h2 h
    cases l2 with
    | nil =>
      simp only [List.nil_append, List.cons_append, List.cons.injEq] at h
      exact absurd h.1 (h1 a (by simp))
    | cons c t2 =>
      simp only [List.cons_append, List.cons.injEq] at h
      obtain ⟨rfl, ht⟩ := h
      obtain ⟨rfl, hxy⟩ := ih t2 x y (fun c hc => h1 c (by simp [hc]))
        (fun c hc => h2 c (by simp [hc])) ht
      exact ⟨rfl, hxy⟩

theorem toDigits_inj_append (n m : Nat) (x y : Bytes)
    (h : Nat.toDigits 10 n ++ '\r' :: x = Nat.toDigits 10 m ++ '\r' :: y) : n = m ∧ x = y := by
  obtain ⟨_, hn, hvn⟩ := toDigits_spec n
  obtain ⟨_, hm, hvm⟩ := toDigits_spec m
  obtain ⟨hl, hxy⟩ := split_at_cr _ _ x y (fun c hc => digit_ne_cr c (hn c hc))
    (fun c hc => digit_ne_cr c (hm c hc)) h
  refine ⟨?_, hxy⟩
  rw [← hvn, ← hvm, hl]

/-! ## Payload invariant -/

theorem bulk_item_inj (a b x y : Bytes) (h : bulk_item a ++ x = bulk_item b ++ y) :
    a = b ∧ x = y := by
  simp only [bulk_item, repr_toList, List.cons_append, List.append_assoc, List.cons.injEq,
    true_and] at h
  obtain ⟨hlen, hrest⟩ := toDigits_inj_append _ _ _ _ h
  simp only [List.cons_append, List.nil_append, List.cons.injEq, true_and] at hrest
  obtain ⟨hab, hxy⟩ := List.append_inj hrest hlen
  simp only [List.cons.injEq, true_and] at hxy
  exact ⟨hab, hxy⟩

theorem array_header_nat (n : Nat) :
    array_header (n : Int) = '*' :: Nat.toDigits 10 n ++ ['\r', '\n'] := rfl

theorem array_header_inj (n m : Nat) (x y : Bytes)
    (h : array_header (n : Int) ++ x = array_header (m : Int) ++ y) : n = m ∧ x = y := by
  simp only [array_header_nat, List.cons_append, List.append_assoc, List.cons.injEq,
    true_and, List.nil_append] at h
  obtain ⟨hnm, hrest⟩ := toDigits_inj_append _ _ _ _ h
  simp only [List.cons.injEq, true_and] at hrest
  exact ⟨hnm, hrest⟩

theorem items_strs (l : List Bytes) : (strs l).flatMap Elem.items = l := by
  induction l with
  | nil => rfl
  | cons a t ih =>
    simp only [strs, List.map_cons, List.flatMap_cons] at ih ⊢
    rw [ih]
    rfl

theorem items_map_length (m : List (map_key × Bytes)) :
    ((m.map map_entry).flatMap Elem.items).length = 2 * m.length := by
  induction m with
  | nil => rfl
  | cons a t ih =>
    simp only [List.map_cons, List.flatMap_cons, List.length_append, ih, List.length_cons]
    obtain ⟨k, v⟩ := a
    cases k <;> simp [map_entry, Elem.items] <;> omega

theorem items_scalar_length (range : List Elem) (h : ∀ e ∈ range, e.items.length = 1) :
    (range.flatMap Elem.items).length = range.length := by
  induction range with
  | nil => rfl
  | cons a t ih =>
    simp only [List.flatMap_cons, List.length_append, List.length_cons]
    rw [ih (fun e he => h e (by simp [he])), h a (by simp)]
    omega

theorem assemble_segment (ret cmd : Bytes) (key : List Bytes) (range : List Elem) (size : Int)
    (hlen : ((range.flatMap Elem.items).length : Int) = size * range.length)
    (hfit : 1 + key.length + (range.flatMap Elem.items).length < 2 ^ 31) :
    assemble ret cmd key range size = ret ++ segment (cmd :: key ++ range.flatMap Elem.items) := by
  have hv : (1 : Int) + key.length + size * range.length =
      (((cmd :: key ++ range.flatMap Elem.items).length : Nat) : Int) := by
    simp only [List.length_cons, List.length_append]
    push_cast
    rw [hlen]
    ring
  have hsmall : to_int ((1 : Int) + key.length + size * range.length) =
      (((cmd :: key ++ range.flatMap Elem.items).length : Nat) : Int) := by
    rw [hv]
    apply to_int_small
    · have : (0 : Int) ≤ (((cmd :: key ++ range.flatMap Elem.items).length : Nat) : Int) :=
        Int.ofNat_nonneg _
      omega
    · have hl : (cmd :: key ++ range.flatMap Elem.items).length < 2 ^ 31 := by
        simp only [List.length_cons, List.length_append]
        omega
      exact_mod_cast hl
  rw [assemble_eq, segment, hsmall]

theorem assemble_strs_segment (ret cmd : Bytes) (key l : List Bytes)
    (hfit : 1 + key.length + l.length < 2 ^ 31) :
    assemble ret cmd key (strs l) = ret ++ segment (cmd :: key ++ l) := by
  rw [assemble_segment _ _ _ _ _ (by rw [items_strs]; simp [strs]) (by rw [items_strs]; exact hfit),
    items_strs]

theorem assemble_map_segment (ret cmd : Bytes) (key : List Bytes) (m : List (map_key × Bytes))
    (hfit : 1 + key.length + 2 * m.length < 2 ^ 31) :
    assemble ret cmd key (m.map map_entry) 2 =
      ret ++ segment (cmd :: key ++ (m.map map_entry).flatMap Elem.items) := by
  rw [assemble_segment _ _ _ _ _ (by rw [items_map_length]; simp)
    (by rw [items_map_length]; exact hfit)]

theorem assemble_scalar_segment (ret cmd : Bytes) (key : List Bytes) (range : List Elem)
    (h : ∀ e ∈ range, e.items.length = 1) (hfit : 1 + key.length + range.length < 2 ^ 31) :
    assemble ret cmd key range = ret ++ segment (cmd :: key ++ range.flatMap Elem.items) := by
  rw [assemble_segment _ _ _ _ _ (by rw [items_scalar_length range h]; simp)
    (by rw [items_scalar_length range h]; exact hfit)]

theorem assemble_cmd_segment (ret cmd : Bytes) : assemble_cmd ret cmd = ret ++ segment [cmd] := by
  simp [assemble_cmd, make_header_eq, make_bulky_item_eq, segment, bulk_items]

theorem assemble_key_segment (ret cmd key : Bytes) :
    assemble_key ret cmd key = ret ++ segment [cmd, key] := by
  unfold assemble_key
  rw [assemble_segment _ _ _ _ _ (by simp) (by simp)]
  simp

theorem call_segment (p : pipeline) (c : builder_call) (h : c.scalar_ranges)
    (hf : c.header_fits) :
    ∃ items, (p.call c).payload = p.payload ++ segment items := by
  cases c <;>
    simp only [pipeline.call, pipeline.ping, pipeline.quit, pipeline.multi, pipeline.exec, pipeline.bgrewriteaof, pipeline.role,
      pipeline.bgsave, pipeline.flushall, pipeline.incr, pipeline.auth, pipeline.lpop, pipeline.subscribe,
      pipeline.unsubscribe, pipeline.get, pipeline.hello, pipeline.hlen, pipeline.hgetall, pipeline.hvals,
      pipeline.del, pipeline.llen, pipeline.sentinel, pipeline.append, pipeline.bitcount, pipeline.rpush,
      pipeline.lpush, pipeline.psubscribe, pipeline.publish, pipeline.set, pipeline.hset, pipeline.hset_map,
      pipeline.hincrby, pipeline.hkeys, pipeline.hget, pipeline.hmget, pipeline.expire, pipeline.zadd,
      pipeline.zadd_map, pipeline.zrange, pipeline.zrangebyscore, pipeline.zremrangebyscore, pipeline.lrange, pipeline.ltrim] <;>
    simp only [builder_call.header_fits] at hf <;>
    first
    | (rw [assemble_cmd_segment]; exact ⟨_, rfl⟩)
    | (rw [assemble_key_segment]; exact ⟨_, rfl⟩)
    | (rw [assemble_strs_segment _ _ _ _
        (by simp only [List.length_cons, List.length_nil]; omega)]; exact ⟨_, rfl⟩)
    | (rw [assemble_map_segment _ _ _ _
        (by simp only [List.length_cons, List.length_nil]; omega)]; exact ⟨_, rfl⟩)
    | (rw [assemble_map_segment _ _ _ _ (by omega)]; exact ⟨_, rfl⟩)
    | (rw [assemble_segment _ _ _ [] 1 (by simp)
        (by simp only [List.flatMap_nil, List.length_nil]; omega)]; exact ⟨_, rfl⟩)
    | (rw [assemble_scalar_segment _ _ _ _ h
        (by simp only [List.length_cons, List.length_nil]; omega)]; exact ⟨_, rfl⟩)

theorem calls_valid (cs : List builder_call) : ∀ (p : pipeline), valid_payload p.payload →
    (∀ c ∈ cs, c.scalar_ranges) → (∀ c ∈ cs, c.header_fits) →
    valid_payload (p.calls cs).payload := by
  induction cs with
  | nil => intro p hp _ _; exact hp
  | cons c t ih =>
    intro p hp h hf
    have hc := call_segment p c (h c (by simp)) (hf c (by simp))
    obtain ⟨items, hitems⟩ := hc
    refine ih (p.call c) ?_ (fun c' hc' => h c' (by simp [hc']))
      (fun c' hc' => hf c' (by simp [hc']))
    obtain ⟨segs, hsegs⟩ := hp
    refine ⟨segs ++ [items], ?_⟩
    rw [hitems, hsegs]
    simp

/-- C4 (as amended): starting from the empty payload, after every sequence of
builder calls in which the elements handed to `rpush` and `lpush` are strings
or integers and every call writes fewer than `2^31` bulk items (the item count
is a value of the `int` that `make_header` takes), the payload is a
concatenation of segments `*<n>\r\n` followed by exactly `n` bulk items
`$<len>\r\n<bytes>\r\n`. -/
theorem builder_payload_invariant (cs : List builder_call) (h : ∀ c ∈ cs, c.scalar_ranges)
    (hf : ∀ c ∈ cs, c.header_fits) :
    valid_payload ((⟨[]⟩ : pipeline).calls cs).payload :=
  calls_valid cs ⟨[]⟩ ⟨[], rfl⟩ h hf

theorem builder_payload_invariant_witness :
    (∀ c ∈ [builder_call.ping, .rpush ['k'] [.str ['a'], .str ['b']],
        .hset_map ['h'] [(.str ['f'], ['v'])]], c.scalar_ranges) ∧
      (∀ c ∈ [builder_call.ping, .rpush ['k'] [.str ['a'], .str ['b']],
        .hset_map ['h'] [(.str ['f'], ['v'])]], c.header_fits) ∧
      valid_payload ((⟨[]⟩ : pipeline).calls [builder_call.ping,
        .rpush ['k'] [.str ['a'], .str ['b']], .hset_map ['h'] [(.str ['f'], ['v'])]]).payload :=
  have h : ∀ c ∈ [builder_call.ping, .rpush ['k'] [.str ['a'], .str ['b']],
      .hset_map ['h'] [(.str ['f'], ['v'])]], c.scalar_ranges := by
    intro c hc
    simp only [List.mem_cons, List.mem_singleton, List.not_mem_nil, or_false] at hc
    rcases hc with rfl | rfl | rfl <;> simp [builder_call.scalar_ranges, Elem.items]
  have hf : ∀ c ∈ [builder_call.ping, .rpush ['k'] [.str ['a'], .str ['b']],
      .hset_map ['h'] [(.str ['f'], ['v'])]], c.header_fits := by
    intro c hc
    simp only [List.mem_cons, List.mem_singleton, List.not_mem_nil, or_false] at hc
    rcases hc with rfl | rfl | rfl <;> simp [builder_call.header_fits]
  ⟨h, hf, builder_payload_invariant _ h hf⟩

/-- C4 fails as stated: `rpush` of one pair of strings writes the header `*3`
in front of four bulk items, and the payload is no concatenation of segments. -/
theorem rpush_pair_breaks_invariant :
    ¬ valid_payload
      ((⟨[]⟩ : pipeline).calls [.rpush ['k'] [.pair_ss ['a'] ['b']]]).payload := by
  rintro ⟨segs, h⟩
  have hp : ((⟨[]⟩ : pipeline).calls [.rpush ['k'] [.pair_ss ['a'] ['b']]]).payload =
      array_header ((3 : Nat) : Int) ++ (bulk_item "RPUSH".toList ++ (bulk_item ['k'] ++
        (bulk_item ['a'] ++ (bulk_item ['b'] ++ [])))) := by rfl
  rw [hp] at h
  cases segs with
  | nil => simp [bulk_item] at h
  | cons items segs =>
    simp only [List.map_cons, List.flatten_cons, segment, List.append_assoc] at h
    obtain ⟨hn, h1⟩ := array_header_inj _ _ _ _ h
    match items, hn with
    | [x, y, z], _ =>
      simp only [bulk_items, List.map_cons, List.map_nil, List.flatten_cons, List.flatten_nil,
        List.append_assoc, List.append_nil, List.nil_append] at h1
      obtain ⟨_, h2⟩ := bulk_item_inj _ _ _ _ h1
      obtain ⟨_, h3⟩ := bulk_item_inj _ _ _ _ h2
      obtain ⟨_, h4⟩ := bulk_item_inj _ _ _ _ h3
      cases segs with
      | nil => simp [bulk_item] at h4
      | cons s t => simp [bulk_item, segment, array_header] at h4

/-! ## Lines of the read buffer -/

theorem find_crlf_no_cr (l : Bytes) (h : ∀ c ∈ l, c ≠ '\r') : find_crlf l = none := by
  induction l with
  | nil => rfl
  | cons a t ih =>
    have ha : a ≠ '\r' := h a (by simp)
    simp [find_crlf, ha, ih (fun c hc => h c (by simp [hc]))]

theorem find_crlf_line (l : Bytes) (rest : Bytes) (h : find_crlf l = none) :
    find_crlf (l ++ '\r' :: '\n' :: rest) = some l.length := by
  induction l with
  | nil => simp [find_crlf]
  | cons a t ih =>
    simp only [find_crlf] at h
    split at h
    · exact absurd h (by simp)
    · rename_i hnot
      have ht : find_crlf t = none := by
        cases hf : find_crlf t with
        | none => rfl
        | some i => simp [hf] at h
      have hnot2 : ¬ (a = '\r' ∧ (t ++ '\r' :: '\n' :: rest).head? = some '\n') := by
        rintro ⟨ha, hh⟩
        cases t with
        | nil => simp at hh
        | cons b u => exact hnot ⟨ha, by simpa using hh⟩
      rw [List.cons_append, find_crlf, if_neg hnot2, ih ht]
      rfl

theorem read_line (l rest : Bytes) (h : find_crlf l = none) :
    async_read_until (l ++ '\r' :: '\n' :: rest) = (none, l.length + 2) := by
  simp [async_read_until, find_crlf_line l rest h]

theorem find_crlf_cons (c : Char) (l : Bytes) (hc : c ≠ '\r') (h : find_crlf l = none) :
    find_crlf (c :: l) = none := by
  simp [find_crlf, hc, h]

theorem find_crlf_digits (n : Nat) : find_crlf (Nat.toDigits 10 n) = none :=
  find_crlf_no_cr _ (fun c hc => digit_ne_cr c ((toDigits_spec n).2.1 c hc))

theorem find_crlf_int (v : Int) : find_crlf (toString v).toList = none := by
  rw [← to_string_eq]
  unfold to_string
  split
  · exact find_crlf_cons _ _ (by decide) (find_crlf_digits _)
  · exact find_crlf_digits _

/-! ## The `sizes` stack -/

theorem getD_set_eq (l : List Int) (i : Nat) (v : Int) (h : i < l.length) :
    (l.set i v).getD i 0 = v := by
  simp [List.getD_eq_getElem?_getD, List.getElem?_set, h]

theorem getD_set_ne (l : List Int) (i j : Nat) (v : Int) (h : i ≠ j) :
    (l.set i v).getD j 0 = l.getD j 0 := by
  simp [List.getD_eq_getElem?_getD, List.getElem?_set, h]

theorem collapse_stay (d : Nat) (sizes : List Int) (h : sizes.getD d 0 ≠ 0) :
    collapse d sizes = .stopped d sizes := by
  cases d <;> rw [collapse, if_neg h]

theorem collapse_pop (d : Nat) (sizes : List Int) (h : sizes.getD (d + 1) 0 = 0)
    (hmin : sizes.getD d 0 ≠ INT_MIN) :
    collapse (d + 1) sizes = collapse d (dec_size sizes d) := by
  rw [collapse, if_pos h, if_neg hmin]

/-! ## One line of the parser -/

theorem run_succ (fuel : Nat) (op : parse_op) :
    run (fuel + 1) op =
      match op.resume (async_read_until op.buf).1 (async_read_until op.buf).2 with
      | .suspended op => run fuel op
      | o => o := rfl

theorem run_succ_build (fuel : Nat) (op : parse_op) (b : Bool) :
    run (fuel + 1) op b =
      match op.resume (async_read_until op.buf).1 (async_read_until op.buf).2 b with
      | .suspended op => run fuel op b
      | o => o := rfl

theorem run_suspended (fuel : Nat) (op op1 : parse_op) (ec : Option error_code) (n : Nat)
    (hread : async_read_until op.buf = (ec, n)) (hres : op.resume ec n = .suspended op1) :
    run (fuel + 1) op = run fuel op1 := by
  rw [run_succ, hread]
  simp only [hres]

theorem run_complete (fuel : Nat) (op op1 : parse_op) (ec e : Option error_code) (n : Nat)
    (hread : async_read_until op.buf = (ec, n)) (hres : op.resume ec n = .complete e op1) :
    run (fuel + 1) op = .complete e op1 := by
  rw [run_succ, hread]
  simp only [hres]

theorem run_token (fuel n : Nat) (op op1 : parse_op) (hs : op.start = 0) (hn : 3 ≤ n)
    (hread : async_read_until op.buf = (none, n)) (hline : op.line n = .ok op1 false) :
    run (fuel + 1) op = after_token fuel { op1 with buf := op1.buf.drop n } := by
  have hn3 : ¬ n < 3 := by omega
  rw [run_succ, hread]
  simp only [parse_op.resume, hs, after_token, hline, Option.isSome_none, hn3]
  cases hcol : collapse op1.depth op1.sizes with
  | below_sentinel => simp [hcol]
  | signed_overflow => simp [hcol]
  | stopped d sz =>
    by_cases hd : d = 0 <;> simp [hcol, hd]

theorem run_blob_header (fuel n : Nat) (op op1 : parse_op) (hs : op.start = 0) (hn : 3 ≤ n)
    (hread : async_read_until op.buf = (none, n)) (hline : op.line n = .ok op1 true)
    (hsz : op1.sizes.getD op1.depth 0 ≠ 0) :
    run (fuel + 1) op = run fuel { op1 with buf := op1.buf.drop n, bulky := true, start := 0 } := by
  have hn3 : ¬ n < 3 := by omega
  rw [run_succ, hread]
  simp [parse_op.resume, hs, hline, hn3, collapse_stay _ _ hsz]

theorem read_marked_line (c : Char) (l rest : Bytes) (hc : c ≠ '\r')
    (h : find_crlf l = none) :
    async_read_until (c :: l ++ '\r' :: '\n' :: rest) = (none, l.length + 3) := by
  have := read_line (c :: l) rest (find_crlf_cons c l hc h)
  simpa using this

theorem drop_marked_line (c : Char) (l rest : Bytes) :
    (c :: l ++ '\r' :: '\n' :: rest).drop (l.length + 3) = rest := by
  have h : c :: l ++ '\r' :: '\n' :: rest = (c :: l ++ ['\r', '\n']) ++ rest := by simp
  rw [h]
  exact List.drop_left' (by simp)

theorem run_scalar (fuel : Nat) (op : parse_op) (c : Char) (body rest : Bytes)
    (hs : op.start = 0) (hb : op.bulky = false) (hc : c = '+' ∨ c = '-' ∨ c = ':')
    (hbuf : op.buf = c :: body ++ '\r' :: '\n' :: rest) (hbody : find_crlf body = none)
    (hsz : op.sizes.getD op.depth 0 ≠ 0) (hmin : op.sizes.getD op.depth 0 ≠ INT_MIN) :
    run (fuel + 1) op = after_token fuel
      { op with buf := rest, res := op.res.add body, sizes := dec_size op.sizes op.depth } := by
  have hcr : c ≠ '\r' := by rcases hc with rfl | rfl | rfl <;> decide
  have hd : c ≠ '$' := by rcases hc with rfl | rfl | rfl <;> decide
  have hread := read_marked_line c body rest hcr hbody
  rw [← hbuf] at hread
  have hline : op.line (body.length + 3) = .ok
      { op with res := op.res.add body, sizes := dec_size op.sizes op.depth } false := by
    unfold parse_op.line
    rw [if_neg (by simp [hb]), if_pos hsz]
    simp [hbuf, hd, hc, hb]
    simpa [List.getD_eq_getElem?_getD] using hmin
  rw [run_token fuel _ op _ hs (by omega) hread hline]
  simp only [hbuf, drop_marked_line]

theorem run_null (fuel : Nat) (op : parse_op) (rest : Bytes)
    (hs : op.start = 0) (hb : op.bulky = false)
    (hbuf : op.buf = '$' :: '-' :: '1' :: '\r' :: '\n' :: rest)
    (hsz : op.sizes.getD op.depth 0 ≠ 0) (hmin : op.sizes.getD op.depth 0 ≠ INT_MIN) :
    run (fuel + 1) op = after_token fuel
      { op with buf := rest, res := op.res.add [], sizes := dec_size op.sizes op.depth } := by
  have hread : async_read_until op.buf = (none, 5) := by
    rw [hbuf]
    simp [async_read_until, find_crlf]
  have hline : op.line 5 = .ok
      { op with res := op.res.add [], sizes := dec_size op.sizes op.depth } false := by
    unfold parse_op.line
    rw [if_neg (by simp [hb]), if_pos hsz]
    simp [hbuf, hb]
    simpa [List.getD_eq_getElem?_getD] using hmin
  rw [run_token fuel _ op _ hs (by omega) hread hline]
  simp [hbuf]

theorem foldl_digits_ge (l : Bytes) : ∀ a : Nat,
    a ≤ l.foldl (fun a c => 10 * a + (c.toNat - 48)) a := by
  induction l with
  | nil => intro a; exact Nat.le_refl a
  | cons c t ih =>
    intro a
    have := ih (10 * a + (c.toNat - 48))
    simp only [List.foldl_cons]
    omega

theorem get_length_loop_digits (l : Bytes) (rest : Bytes) : ∀ len : Nat,
    (∀ c ∈ l, 48 ≤ c.toNat ∧ c.toNat < 58) →
    l.foldl (fun a c => 10 * a + (c.toNat - 48)) len < 2 ^ 64 →
    get_length_loop len (l ++ '\r' :: rest) =
      l.foldl (fun a c => 10 * a + (c.toNat - 48)) len := by
  induction l with
  | nil => intro len _ _; simp [get_length_loop]
  | cons c t ih =>
    intro len hdig hlt
    have hc := hdig c (by simp)
    have hcr : c ≠ '\r' := digit_ne_cr c hc
    simp only [List.foldl_cons] at hlt ⊢
    have hge := foldl_digits_ge t (10 * len + (c.toNat - 48))
    have hcv : char_value c = (c.toNat : Int) := by
      unfold char_value
      rw [if_pos (by omega)]
    have hstep : ((((10 * len : Nat) : Int) + (char_value c - 48)) % 2 ^ 64).toNat =
        10 * len + (c.toNat - 48) := by
      rw [hcv]
      have h1 : (((10 * len : Nat) : Int) + ((c.toNat : Int) - 48)) =
          ((10 * len + (c.toNat - 48) : Nat) : Int) := by omega
      rw [h1]
      have h2 : (10 * len + (c.toNat - 48)) < 2 ^ 64 := lt_of_le_of_lt hge hlt
      have h3 : (((10 * len + (c.toNat - 48) : Nat) : Int)) % 2 ^ 64 =
          ((10 * len + (c.toNat - 48) : Nat) : Int) := by
        apply Int.emod_eq_of_lt
        · exact Int.ofNat_nonneg _
        · exact_mod_cast h2
      rw [h3]
      exact Int.toNat_ofNat _
    rw [List.cons_append, get_length_loop, if_neg hcr, hstep]
    exact ih _ (fun c hc => hdig c (by simp [hc])) hlt

theorem get_length_digits (k : Nat) (rest : Bytes) (hk : k < 2 ^ 64) :
    get_length (Nat.toDigits 10 k ++ '\r' :: rest) = k := by
  obtain ⟨_, hdig, hval⟩ := toDigits_spec k
  unfold digits_value at hval
  unfold get_length
  rw [get_length_loop_digits _ rest 0 hdig (by rw [hval]; exact hk), hval]

theorem size_to_int_small (k : Nat) (hk : k < 2 ^ 31) : size_to_int k = k := by
  unfold size_to_int
  omega

theorem run_array_header (fuel : Nat) (op : parse_op) (k : Nat) (rest : Bytes)
    (hs : op.start = 0) (hb : op.bulky = false)
    (hbuf : op.buf = '*' :: Nat.toDigits 10 k ++ '\r' :: '\n' :: rest) (hk : k < 2 ^ 31)
    (hd : op.depth + 1 < 6) (hsz : op.sizes.getD op.depth 0 ≠ 0) :
    run (fuel + 1) op = after_token fuel
      { op with buf := rest, depth := op.depth + 1,
                sizes := op.sizes.set (op.depth + 1) (k : Int) } := by
  have hread := read_marked_line '*' (Nat.toDigits 10 k) rest (by decide) (find_crlf_digits k)
  rw [← hbuf] at hread
  have hlen : size_to_int (get_length (Nat.toDigits 10 k ++ '\r' :: '\n' :: rest)) = k := by
    rw [get_length_digits k _ (lt_trans hk (by norm_num)), size_to_int_small k hk]
  have hline : op.line ((Nat.toDigits 10 k).length + 3) = .ok
      { op with depth := op.depth + 1,
                sizes := op.sizes.set (op.depth + 1) (k : Int) } false := by
    unfold parse_op.line
    rw [if_neg (by simp [hb]), if_pos hsz]
    simp [hbuf, hb, hd, hlen]
  rw [run_token fuel _ op _ hs (by omega) hread hline]
  simp only [hbuf, drop_marked_line]

theorem run_blob (fuel : Nat) (op : parse_op) (body rest : Bytes)
    (hs : op.start = 0) (hb : op.bulky = false)
    (k : Nat) (hbuf : op.buf = '$' :: Nat.toDigits 10 k ++ '\r' :: '\n' ::
      (body ++ '\r' :: '\n' :: rest))
    (hne : body ≠ []) (hbody : find_crlf body = none)
    (hsz : op.sizes.getD op.depth 0 ≠ 0) (hmin : op.sizes.getD op.depth 0 ≠ INT_MIN) :
    run (fuel + 2) op = after_token fuel
      { op with buf := rest, res := op.res.add body, sizes := dec_size op.sizes op.depth,
                bulky := true } := by
  have hread := read_marked_line '$' (Nat.toDigits 10 k)
    (body ++ '\r' :: '\n' :: rest) (by decide) (find_crlf_digits _)
  rw [← hbuf] at hread
  obtain ⟨hdne, hdig, _⟩ := toDigits_spec k
  have hline : op.line ((Nat.toDigits 10 k).length + 3) = .ok op true := by
    unfold parse_op.line
    rw [if_neg (by simp [hb]), if_pos hsz]
    cases hds : Nat.toDigits 10 k with
    | nil => exact absurd hds hdne
    | cons d ds =>
      have hd := hdig d (by simp [hds])
      have hd2 : d ≠ '-' := by
        rintro rfl
        revert hd
        decide
      rw [hds] at hbuf
      simp [hbuf, hd2]
  rw [show fuel + 2 = (fuel + 1) + 1 from rfl,
    run_blob_header (fuel + 1) _ op op hs (by omega) hread hline hsz]
  have hread2 : async_read_until (body ++ '\r' :: '\n' :: rest) = (none, body.length + 2) :=
    read_line body rest hbody
  have hlen : 3 ≤ body.length + 2 := by
    cases body with
    | nil => exact absurd rfl hne
    | cons a t => simp
  have hdrop : (body ++ '\r' :: '\n' :: rest).drop (body.length + 2) = rest := by
    have h : body ++ '\r' :: '\n' :: rest = (body ++ ['\r', '\n']) ++ rest := by simp
    rw [h]
    exact List.drop_left' (by simp)
  rw [run_token fuel (body.length + 2) _
    { op with buf := body ++ '\r' :: '\n' :: rest, res := op.res.add body,
              sizes := dec_size op.sizes op.depth, bulky := true, start := 0 } rfl hlen
    (by simp only [hbuf, drop_marked_line]; exact hread2)
    (by
      simp [parse_op.line, hbuf, drop_marked_line]
      simpa [List.getD_eq_getElem?_getD] using hmin)]
  simp only [hdrop, hs]

/-! ## Whole replies -/

theorem dec_size_getD (s : List Int) (d i : Nat) (hd : d < s.length) :
    (dec_size s d).getD i 0 = if i = d then s.getD d 0 - 1 else s.getD i 0 := by
  unfold dec_size
  by_cases h : i = d
  · subst h
    rw [getD_set_eq _ _ _ hd, if_pos rfl]
  · rw [getD_set_ne _ _ _ _ (Ne.symm h), if_neg h]

theorem set_getD (s : List Int) (d i : Nat) (v : Int) (hd : d < s.length) :
    (s.set d v).getD i 0 = if i = d then v else s.getD i 0 := by
  by_cases h : i = d
  · subst h
    rw [getD_set_eq _ _ _ hd, if_pos rfl]
  · rw [getD_set_ne _ _ _ _ (Ne.symm h), if_neg h]

theorem dec_size_length (s : List Int) (d : Nat) : (dec_size s d).length = s.length := by
  simp [dec_size]

theorem after_token_stay (fuel : Nat) (op : parse_op) (hsz : op.sizes.getD op.depth 0 ≠ 0)
    (hd : op.depth ≠ 0) :
    after_token fuel op = run fuel { op with bulky := false, start := 0 } := by
  simp [after_token, collapse_stay _ _ hsz, hd]

theorem after_token_top (fuel : Nat) (op : parse_op) (hsz : op.sizes.getD op.depth 0 ≠ 0)
    (hd : op.depth = 0) : after_token fuel op = .complete none op := by
  unfold after_token
  rw [collapse_stay _ _ hsz]
  simp only [hd, if_true]
  cases op
  simp_all

theorem after_token_pop (fuel d : Nat) (op : parse_op) (hd : op.depth = d + 1)
    (hsz : op.sizes.getD (d + 1) 0 = 0) (hmin : op.sizes.getD d 0 ≠ INT_MIN) :
    after_token fuel op = after_token fuel { op with depth := d, sizes := dec_size op.sizes d } := by
  simp only [after_token, hd, collapse_pop d op.sizes hsz hmin]

theorem parse_leaf (t : reply) (hnest : t.nesting = 0) (hwf : t.well_formed)
    (op : parse_op) (rest : Bytes) (hs : op.start = 0) (hb : op.bulky = false)
    (hbuf : op.buf = t.encode ++ rest) (hlen : op.sizes.length = 6)
    (hsz : op.sizes.getD op.depth 0 ≠ 0) (hmin : op.sizes.getD op.depth 0 ≠ INT_MIN) :
    ∃ op', token_post op op' rest t.leaves (dec_size op.sizes op.depth) ∧
      ∀ fuel, run (fuel + t.lines) op = after_token fuel op' := by
  cases t with
  | simple_string body =>
    refine ⟨{ op with buf := rest, res := op.res.add body,
                      sizes := dec_size op.sizes op.depth }, ?_, ?_⟩
    · exact ⟨rfl, rfl, hs, rfl, by simp [dec_size_length, hlen], fun _ _ => rfl⟩
    · intro fuel
      exact run_scalar fuel op '+' body rest hs hb (Or.inl rfl)
        (by simpa [reply.encode] using hbuf) hwf hsz hmin
  | simple_error body =>
    refine ⟨{ op with buf := rest, res := op.res.add body,
                      sizes := dec_size op.sizes op.depth }, ?_, ?_⟩
    · exact ⟨rfl, rfl, hs, rfl, by simp [dec_size_length, hlen], fun _ _ => rfl⟩
    · intro fuel
      exact run_scalar fuel op '-' body rest hs hb (Or.inr (Or.inl rfl))
        (by simpa [reply.encode] using hbuf) hwf hsz hmin
  | number value =>
    refine ⟨{ op with buf := rest, res := op.res.add (toString value).toList,
                      sizes := dec_size op.sizes op.depth }, ?_, ?_⟩
    · exact ⟨rfl, rfl, hs, rfl, by simp [dec_size_length, hlen], fun _ _ => rfl⟩
    · intro fuel
      exact run_scalar fuel op ':' _ rest hs hb (Or.inr (Or.inr rfl))
        (by simpa [reply.encode] using hbuf) (find_crlf_int value) hsz hmin
  | null =>
    refine ⟨{ op with buf := rest, res := op.res.add [],
                      sizes := dec_size op.sizes op.depth }, ?_, ?_⟩
    · exact ⟨rfl, rfl, hs, rfl, by simp [dec_size_length, hlen], fun _ _ => rfl⟩
    · intro fuel
      exact run_null fuel op rest hs hb (by simpa [reply.encode] using hbuf) hsz hmin
  | blob_string body =>
    refine ⟨{ op with buf := rest, res := op.res.add body,
                      sizes := dec_size op.sizes op.depth, bulky := true }, ?_, ?_⟩
    · exact ⟨rfl, rfl, hs, rfl, by simp [dec_size_length, hlen], fun _ _ => rfl⟩
    · intro fuel
      exact run_blob fuel op body rest hs hb body.length
        (by simpa [reply.encode, repr_toList] using hbuf) hwf.1 hwf.2 hsz hmin
  | array children => simp [reply.nesting] at hnest

theorem parse_children (m : Nat) (ih : reply_ok m) : ∀ cs : List reply, cs ≠ [] →
    reply.nesting_list cs ≤ m → reply.well_formed_list cs →
    ∀ (op : parse_op) (rest : Bytes) (j : Nat), op.start = 0 → op.bulky = false →
      op.buf = reply.encode_list cs ++ rest → 1 ≤ op.depth → op.depth + m ≤ 5 →
      op.sizes.length = 6 → op.sizes.getD op.depth 0 = ((cs.length + j : Nat) : Int) →
      ∃ op', token_post op op' rest (reply.leaves_list cs) (op.sizes.set op.depth (j : Int)) ∧
        ∀ fuel, run (fuel + reply.lines_list cs) op = after_token fuel op' := by
  intro cs
  induction cs with
  | nil => intro h; exact absurd rfl h
  | cons c cs ihl =>
    intro _ hnest hwf op rest j hs hb hbuf hd1 hd hlen hsz
    simp only [reply.nesting_list, max_le_iff] at hnest
    simp only [reply.well_formed_list] at hwf
    have hdl : op.depth < op.sizes.length := by omega
    have hbuf1 : op.buf = c.encode ++ (reply.encode_list cs ++ rest) := by
      simpa [reply.encode_list] using hbuf
    have hsz1 : op.sizes.getD op.depth 0 ≠ 0 := by
      rw [hsz]
      simp only [List.length_cons]
      omega
    have hmin1 : op.sizes.getD op.depth 0 ≠ INT_MIN := by
      rw [hsz]
      unfold INT_MIN
      omega
    obtain ⟨op1, ⟨hb1, hr1, hs1, hd1', hl1, ha1⟩, hrun1⟩ :=
      ih c hnest.1 hwf.1 op _ hs hb hbuf1 hd hlen hsz1 hmin1
    have hcur : op1.sizes.getD op1.depth 0 = ((cs.length + j : Nat) : Int) := by
      rw [hd1', ha1 op.depth (Nat.le_refl _), dec_size_getD _ _ _ hdl, if_pos rfl, hsz]
      simp only [List.length_cons]
      omega
    by_cases hcs : cs = []
    · subst hcs
      refine ⟨op1, ⟨by simpa [reply.encode_list] using hb1, by simpa [reply.leaves_list] using hr1,
        hs1, hd1', hl1, ?_⟩, ?_⟩
      · intro i hi
        rw [ha1 i hi, dec_size_getD _ _ _ hdl, set_getD _ _ _ _ hdl]
        by_cases hid : i = op.depth
        · rw [if_pos hid, if_pos hid, hsz]
          simp
        · rw [if_neg hid, if_neg hid]
      · intro fuel
        simpa [reply.lines_list] using hrun1 fuel
    · have hpos : 0 < cs.length := List.length_pos.2 hcs
      have hne : op1.sizes.getD op1.depth 0 ≠ 0 := by
        rw [hcur]
        omega
      obtain ⟨op2, ⟨hb2, hr2, hs2, hd2, hl2, ha2⟩, hrun2⟩ :=
        ihl hcs hnest.2 hwf.2 { op1 with bulky := false, start := 0 } rest j rfl rfl hb1
          (by simpa [hd1'] using hd1) (by simpa [hd1'] using hd) hl1 hcur
      refine ⟨op2, ⟨hb2, ?_, hs2, by simpa [hd1'] using hd2, hl2, ?_⟩, ?_⟩
      · rw [hr2]
        simp [hr1, reply.leaves_list]
      · intro i hi
        have hdl1 : op.depth < op1.sizes.length := by omega
        simp only [hd1'] at ha2
        rw [ha2 i hi, set_getD _ _ _ _ hdl1, set_getD _ _ _ _ hdl]
        by_cases hid : i = op.depth
        · rw [if_pos hid, if_pos hid]
        · rw [if_neg hid, if_neg hid, ha1 i hi, dec_size_getD _ _ _ hdl, if_neg hid]
      · intro fuel
        have h1 := hrun1 (fuel + reply.lines_list cs)
        rw [after_token_stay _ _ hne (by omega)] at h1
        rw [← hrun2 fuel, ← h1]
        congr 1
        simp only [reply.lines_list]
        omega

theorem parse_reply : ∀ m : Nat, reply_ok m := by
  intro m
  induction m with
  | zero =>
    intro t hnest hwf op rest hs hb hbuf _ hlen hsz hmin
    exact parse_leaf t (by omega) hwf op rest hs hb hbuf hlen hsz hmin
  | succ m ih =>
    intro t hnest hwf op rest hs hb hbuf hd hlen hsz hmin
    by_cases hleaf : t.nesting = 0
    · exact parse_leaf t hleaf hwf op rest hs hb hbuf hlen hsz hmin
    · cases t with
      | array cs =>
        simp only [reply.nesting] at hnest
        simp only [reply.well_formed] at hwf
        have hbuf1 : op.buf = '*' :: Nat.toDigits 10 cs.length ++ '\r' :: '\n' ::
            (reply.encode_list cs ++ rest) := by
          simpa [reply.encode, repr_toList] using hbuf
        have hdl : op.depth + 1 < op.sizes.length := by omega
        have hhead := fun fuel => run_array_header fuel op cs.length _ hs hb hbuf1 hwf.1
          (by omega) hsz
        by_cases hcs : cs = []
        · subst hcs
          refine ⟨{ op with buf := rest, depth := op.depth,
                            sizes := dec_size (op.sizes.set (op.depth + 1) 0) op.depth },
            ⟨rfl, by simp [reply.leaves, reply.leaves_list], hs, rfl,
              by simp [dec_size_length, hlen], ?_⟩, ?_⟩
          · intro i hi
            have h1 : op.depth < (op.sizes.set (op.depth + 1) 0).length := by
              simp only [List.length_set]
              omega
            rw [dec_size_getD _ _ _ h1, dec_size_getD _ _ _ (by omega),
              getD_set_ne _ _ _ _ (by omega), getD_set_ne _ _ _ _ (by omega)]
          · intro fuel
            have h := hhead fuel
            rw [after_token_pop fuel op.depth _ rfl (by
              simp only [List.length_nil, Nat.cast_zero]
              exact getD_set_eq _ _ _ hdl) (by
              simp only [List.length_nil, Nat.cast_zero]
              rw [getD_set_ne _ _ _ _ (by omega)]
              exact hmin)] at h
            simpa [reply.lines, reply.lines_list, reply.encode_list] using h
        · have hpos : 0 < cs.length := List.length_pos.2 hcs
          have hk : (op.sizes.set (op.depth + 1) (cs.length : Int)).getD (op.depth + 1) 0 =
              ((cs.length + 0 : Nat) : Int) := by
            rw [getD_set_eq _ _ _ hdl]
            rfl
          obtain ⟨op2, ⟨hb2, hr2, hs2, hd2, hl2, ha2⟩, hrun2⟩ :=
            parse_children m ih cs hcs (by omega) hwf.2
              { op with buf := reply.encode_list cs ++ rest, depth := op.depth + 1,
                        sizes := op.sizes.set (op.depth + 1) (cs.length : Int),
                        bulky := false, start := 0 }
              rest 0 rfl rfl rfl (by simp) (by simp only; omega)
              (by simp only [List.length_set]; exact hlen) hk
          simp only at hb2 hr2 hd2 ha2
          have hzero : op2.sizes.getD (op.depth + 1) 0 = 0 := by
            rw [ha2 (op.depth + 1) (Nat.le_refl _), getD_set_eq _ _ _ (by
              simp only [List.length_set]
              exact hdl)]
            rfl
          refine ⟨{ op2 with depth := op.depth, sizes := dec_size op2.sizes op.depth },
            ⟨hb2, by simpa [reply.leaves] using hr2, hs2, rfl,
              by simp [dec_size_length, hl2], ?_⟩, ?_⟩
          · intro i hi
            rw [dec_size_getD _ _ _ (by omega), dec_size_getD _ _ _ (by omega)]
            have hag : ∀ k, k ≤ op.depth → op2.sizes.getD k 0 = op.sizes.getD k 0 := by
              intro k hk'
              rw [ha2 k (by omega), getD_set_ne _ _ _ _ (by omega),
                getD_set_ne _ _ _ _ (by omega)]
            rw [hag i hi, hag op.depth (Nat.le_refl _)]
          · intro fuel
            have h := hhead (fuel + reply.lines_list cs)
            have hne : (op.sizes.set (op.depth + 1) (cs.length : Int)).getD (op.depth + 1) 0
                ≠ 0 := by
              rw [getD_set_eq _ _ _ hdl]
              exact_mod_cast (Nat.pos_iff_ne_zero.1 hpos)
            rw [after_token_stay _ _ (by simpa using hne) (by simp)] at h
            have h2 := hrun2 fuel
            have hmin2 : op2.sizes.getD op.depth 0 ≠ INT_MIN := by
              rw [ha2 op.depth (by omega), getD_set_ne _ _ _ _ (by omega),
                getD_set_ne _ _ _ _ (by omega)]
              exact hmin
            rw [after_token_pop fuel op.depth op2 hd2 hzero hmin2] at h2
            rw [← h2, ← h]
            congr 1
            simp only [reply.lines]
            omega
      | _ => exact absurd rfl hleaf

/-! ## The composed read -/

theorem async_read_eq (fuel : Nat) (buffer : Bytes) (res : response) :
    async_read fuel buffer res = run fuel { buf := buffer, res := res, start := 0 } := rfl

theorem async_read_reply (t : reply) (hnest : t.nesting ≤ 5) (hwf : t.well_formed)
    (rest : Bytes) (res : response) (fuel : Nat) (hfuel : t.lines ≤ fuel) :
    ∃ op', async_read fuel (t.encode ++ rest) res = .complete none op' ∧
      op'.res = ⟨res.res ++ t.leaves⟩ ∧ op'.buf = rest ∧ op'.depth = 0 := by
  obtain ⟨op', ⟨hb, hr, _, hd, _, ha⟩, hrun⟩ :=
    parse_reply 5 t hnest hwf { buf := t.encode ++ rest, res := res, start := 0 } rest
      rfl rfl rfl (by simp) rfl (by simp) (by simp [INT_MIN])
  refine ⟨op', ?_, hr, hb, hd⟩
  have hne : op'.sizes.getD op'.depth 0 ≠ 0 := by
    rw [hd, ha 0 (Nat.le_refl _)]
    simp [dec_size]
  have h := hrun (fuel - t.lines)
  rw [Nat.sub_add_cancel hfuel, after_token_top _ _ hne hd] at h
  rw [async_read_eq]
  exact h

/-- C7: for every reply tree of nesting depth at most 5 whose internal nodes
are arrays and whose leaves are simple strings, simple errors, numbers, null
blobs or blob strings with a non-empty body without `\r\n` (line bodies hold no
`\r\n` and child counts fit an `int`), the parse of the encoding followed by
arbitrary further bytes completes without error at depth 0, has appended
exactly the leaf bodies in left-to-right order (an empty entry for a null) and
has erased exactly the encoding from the read buffer. -/
theorem nested_reply_parse (t : reply) (hnest : t.nesting ≤ 5) (hwf : t.well_formed)
    (rest : Bytes) (res : response) (fuel : Nat) (hfuel : t.lines ≤ fuel) :
    ∃ op', async_read fuel (t.encode ++ rest) res = .complete none op' ∧
      op'.res = ⟨res.res ++ t.leaves⟩ ∧ op'.buf = rest ∧ op'.depth = 0 :=
  async_read_reply t hnest hwf rest res fuel hfuel

theorem nested_reply_parse_witness :
    (reply.array [.blob_string ['a'], .array [.number 1, .null], .array [],
        .simple_string ['O', 'K']]).nesting ≤ 5 ∧
      (reply.array [.blob_string ['a'], .array [.number 1, .null], .array [],
        .simple_string ['O', 'K']]).well_formed ∧
      (reply.array [.blob_string ['a'], .array [.number 1, .null], .array [],
        .simple_string ['O', 'K']]).lines ≤ 8 ∧
      ∃ op', async_read 8
          ((reply.array [.blob_string ['a'], .array [.number 1, .null], .array [],
            .simple_string ['O', 'K']]).encode ++ ['x', 'y']) ⟨[['z']]⟩ = .complete none op' ∧
        op'.res = ⟨[['z']] ++ (reply.array [.blob_string ['a'], .array [.number 1, .null],
          .array [], .simple_string ['O', 'K']]).leaves⟩ ∧
        op'.buf = ['x', 'y'] ∧ op'.depth = 0 :=
  have hn : (reply.array [.blob_string ['a'], .array [.number 1, .null], .array [],
      .simple_string ['O', 'K']]).nesting ≤ 5 := by decide
  have hw : (reply.array [.blob_string ['a'], .array [.number 1, .null], .array [],
      .simple_string ['O', 'K']]).well_formed := by
    simp [reply.well_formed, reply.well_formed_list, find_crlf]
  have hl : (reply.array [.blob_string ['a'], .array [.number 1, .null], .array [],
      .simple_string ['O', 'K']]).lines ≤ 8 := by decide
  ⟨hn, hw, hl, nested_reply_parse _ hn hw ['x', 'y'] ⟨[['z']]⟩ 8 hl⟩

/-- C9: on the top-level input `$-1\r\n` the read delivers the 5 bytes of the
line, and the one resumption on that line appends exactly one empty entry,
stays out of blob-body mode, erases exactly those 5 bytes and completes
without error; no further line is read. -/
theorem null_blob_parse (rest : Bytes) (res : response) (fuel : Nat) :
    async_read_until ('$' :: '-' :: '1' :: '\r' :: '\n' :: rest) = (none, 5) ∧
      ({ buf := '$' :: '-' :: '1' :: '\r' :: '\n' :: rest, res := res, start := 0 } :
          parse_op).resume none 5 =
        .complete none { buf := rest, res := ⟨res.res ++ [[]]⟩, start := 0, depth := 0,
                         sizes := [1, 1, 1, 1, 1, 1], bulky := false } ∧
      async_read (fuel + 1) ('$' :: '-' :: '1' :: '\r' :: '\n' :: rest) res =
        .complete none { buf := rest, res := ⟨res.res ++ [[]]⟩, start := 0, depth := 0,
                         sizes := [1, 1, 1, 1, 1, 1], bulky := false } := by
  have h1 : async_read_until ('$' :: '-' :: '1' :: '\r' :: '\n' :: rest) = (none, 5) := by
    simp [async_read_until, find_crlf]
  have h2 : ({ buf := '$' :: '-' :: '1' :: '\r' :: '\n' :: rest, res := res, start := 0 } :
      parse_op).resume none 5 =
      .complete none { buf := rest, res := ⟨res.res ++ [[]]⟩, start := 0, depth := 0,
                       sizes := [1, 1, 1, 1, 1, 1], bulky := false } := by
    simp [parse_op.resume, parse_op.line, collapse, dec_size, response.add, INT_MIN]
  refine ⟨h1, h2, ?_⟩
  rw [async_read_eq, run_succ]
  simp only [h1, h2]

/-! ## Inputs on which the parser leaves the protocol -/

theorem blob_line_cut (p q : Bytes) (k : Nat) (res : response) (fuel : Nat) (hp : p ≠ [])
    (hpc : find_crlf p = none) :
    async_read (fuel + 2) ('$' :: Nat.toDigits 10 k ++ '\r' :: '\n' :: (p ++ '\r' :: '\n' :: q))
        res =
      .complete none { buf := q, res := ⟨res.res ++ [p]⟩, start := 0, depth := 0,
                       sizes := [1, 1, 1, 1, 1, 1], bulky := true } := by
  rw [async_read_eq, run_blob fuel _ p q rfl rfl k rfl hp hpc (by simp) (by simp [INT_MIN]),
    after_token_top _ _ (by simp [dec_size]) rfl]
  simp [dec_size, response.add]

theorem empty_blob_line (k : Nat) (rest : Bytes) (res : response) (fuel : Nat) :
    async_read (fuel + 2) ('$' :: Nat.toDigits 10 k ++ '\r' :: '\n' :: '\r' :: '\n' :: rest) res =
      .complete none { buf := '\r' :: '\n' :: rest, res := res, start := 0, depth := 0,
                       sizes := [2, 1, 1, 1, 1, 1], bulky := true } := by
  have hread := read_marked_line '$' (Nat.toDigits 10 k) ('\r' :: '\n' :: rest) (by decide)
    (find_crlf_digits k)
  obtain ⟨hdne, hdig, _⟩ := toDigits_spec k
  have hline : ({ buf := '$' :: Nat.toDigits 10 k ++ '\r' :: '\n' :: '\r' :: '\n' :: rest,
                  res := res, start := 0 } : parse_op).line ((Nat.toDigits 10 k).length + 3) =
      .ok { buf := '$' :: Nat.toDigits 10 k ++ '\r' :: '\n' :: '\r' :: '\n' :: rest,
            res := res, start := 0 } true := by
    cases hds : Nat.toDigits 10 k with
    | nil => exact absurd hds hdne
    | cons d ds =>
      have hd := hdig d (by simp [hds])
      have hd2 : d ≠ '-' := by
        rintro rfl
        revert hd
        decide
      simp [parse_op.line, hd2]
  rw [async_read_eq, show fuel + 2 = (fuel + 1) + 1 from rfl,
    run_blob_header (fuel + 1) _ _ _ rfl (by omega) hread hline (by simp)]
  simp only [drop_marked_line]
  rw [run_succ]
  simp [async_read_until, find_crlf, parse_op.resume]

theorem blob_string_parse (s rest : Bytes) (res : response) (fuel : Nat) (hs : s ≠ [])
    (hsc : find_crlf s = none) :
    async_read (fuel + 2)
        ('$' :: (Nat.repr s.length).toList ++ '\r' :: '\n' :: (s ++ '\r' :: '\n' :: rest)) res =
      .complete none { buf := rest, res := ⟨res.res ++ [s]⟩, start := 0, depth := 0,
                       sizes := [1, 1, 1, 1, 1, 1], bulky := true } :=
  blob_line_cut s rest s.length res fuel hs hsc

theorem encode_blobs (items : List Bytes) :
    reply.encode_list (items.map reply.blob_string) = bulk_items items := by
  induction items with
  | nil => rfl
  | cons a t ih =>
    simp only [List.map_cons, reply.encode_list, ih, bulk_items, List.flatten_cons]
    simp [reply.encode, bulk_item]

theorem leaves_blobs (items : List Bytes) :
    reply.leaves_list (items.map reply.blob_string) = items := by
  induction items with
  | nil => rfl
  | cons a t ih => simp [reply.leaves_list, reply.leaves, ih]

theorem lines_blobs (items : List Bytes) :
    reply.lines_list (items.map reply.blob_string) = 2 * items.length := by
  induction items with
  | nil => rfl
  | cons a t ih =>
    simp only [List.map_cons, reply.lines_list, reply.lines, ih, List.length_cons]
    omega

theorem nesting_blobs (items : List Bytes) :
    reply.nesting_list (items.map reply.blob_string) = 0 := by
  induction items with
  | nil => rfl
  | cons a t ih => simp [reply.nesting_list, reply.nesting, ih]

theorem well_formed_blobs (items : List Bytes)
    (h : ∀ b ∈ items, b ≠ [] ∧ find_crlf b = none) :
    reply.well_formed_list (items.map reply.blob_string) := by
  induction items with
  | nil => trivial
  | cons a t ih =>
    simp only [List.map_cons, reply.well_formed_list, reply.well_formed]
    exact ⟨h a (by simp), ih (fun b hb => h b (by simp [hb]))⟩

theorem round_trip_plain_items (cmd : Bytes) (bs : List Bytes) (res : response) (fuel : Nat)
    (h : ∀ b ∈ cmd :: bs, b ≠ [] ∧ find_crlf b = none) (hn : bs.length + 1 < 2 ^ 31)
    (hfuel : 2 * bs.length + 3 ≤ fuel) :
    ∃ op', async_read fuel (assemble [] cmd [] (strs bs)) res = .complete none op' ∧
      op'.res = ⟨res.res ++ cmd :: bs⟩ ∧ op'.buf = [] ∧ op'.depth = 0 := by
  have henc : assemble [] cmd [] (strs bs) =
      (reply.array ((cmd :: bs).map reply.blob_string)).encode ++ [] := by
    rw [assemble_strs_segment _ _ _ _ (by simp only [List.length_nil]; omega), reply.encode,
      encode_blobs, segment, array_header_nat, repr_toList]
    simp
  have hl : (reply.array ((cmd :: bs).map reply.blob_string)).lines ≤ fuel := by
    rw [reply.lines, lines_blobs]
    simp only [List.length_cons]
    omega
  have hw : (reply.array ((cmd :: bs).map reply.blob_string)).well_formed := by
    rw [reply.well_formed]
    exact ⟨by simpa using hn, well_formed_blobs _ h⟩
  have hnest : (reply.array ((cmd :: bs).map reply.blob_string)).nesting ≤ 5 := by
    rw [reply.nesting, nesting_blobs]
    decide
  obtain ⟨op', h1, h2, h3, h4⟩ := async_read_reply _ hnest hw [] res fuel hl
  refine ⟨op', by rw [henc]; exact h1, ?_, h3, h4⟩
  rw [h2, reply.leaves, leaves_blobs]

/-- C2 (the code at the test vector of `blob_string`): on the input
`$26\r\n` followed by the 26-byte body with an embedded `\r\n` and the closing
`\r\n`, the parse completes after the blob line has been cut at the embedded
separator: the recorded entry is the 14 bytes before it, and the remaining 10
bytes of the body with the closing `\r\n` are left in the read buffer. -/
theorem blob_with_separator_cut (res : response) (fuel : Nat) :
    async_read (fuel + 2) "$26\r\nhhaa\x07aaa\raaaaa\r\naaaaaaaaaa\r\n".toList res =
      .complete none { buf := "aaaaaaaaaa\r\n".toList,
                       res := ⟨res.res ++ ["hhaa\x07aaa\raaaaa".toList]⟩,
                       start := 0, depth := 0, sizes := [1, 1, 1, 1, 1, 1], bulky := true } :=
  blob_line_cut "hhaa\x07aaa\raaaaa".toList "aaaaaaaaaa\r\n".toList 26 res fuel
    (by simp) rfl

/-- C8 (the code at the empty blob): on the input `$0\r\n\r\n` the parse
completes without error when it reads the empty body line, before it has
recorded an entry and before it has erased that line: the response is
unchanged and `\r\n` is left in the read buffer. -/
theorem empty_blob_not_recorded (res : response) (fuel : Nat) :
    async_read (fuel + 2) "$0\r\n\r\n".toList res =
      .complete none { buf := "\r\n".toList, res := res, start := 0, depth := 0,
                       sizes := [2, 1, 1, 1, 1, 1], bulky := true } :=
  empty_blob_line 0 [] res fuel

theorem get_length_loop_cr (len : Nat) (p : Bytes) :
    get_length_loop len ('\r' :: p) = len := by
  rw [get_length_loop, if_pos rfl]

theorem get_length_loop_step (len : Nat) (c : Char) (p : Bytes) (h : c ≠ '\r') :
    get_length_loop len (c :: p) =
      get_length_loop ((((10 * len : Nat) : Int) + (char_value c - 48)) % 2 ^ 64).toNat p := by
  rw [get_length_loop, if_neg h]

theorem get_length_minus_one (r : Bytes) :
    get_length ('-' :: '1' :: '\r' :: r) = 2 ^ 64 - 29 := by
  have e1 : char_value '-' = 45 := rfl
  have e2 : char_value '1' = 49 := rfl
  rw [get_length, get_length_loop_step _ _ _ (by decide), get_length_loop_step _ _ _ (by decide),
    get_length_loop_cr, e1, e2]
  norm_num
  rfl

theorem size_to_int_minus_one : size_to_int (2 ^ 64 - 29) = -29 := by
  unfold size_to_int
  norm_num

theorem resume_null_array (r : Bytes) (res : response) :
    ({ buf := '*' :: '-' :: '1' :: '\r' :: '\n' :: r, res := res, start := 0 } :
        parse_op).resume none 5 =
      .suspended { buf := r, res := res, start := 0, depth := 1,
                   sizes := [2, -29, 1, 1, 1, 1], bulky := false } := by
  have hline : ({ buf := '*' :: '-' :: '1' :: '\r' :: '\n' :: r, res := res, start := 0 } :
      parse_op).line 5 =
      .ok { buf := '*' :: '-' :: '1' :: '\r' :: '\n' :: r, res := res, start := 0, depth := 1,
            sizes := [2, -29, 1, 1, 1, 1] } false := by
    unfold parse_op.line
    simp only [Bool.false_eq_true, if_false, List.head?_cons, List.drop_succ_cons, List.drop_zero,
      get_length_minus_one, size_to_int_minus_one]
    rfl
  unfold parse_op.resume
  simp only [hline]
  rfl

/-- C10 (the code at the null array): on the top-level input `*-1\r\n` the
resumption on that line appends nothing, opens a frame at depth 1 whose count
is the `int` that `get_length` yields for `-1`, namely -29, and issues a
further read instead of completing; with no further line on the transport the
parse then completes with end-of-file. -/
theorem null_array_descends (rest : Bytes) (res : response) :
    ({ buf := '*' :: '-' :: '1' :: '\r' :: '\n' :: rest, res := res, start := 0 } :
          parse_op).resume none 5 =
        .suspended { buf := rest, res := res, start := 0, depth := 1,
                     sizes := [2, -29, 1, 1, 1, 1], bulky := false } ∧
      async_read 2 ['*', '-', '1', '\r', '\n'] res =
        .complete (some .eof) { buf := [], res := res, start := 0, depth := 1,
                                sizes := [2, -29, 1, 1, 1, 1], bulky := false } := by
  refine ⟨resume_null_array rest res, ?_⟩
  have hread : async_read_until ['*', '-', '1', '\r', '\n'] = (none, 5) := by
    simp [async_read_until, find_crlf]
  exact (run_suspended 1 _ _ none 5 hread (resume_null_array [] res)).trans
    (run_complete 0 _ _ (some .eof) (some .eof) 0 rfl rfl)

/-- C1 (the code at a request with an empty argument): the bytes that the
generic `assemble` writes for `SET` with the arguments `s` and the empty
string parse to the two entries `SET` and `s` only; the parse completes while
the array is still open at depth 1 and leaves `\r\n` in the read buffer. -/
theorem round_trip_loses_empty_item :
    async_read 7 (assemble [] "SET".toList [] [.str "s".toList, .str []]) ⟨[]⟩ =
      .complete none { buf := "\r\n".toList, res := ⟨["SET".toList, "s".toList]⟩,
                       start := 0, depth := 1, sizes := [2, 1, 1, 1, 1, 1], bulky := true } := by
  rfl

/-! ## Lines the parser has no branch for -/

theorem run_assert (fuel : Nat) (op op1 : parse_op) (ec : Option error_code) (n : Nat)
    (hread : async_read_until op.buf = (ec, n)) (hres : op.resume ec n = .assert_failed op1) :
    run (fuel + 1) op = .assert_failed op1 := by
  rw [run_succ, hread]
  simp only [hres]

theorem run_undefined (fuel : Nat) (op : parse_op) (ec : Option error_code) (n : Nat)
    (hread : async_read_until op.buf = (ec, n)) (hres : op.resume ec n = .undefined) :
    run (fuel + 1) op = .undefined := by
  rw [run_succ, hread]
  simp only [hres]

theorem resume_unknown_marker (op : parse_op) (c : Char) (n : Nat) (hs : op.start ≠ 1)
    (hn : 3 ≤ n) (hb : op.bulky = false) (hsz : op.sizes.getD op.depth 0 ≠ 0)
    (hhead : op.buf.head? = some c)
    (hc : c ≠ '$' ∧ c ≠ '+' ∧ c ≠ '-' ∧ c ≠ ':' ∧ c ≠ '*') :
    op.resume none n = .assert_failed op := by
  have hn3 : ¬ n < 3 := by omega
  have hline : op.line n = .assert_failed := by
    unfold parse_op.line
    rw [if_neg (by simp [hb]), if_pos hsz]
    simp [hhead, hc.1, hc.2.1, hc.2.2.1, hc.2.2.2.1, hc.2.2.2.2]
  unfold parse_op.resume
  rw [if_neg hs]
  simp [hn3, hline]

/-- C11 (the code at the map reply of the specification's scenario 5): the
first line `%2\r\n` starts with a byte the switch of `parse_op` has no case
for, so the resumption on it ends in `assert(false)`: no child body is
delivered and nothing is erased from the read buffer. -/
theorem map_reply_asserts (res : response) (fuel : Nat) :
    async_read (fuel + 1)
        "%2\r\n$6\r\nserver\r\n$5\r\nredis\r\n$5\r\nproto\r\n:3\r\n".toList res =
      .assert_failed
        { buf := "%2\r\n$6\r\nserver\r\n$5\r\nredis\r\n$5\r\nproto\r\n:3\r\n".toList,
          res := res, start := 0 } := by
  have hread : async_read_until
      "%2\r\n$6\r\nserver\r\n$5\r\nredis\r\n$5\r\nproto\r\n:3\r\n".toList = (none, 4) := rfl
  have hres := resume_unknown_marker
    { buf := "%2\r\n$6\r\nserver\r\n$5\r\nredis\r\n$5\r\nproto\r\n:3\r\n".toList,
      res := res, start := 0 } '%' 4 (by simp) (by decide) rfl (by simp) rfl (by decide)
  exact run_assert fuel _ _ none 4 hread hres

/-- C12 (the code at the streamed string of the test `streamed_string`): after
`$?\r\n` the parser is in blob-body mode, so the part header `;4\r\n` is
recorded as one entry `;4` and the parse completes there; the parts and the
terminator `;0\r\n` stay in the read buffer. -/
theorem streamed_string_cut (res : response) (fuel : Nat) :
    async_read (fuel + 2) "$?\r\n;4\r\nHell\r\n;5\r\no wor\r\n;1\r\nd\r\n;0\r\n".toList res =
      .complete none
        { buf := "Hell\r\n;5\r\no wor\r\n;1\r\nd\r\n;0\r\n".toList,
          res := ⟨res.res ++ [";4".toList]⟩, start := 0, depth := 0,
          sizes := [1, 1, 1, 1, 1, 1], bulky := true } := by
  have h1 : run (fuel + 1 + 1)
      { buf := "$?\r\n;4\r\nHell\r\n;5\r\no wor\r\n;1\r\nd\r\n;0\r\n".toList, res := res,
        start := 0 } =
      run (fuel + 1)
        { buf := ";4\r\nHell\r\n;5\r\no wor\r\n;1\r\nd\r\n;0\r\n".toList, res := res,
          start := 0, bulky := true } :=
    run_suspended (fuel + 1) _ _ none 4 rfl rfl
  have h2 : run (fuel + 1)
      { buf := ";4\r\nHell\r\n;5\r\no wor\r\n;1\r\nd\r\n;0\r\n".toList, res := res,
        start := 0, bulky := true } =
      .complete none
        { buf := "Hell\r\n;5\r\no wor\r\n;1\r\nd\r\n;0\r\n".toList,
          res := ⟨res.res ++ [";4".toList]⟩, start := 0, depth := 0,
          sizes := [1, 1, 1, 1, 1, 1], bulky := true } :=
    run_complete fuel _ _ none none 4 rfl rfl
  exact h1.trans h2

/-- C13: whenever a read issued by `parse_op` completes with an error `e`, in
any state of the parse and whatever the byte count, the resumption completes
at once with exactly `e`; the state handed to the completion is the state
before the resumption, so no entry is appended and nothing is erased. -/
theorem transport_error_completes (op : parse_op) (e : error_code) (n : Nat)
    (hs : op.start ≠ 1) : op.resume (some e) n = .complete (some e) op := by
  unfold parse_op.resume
  rw [if_neg hs]
  simp

theorem transport_error_completes_witness :
    ({ buf := ['+', 'O'], res := ⟨[['a']]⟩, start := 0, depth := 1,
       sizes := [2, 3, 1, 1, 1, 1], bulky := true } : parse_op).start ≠ 1 ∧
      ({ buf := ['+', 'O'], res := ⟨[['a']]⟩, start := 0, depth := 1,
         sizes := [2, 3, 1, 1, 1, 1], bulky := true } : parse_op).resume
          (some .operation_aborted) 0 =
        .complete (some .operation_aborted)
          { buf := ['+', 'O'], res := ⟨[['a']]⟩, start := 0, depth := 1,
            sizes := [2, 3, 1, 1, 1, 1], bulky := true } :=
  ⟨by decide, transport_error_completes _ .operation_aborted 0 (by decide)⟩

/-- C14 fails as stated: on the input `\r\n` the line has 2 bytes and the parse
completes with the success value, with nothing appended or erased. -/
theorem short_line_completes_with_success :
    async_read 1 ['\r', '\n'] ⟨[]⟩ =
      .complete none { buf := ['\r', '\n'], res := ⟨[]⟩, start := 0 } := by
  rfl

/-- C14 (as amended): whenever a header line is expected and the line read is
shorter than 3 bytes, the resumption completes at once with the error value
of the read, which is success when the read succeeded; it appends no entry
and erases nothing. -/
theorem short_line_completes (op : parse_op) (ec : Option error_code) (n : Nat)
    (hs : op.start ≠ 1) (hb : op.bulky = false) (hn : n < 3) :
    op.resume ec n = .complete ec op := by
  have _ := hb
  unfold parse_op.resume
  rw [if_neg hs]
  simp [hn]

theorem short_line_completes_witness :
    ({ buf := ['\r', '\n'], res := ⟨[]⟩, start := 0 } : parse_op).start ≠ 1 ∧
      ({ buf := ['\r', '\n'], res := ⟨[]⟩, start := 0 } : parse_op).bulky = false ∧
      (2 : Nat) < 3 ∧
      ({ buf := ['\r', '\n'], res := ⟨[]⟩, start := 0 } : parse_op).resume none 2 =
        .complete none { buf := ['\r', '\n'], res := ⟨[]⟩, start := 0 } :=
  ⟨by decide, rfl, by decide, short_line_completes _ none 2 (by decide) rfl (by decide)⟩

theorem nest_one (fuel d : Nat) (rest : Bytes) (res : response) (hd : d < 5) :
    run (fuel + 1)
        { buf := '*' :: '1' :: '\r' :: '\n' :: rest, res := res, start := 0, depth := d,
          sizes := [2, 1, 1, 1, 1, 1], bulky := false } =
      run fuel
        { buf := rest, res := res, start := 0, depth := d + 1,
          sizes := [2, 1, 1, 1, 1, 1], bulky := false } := by
  interval_cases d <;>
    exact (run_array_header fuel _ 1 rest rfl rfl rfl (by norm_num) (by simp) (by simp)).trans
      (after_token_stay fuel _ (by simp) (by simp))

/-- C16 (the code at six nested arrays): the sixth array header makes
`sizes[++depth]` a write to `sizes[6]`, outside the array `int sizes[6]`; the
parser has no depth check and raises no error. -/
theorem sixth_level_overflows (res : response) (fuel : Nat) :
    async_read (fuel + 6) "*1\r\n*1\r\n*1\r\n*1\r\n*1\r\n*1\r\n+x\r\n".toList res =
      .undefined := by
  have h0 := nest_one (fuel + 5) 0 "*1\r\n*1\r\n*1\r\n*1\r\n*1\r\n+x\r\n".toList res (by decide)
  have h1 := nest_one (fuel + 4) 1 "*1\r\n*1\r\n*1\r\n*1\r\n+x\r\n".toList res (by decide)
  have h2 := nest_one (fuel + 3) 2 "*1\r\n*1\r\n*1\r\n+x\r\n".toList res (by decide)
  have h3 := nest_one (fuel + 2) 3 "*1\r\n*1\r\n+x\r\n".toList res (by decide)
  have h4 := nest_one (fuel + 1) 4 "*1\r\n+x\r\n".toList res (by decide)
  have hline : ({ buf := "*1\r\n+x\r\n".toList, res := res, start := 0, depth := 5,
                  sizes := [2, 1, 1, 1, 1, 1], bulky := false } : parse_op).line 4 =
      .undefined := by
    simp [parse_op.line]
  have hres : ({ buf := "*1\r\n+x\r\n".toList, res := res, start := 0, depth := 5,
                 sizes := [2, 1, 1, 1, 1, 1], bulky := false } : parse_op).resume none 4 =
      .undefined := by
    unfold parse_op.resume
    simp only [hline]
    rfl
  have h5 : run (fuel + 1)
      { buf := "*1\r\n+x\r\n".toList, res := res, start := 0, depth := 5,
        sizes := [2, 1, 1, 1, 1, 1], bulky := false } = .undefined :=
    run_undefined fuel _ none 4 rfl hres
  exact h0.trans (h1.trans (h2.trans (h3.trans (h4.trans h5))))

/-! ## Response sinks -/

theorem is_digit_of_range (c : Char) (h : 48 ≤ c.toNat ∧ c.toNat < 58) : is_digit c = true := by
  simp only [is_digit, Bool.and_eq_true, decide_eq_true_eq]
  omega

theorem takeWhile_digits (n : Nat) :
    (Nat.toDigits 10 n).takeWhile is_digit = Nat.toDigits 10 n := by
  rw [List.takeWhile_eq_self_iff]
  intro c hc
  exact is_digit_of_range c ((toDigits_spec n).2.1 c hc)

theorem head_digits_ne_minus (n : Nat) : (Nat.toDigits 10 n).head? ≠ some '-' := by
  obtain ⟨hne, hdig, _⟩ := toDigits_spec n
  cases hds : Nat.toDigits 10 n with
  | nil => exact absurd hds hne
  | cons d ds =>
    have hd := hdig d (by simp [hds])
    simp only [List.head?_cons, ne_eq, Option.some.injEq]
    rintro rfl
    revert hd
    decide

theorem from_chars_nonneg (T : int_type) (n : Nat) (value : Int)
    (hmin : T.min ≤ (n : Int)) (hmax : (n : Int) ≤ T.max) :
    from_chars T (Nat.toDigits 10 n) value =
      (⟨(Nat.toDigits 10 n).length, .ok⟩, (n : Int)) := by
  obtain ⟨hne, _, hval⟩ := toDigits_spec n
  have hneg : (T.signed && decide ((Nat.toDigits 10 n).head? = some '-')) = false := by
    simp [head_digits_ne_minus n]
  unfold from_chars
  simp only [hneg, Bool.false_eq_true, if_false, takeWhile_digits, hne, hval, hmin, hmax,
    and_self, if_true, Nat.zero_add]

theorem from_chars_neg (T : int_type) (n : Nat) (value : Int) (hs : T.signed = true)
    (hmin : T.min ≤ -(n : Int)) (hmax : -(n : Int) ≤ T.max) :
    from_chars T ('-' :: Nat.toDigits 10 n) value =
      (⟨1 + (Nat.toDigits 10 n).length, .ok⟩, -(n : Int)) := by
  obtain ⟨hne, _, hval⟩ := toDigits_spec n
  unfold from_chars
  simp only [hs, List.head?_cons, decide_True, Bool.and_self, if_true, List.drop_succ_cons,
    List.drop_zero, takeWhile_digits, hne, if_false, hval, hmin, hmax, and_self]

theorem from_string_view_int_text (T : int_type) (v n : Int) (hmin : T.min ≤ v)
    (hmax : v ≤ T.max) : from_string_view_int T (toString v).toList n = .ok v := by
  rw [← to_string_eq]
  unfold to_string from_string_view_int
  by_cases hv : v < 0
  · have hs : T.signed = true := by
      by_contra hns
      have : T.min = 0 := by simp [int_type.min, hns]
      omega
    have hcast : ((-v).toNat : Int) = -v := Int.toNat_of_nonneg (by omega)
    have h := from_chars_neg T (-v).toNat n hs (by rw [hcast]; simpa using hmin)
      (by rw [hcast]; simpa using hmax)
    rw [if_pos hv, h, hcast]
    simp
  · have hcast : (v.toNat : Int) = v := Int.toNat_of_nonneg (by omega)
    have h := from_chars_nonneg T v.toNat n (by rw [hcast]; exact hmin) (by rw [hcast]; exact hmax)
    rw [if_neg hv, h, hcast]
    simp

/-- C17 fails as stated: the one-byte body `x` does not raise; `on_bool` sets
result to false. -/
theorem bool_sink_accepts_other_byte :
    response_bool.on_bool { result := true } ['x'] = .ok { result := false } := by
  rfl

/-- C17 (as amended): `response_bool::on_bool(s)` sets result to true when `s`
is exactly `t`, to false when `s` is exactly `f` and for every other one-byte
body, and raises for every body whose size is not 1. -/
theorem bool_sink (r : response_bool) :
    response_bool.on_bool r ['t'] = .ok { r with result := true } ∧
      response_bool.on_bool r ['f'] = .ok { r with result := false } ∧
      (∀ c : Char, c ≠ 't' → response_bool.on_bool r [c] = .ok { r with result := false }) ∧
      (∀ s : Bytes, s.length ≠ 1 →
        response_bool.on_bool r s = .error (.runtime_error "Bool has wrong size")) := by
  refine ⟨rfl, rfl, ?_, ?_⟩
  · intro c hc
    simp [response_bool.on_bool, hc]
  · intro s hs
    have h : (s.length : Int) ≠ 1 := by exact_mod_cast hs
    simp [response_bool.on_bool, h]

theorem bool_sink_witness :
    ('x' : Char) ≠ 't' ∧ ([] : Bytes).length ≠ 1 ∧
      response_bool.on_bool { result := true } ['x'] = .ok { result := false } ∧
      response_bool.on_bool { result := true } [] =
        .error (.runtime_error "Bool has wrong size") :=
  ⟨by decide, by decide, (bool_sink { result := true }).2.2.1 'x' (by decide),
    (bool_sink { result := true }).2.2.2 [] (by decide)⟩

/-- C18: for every integer `v` representable in the integral type `T`, negative
values included, `on_number` with the signed decimal text of `v` succeeds and
sets result to `v`. -/
theorem integer_sink_round_trip (T : int_type) (r : response_number) (v : Int)
    (hmin : T.min ≤ v) (hmax : v ≤ T.max) :
    response_number.on_number T r (toString v).toList = .ok { r with result := v } := by
  unfold response_number.on_number
  rw [from_string_view_int_text T v r.result hmin hmax]

theorem integer_sink_round_trip_witness :
    int_type.min ⟨true, 32⟩ ≤ (-3 : Int) ∧ (-3 : Int) ≤ int_type.max ⟨true, 32⟩ ∧
      response_number.on_number ⟨true, 32⟩ { result := 7 } (toString (-3 : Int)).toList =
        .ok { result := -3 } :=
  ⟨by decide, by decide, integer_sink_round_trip ⟨true, 32⟩ { result := 7 } (-3) (by decide)
    (by decide)⟩

/-- C19: for every sink derived from `response_base` (whatever the type of its
result) and every message `m`, `on_simple_error(m)` sets `get_error()` to
`simple_error` and `message()` to `m` and leaves result unchanged;
`on_blob_error(m)` does the same with the kind `blob_error`. Neither can fail. -/
theorem error_reply_recorded (R : Type) (s : sink R) (m : Bytes) :
    ((s.on_simple_error m).get_error = .simple_error ∧ (s.on_simple_error m).message = m ∧
        (s.on_simple_error m).result = s.result) ∧
      ((s.on_blob_error m).get_error = .blob_error ∧ (s.on_blob_error m).message = m ∧
        (s.on_blob_error m).result = s.result) :=
  ⟨⟨rfl, rfl, rfl⟩, ⟨rfl, rfl, rfl⟩⟩

/-- C20 (the code at a simple error): for every message `m`, `on_simple_error(m)`
on a fresh simple-string sink stores `m` as the message of the base class,
sets the error kind to `simple_error` and leaves result the empty string; with
the message `Error` of the test `simple_error` the result is empty, not
`Error`. -/
theorem simple_error_result_empty (m : Bytes) :
    (response_simple_string.fresh.on_simple_error m).result = [] ∧
      (response_simple_string.fresh.on_simple_error m).message = m ∧
      (response_simple_string.fresh.on_simple_error m).get_error = .simple_error ∧
      (response_simple_string.fresh.on_simple_error "Error".toList).result ≠ "Error".toList :=
  ⟨rfl, rfl, rfl, by decide⟩

/-- C21: on the integer sink `response_number<T>` every virtual callback other
than `on_number` (the five aggregate selectors and the leaf callbacks
`on_simple_string`, `on_double`, `on_bool`, `on_big_number`,
`on_verbatim_string`, `on_blob_string`, `on_streamed_string_part`) raises the
error of the base class for every argument and leaves the sink, and so its
result, unchanged. -/
theorem unimplemented_callbacks_fail (T : int_type) (r : response_number) (cb : callback)
    (h : ∀ s, cb ≠ .on_number s) :
    (response_number.call T r cb).raised = some (response_base.not_overridden cb) ∧
      (response_number.call T r cb).after = r ∧
      (response_number.call T r cb).after.result = r.result := by
  cases cb <;> first
    | exact ⟨rfl, rfl, rfl⟩
    | exact absurd rfl (h _)

theorem unimplemented_callbacks_fail_witness :
    (∀ s, callback.select_map 2 ≠ .on_number s) ∧
      (response_number.call ⟨true, 32⟩ { result := 5 } (.select_map 2)).raised =
        some (.runtime_error "select_map: Has not been overridden.") ∧
      (response_number.call ⟨true, 32⟩ { result := 5 } (.select_map 2)).after.result = 5 :=
  have h : ∀ s, callback.select_map 2 ≠ .on_number s := fun _ => by simp
  ⟨h, (unimplemented_callbacks_fail ⟨true, 32⟩ { result := 5 } (.select_map 2) h).1,
    (unimplemented_callbacks_fail ⟨true, 32⟩ { result := 5 } (.select_map 2) h).2.2⟩

theorem response_array_calls (cs : List callback) : ∀ r : response_array,
    (response_array.calls r cs).raised = none ∧
      (response_array.calls r cs).after.result = r.result ++ cs.filterMap callback.body ∧
      (response_array.calls r cs).after.base = r.base := by
  induction cs with
  | nil => intro r; simp [response_array.calls]
  | cons cb cs ih =>
    intro r
    have hcall : (r.call cb).raised = none ∧
        (r.call cb).after.result = r.result ++ (callback.body cb).toList ∧
        (r.call cb).after.base = r.base := by
      cases cb <;>
        simp [response_array.call, response_array.add, callback.body, from_string_view]
    obtain ⟨h1, h2, h3⟩ := hcall
    obtain ⟨i1, i2, i3⟩ := ih (r.call cb).after
    simp only [response_array.calls, h1]
    refine ⟨i1, ?_, by rw [i3, h3]⟩
    rw [i2, h2]
    cases hb : callback.body cb <;> simp [List.filterMap_cons, hb]

/-- C22: for every sequence of aggregate selectors and scalar leaf callbacks on
a fresh `response_array<std::string>`, no call raises and result is exactly
the list of the bodies of the leaf callbacks in arrival order; the selectors
add nothing, and nothing is dropped or reordered. -/
theorem flat_sink_preserves_order (cs : List callback) :
    (response_array.calls response_array.fresh cs).raised = none ∧
      (response_array.calls response_array.fresh cs).after.result =
        cs.filterMap callback.body := by
  obtain ⟨h1, h2, _⟩ := response_array_calls cs response_array.fresh
  exact ⟨h1, by simpa [response_array.fresh] using h2⟩

theorem response_set_calls (ds : List (Bool × Bytes)) : ∀ r : response_set,
    (response_set.calls r (ds.map set_delivery)).raised = none ∧
      (response_set.calls r (ds.map set_delivery)).after.result =
        r.result ∪ (ds.map Prod.snd).toFinset := by
  induction ds with
  | nil => intro r; simp [response_set.calls]
  | cons d ds ih =>
    intro r
    obtain ⟨flag, body⟩ := d
    have hcall : (r.call (set_delivery (flag, body))).raised = none ∧
        (r.call (set_delivery (flag, body))).after.result = insert body r.result := by
      cases flag <;>
        simp [set_delivery, response_set.call, response_set.add, from_string_view]
    obtain ⟨h1, h2⟩ := hcall
    obtain ⟨i1, i2⟩ := ih (r.call (set_delivery (flag, body))).after
    simp only [List.map_cons, response_set.calls, h1]
    refine ⟨i1, ?_⟩
    rw [i2, h2]
    ext x
    simp only [Finset.mem_union, Finset.mem_insert, List.toFinset_cons]
    tauto

/-- C23: for every sequence of bodies delivered to a fresh
`response_set<std::string>` through `on_simple_string` or `on_blob_string`
after `select_set`, no call raises and result is exactly the set of the
values among the bodies: a body is in result if and only if it was delivered,
so duplicates collapse and the arrival order does not matter. -/
theorem set_sink_distinct (n : Int) (ds : List (Bool × Bytes)) :
    (response_set.calls response_set.fresh (.select_set n :: ds.map set_delivery)).raised =
        none ∧
      (response_set.calls response_set.fresh
          (.select_set n :: ds.map set_delivery)).after.result = (ds.map Prod.snd).toFinset ∧
      ∀ x, x ∈ (response_set.calls response_set.fresh
          (.select_set n :: ds.map set_delivery)).after.result ↔ x ∈ ds.map Prod.snd := by
  have hsel : response_set.calls response_set.fresh (.select_set n :: ds.map set_delivery) =
      response_set.calls response_set.fresh (ds.map set_delivery) := by
    simp [response_set.calls, response_set.call]
  obtain ⟨h1, h2⟩ := response_set_calls ds response_set.fresh
  have h3 : (response_set.calls response_set.fresh (ds.map set_delivery)).after.result =
      (ds.map Prod.snd).toFinset := by
    rw [h2]
    simp [response_set.fresh]
  rw [hsel]
  refine ⟨h1, h3, ?_⟩
  intro x
  rw [h3, List.mem_toFinset]

/-! ## Sentinel discovery -/

/-- C24: constructing `sentinel_op2` throws if and only if the flat sentinel
list is empty or has an odd number of entries; for every non-empty list of
even length the construction succeeds with the given configuration and
instance record. -/
theorem sentinel_list_validation (cfg : sentinel_op2.config) (inst : instance_record) :
    (sentinel_op2.construct cfg inst = .error (.runtime_error "sentinel_op2: wrong size.") ↔
        (cfg.sentinels = [] ∨ cfg.sentinels.length % 2 = 1)) ∧
      (sentinel_op2.construct cfg inst = .ok { inst := inst, cfg := cfg } ↔
        (cfg.sentinels ≠ [] ∧ cfg.sentinels.length % 2 = 0)) := by
  have hnil : cfg.sentinels = [] ↔ cfg.sentinels.length = 0 := List.length_eq_zero.symm
  unfold sentinel_op2.construct
  by_cases h : cfg.sentinels.length = 0 ∨ cfg.sentinels.length % 2 ≠ 0
  · have h1 : cfg.sentinels = [] ∨ cfg.sentinels.length % 2 = 1 := by
      rw [hnil]
      omega
    have h2 : ¬ (cfg.sentinels ≠ [] ∧ cfg.sentinels.length % 2 = 0) := by
      rw [Ne, hnil]
      omega
    rw [if_pos h]
    refine ⟨⟨fun _ => h1, fun _ => rfl⟩, ⟨fun hh => ?_, fun hh => absurd hh h2⟩⟩
    cases hh
  · have h1 : ¬ (cfg.sentinels = [] ∨ cfg.sentinels.length % 2 = 1) := by
      rw [hnil]
      omega
    have h2 : cfg.sentinels ≠ [] ∧ cfg.sentinels.length % 2 = 0 := by
      rw [Ne, hnil]
      omega
    rw [if_neg h]
    refine ⟨⟨fun hh => ?_, fun hh => absurd hh h1⟩, ⟨fun _ => h2, fun _ => rfl⟩⟩
    cases hh

theorem connect_loop_connected (size : Nat) (net : network) (i : Nat) :
    ∀ (r i0 : Nat), size = 2 * (i0 + r) → i0 ≤ i → i < i0 + r →
      (∀ j, i0 ≤ j → j < i → net.resolve j = none ∧ net.connect j ≠ none) →
      net.resolve i = none → net.connect i = none →
      sentinel_op2.connect_loop size net r i0 = .connected i := by
  intro r
  induction r with
  | zero => intro i0 _ h1 h2; omega
  | succ r ih =>
    intro i0 hsize h1 h2 hprev hres hcon
    by_cases hi : i0 = i
    · subst hi
      simp [sentinel_op2.connect_loop, hres, hcon]
    · obtain ⟨hr0, hc0⟩ := hprev i0 (Nat.le_refl _) (by omega)
      obtain ⟨e, he⟩ := Option.ne_none_iff_exists'.1 hc0
      have hne : ¬ 2 * (i0 + 1) = size := by omega
      have := ih (i0 + 1) (by omega) (by omega) (by omega)
        (fun j hj1 hj2 => hprev j (by omega) hj2) hres hcon
      simp [sentinel_op2.connect_loop, hr0, he, hne, this]

theorem connect_loop_resolve_error (size : Nat) (net : network) (i : Nat) (e : error_code) :
    ∀ (r i0 : Nat), size = 2 * (i0 + r) → i0 ≤ i → i < i0 + r →
      (∀ j, i0 ≤ j → j < i → net.resolve j = none ∧ net.connect j ≠ none) →
      net.resolve i = some e →
      sentinel_op2.connect_loop size net r i0 = .completed e := by
  intro r
  induction r with
  | zero => intro i0 _ h1 h2; omega
  | succ r ih =>
    intro i0 hsize h1 h2 hprev hres
    by_cases hi : i0 = i
    · subst hi
      simp [sentinel_op2.connect_loop, hres]
    · obtain ⟨hr0, hc0⟩ := hprev i0 (Nat.le_refl _) (by omega)
      obtain ⟨e0, he⟩ := Option.ne_none_iff_exists'.1 hc0
      have hne : ¬ 2 * (i0 + 1) = size := by omega
      have := ih (i0 + 1) (by omega) (by omega) (by omega)
        (fun j hj1 hj2 => hprev j (by omega) hj2) hres
      simp [sentinel_op2.connect_loop, hr0, he, hne, this]

theorem connect_loop_all_fail (size : Nat) (net : network) (e : error_code) :
    ∀ (r i0 : Nat), size = 2 * (i0 + r) → 0 < r →
      (∀ j, i0 ≤ j → j < i0 + r → net.resolve j = none ∧ net.connect j ≠ none) →
      net.connect (i0 + r - 1) = some e →
      sentinel_op2.connect_loop size net r i0 = .completed e := by
  intro r
  induction r with
  | zero => intro i0 _ h; omega
  | succ r ih =>
    intro i0 hsize _ hall hlast
    obtain ⟨hr0, hc0⟩ := hall i0 (Nat.le_refl _) (by omega)
    by_cases hr : r = 0
    · subst hr
      have h1 : net.connect i0 = some e := by simpa using hlast
      have heq : 2 * (i0 + 1) = size := by omega
      simp [sentinel_op2.connect_loop, hr0, h1, heq]
    · obtain ⟨e0, he⟩ := Option.ne_none_iff_exists'.1 hc0
      have hne : ¬ 2 * (i0 + 1) = size := by omega
      have := ih (i0 + 1) (by omega) (by omega) (fun j hj1 hj2 => hall j (by omega) (by omega))
        (by rw [← hlast]; congr 1; omega)
      simp [sentinel_op2.connect_loop, hr0, he, hne, this]

/-- C25 (the code at a request for the primary `N`): with the default sentinel
list and a network on which resolve and connect succeed, the `on_connect`
case writes the array of `SENTINEL`, `get-master-addr-by-name` and the name
found in the caller's instance record, not the configured name `N`, and only
then stores `N` into the record. -/
theorem sentinel_request_names_record (N : Bytes) (inst : instance_record) :
    sentinel_op2.resume { inst := inst, cfg := { name := N } }
        ⟨fun _ => none, fun _ => none⟩ none =
      .async_write
        { inst := { inst with name := N }, cfg := { name := N }, opstate := .on_write,
          cmd := segment ["SENTINEL".toList, "get-master-addr-by-name".toList, inst.name] } := by
  have hloop : sentinel_op2.connect_loop 2 ⟨fun _ => none, fun _ => none⟩ 1 0 =
      .connected 0 := rfl
  have hcmd : (pipeline.sentinel ⟨[]⟩ "get-master-addr-by-name".toList inst.name).payload =
      segment ["SENTINEL".toList, "get-master-addr-by-name".toList, inst.name] := by
    simp only [pipeline.sentinel]
    rw [assemble_strs_segment _ _ _ _ (by simp)]
    rfl
  unfold sentinel_op2.resume
  simp only [List.length_cons, List.length_nil, Nat.reduceAdd, Nat.reduceDiv, hloop, hcmd]

theorem sentinel_connect_write (s : sentinel_op2.impl) (net : network) (ec : Option error_code)
    (hstate : s.opstate = .on_connect) :
    (∀ s1, sentinel_op2.resume s net ec = .async_write s1 →
        s1 = { s with inst := { s.inst with name := s.cfg.name },
                      cmd := (pipeline.sentinel ⟨[]⟩ "get-master-addr-by-name".toList
                        s.inst.name).payload,
                      opstate := .on_write }) := by
  intro s1 h
  unfold sentinel_op2.resume at h
  simp only [hstate] at h
  split at h
  · cases h
  · simp only [sentinel_outcome.async_write.injEq] at h
    exact h.symm

/-- C26: once the `on_connect` case has issued the write, the write completes
without error and the `on_read` case runs with a parsed response: with at
least 2 elements the caller's instance record ends as host = element 0,
port = element 1 and name = the configured name; with fewer than 2 elements
host and port are the ones the record held before, and name is the configured
name. The completion carries the error value of the read. -/
theorem sentinel_result_publication (s s1 : sentinel_op2.impl) (net : network)
    (ec0 : Option error_code) (hstate : s.opstate = .on_connect)
    (hwrite : sentinel_op2.resume s net ec0 = .async_write s1)
    (parsed : response) (buffer : Bytes) (ec : Option error_code) :
    sentinel_op2.resume s1 net none = .async_read { s1 with opstate := .on_read } ∧
      ∃ s3, sentinel_op2.resume
          { s1 with opstate := .on_read, res := parsed, buffer := buffer } net ec =
            .complete ec s3 ∧
        s3.inst = (if 1 < parsed.res.length then
            { host := parsed.res.getD 0 [], port := parsed.res.getD 1 [], name := s.cfg.name }
          else { host := s.inst.host, port := s.inst.port, name := s.cfg.name }) := by
  have h1 := sentinel_connect_write s net ec0 hstate s1 hwrite
  subst h1
  refine ⟨rfl, ?_⟩
  by_cases hn : 1 < parsed.res.length
  · refine ⟨_, rfl, ?_⟩
    simp [hn]
  · refine ⟨_, rfl, ?_⟩
    simp [hn]

theorem sentinel_result_publication_witness :
    (({ inst := ⟨['h'], ['p'], ['n']⟩, cfg := {} } : sentinel_op2.impl).opstate = .on_connect) ∧
      sentinel_op2.resume { inst := ⟨['h'], ['p'], ['n']⟩, cfg := {} }
          ⟨fun _ => none, fun _ => none⟩ none =
        .async_write
          { inst := ⟨['h'], ['p'], "mymaster".toList⟩, cfg := {}, opstate := .on_write,
            cmd := segment ["SENTINEL".toList, "get-master-addr-by-name".toList, ['n']] } ∧
      ∃ s3, sentinel_op2.resume
          { inst := ⟨['h'], ['p'], "mymaster".toList⟩, cfg := {}, opstate := .on_read,
            cmd := segment ["SENTINEL".toList, "get-master-addr-by-name".toList, ['n']],
            res := ⟨[['a'], ['b']]⟩, buffer := [] }
          ⟨fun _ => none, fun _ => none⟩ none = .complete none s3 ∧
        s3.inst = (if 1 < [['a'], ['b']].length then
            { host := [['a'], ['b']].getD 0 [], port := [['a'], ['b']].getD 1 [],
              name := "mymaster".toList }
          else { host := ['h'], port := ['p'], name := "mymaster".toList }) :=
  have hw : sentinel_op2.resume { inst := ⟨['h'], ['p'], ['n']⟩, cfg := {} }
      ⟨fun _ => none, fun _ => none⟩ none =
      .async_write
        { inst := ⟨['h'], ['p'], "mymaster".toList⟩, cfg := {}, opstate := .on_write,
          cmd := segment ["SENTINEL".toList, "get-master-addr-by-name".toList, ['n']] } := rfl
  ⟨rfl, hw, (sentinel_result_publication _ _ _ none rfl hw ⟨[['a'], ['b']]⟩ [] none).2⟩

/-- C27 fails as stated: with two candidates of which the first does not
resolve while the second resolves and connects, the `on_connect` case
completes with the resolve error of the first candidate and never tries the
second. -/
theorem resolve_error_stops_fallback :
    (fun i => if i = 0 then some (error_code.other 1) else none : Nat → Option error_code) 1 =
        none ∧
      sentinel_op2.resume
          { inst := ⟨[], [], []⟩,
            cfg := { sentinels := [['a'], ['1'], ['b'], ['2']] } }
          ⟨fun i => if i = 0 then some (error_code.other 1) else none, fun _ => none⟩ none =
        .complete (some (.other 1))
          { inst := ⟨[], [], []⟩,
            cfg := { sentinels := [['a'], ['1'], ['b'], ['2']] } } :=
  ⟨rfl, rfl⟩

/-- C27 (as amended): the `on_connect` case tries the `n` candidates in list
order and stops at the first candidate whose resolve fails or whose connect
succeeds. If that candidate connects, the loop ends connected to it and the
write is issued; if its resolve fails, the operation completes at once with
the resolve error; if every candidate resolves and fails to connect, the
operation completes with the connect error of the last candidate. -/
theorem connect_fallback (s : sentinel_op2.impl) (net : network) (ec : Option error_code)
    (n : Nat) (hstate : s.opstate = .on_connect) (hsize : s.cfg.sentinels.length = 2 * n) :
    (∀ i, i < n → (∀ j, j < i → net.resolve j = none ∧ net.connect j ≠ none) →
        net.resolve i = none → net.connect i = none →
        sentinel_op2.connect_loop s.cfg.sentinels.length net n 0 = .connected i ∧
          ∃ s1, sentinel_op2.resume s net ec = .async_write s1) ∧
      (∀ i e, i < n → (∀ j, j < i → net.resolve j = none ∧ net.connect j ≠ none) →
        net.resolve i = some e → sentinel_op2.resume s net ec = .complete (some e) s) ∧
      (∀ e, 0 < n → (∀ j, j < n → net.resolve j = none ∧ net.connect j ≠ none) →
        net.connect (n - 1) = some e →
        sentinel_op2.resume s net ec = .complete (some e) s) := by
  have hdiv : s.cfg.sentinels.length / 2 = n := by omega
  refine ⟨?_, ?_, ?_⟩
  · intro i hi hprev hres hcon
    have hloop := connect_loop_connected s.cfg.sentinels.length net i n 0 (by omega)
      (Nat.zero_le _) (by omega) (fun j _ hj => hprev j hj) hres hcon
    refine ⟨hloop, ?_⟩
    unfold sentinel_op2.resume
    simp only [hstate, hdiv, hloop]
    exact ⟨_, rfl⟩
  · intro i e hi hprev hres
    have hloop := connect_loop_resolve_error s.cfg.sentinels.length net i e n 0 (by omega)
      (Nat.zero_le _) (by omega) (fun j _ hj => hprev j hj) hres
    unfold sentinel_op2.resume
    simp only [hstate, hdiv, hloop]
  · intro e hn hall hlast
    have hloop := connect_loop_all_fail s.cfg.sentinels.length net e n 0 (by omega) hn
      (fun j _ hj => hall j (by omega)) (by simpa using hlast)
    unfold sentinel_op2.resume
    simp only [hstate, hdiv, hloop]

theorem connect_fallback_witness :
    (({ inst := ⟨[], [], []⟩, cfg := { sentinels := [['a'], ['1'], ['b'], ['2']] } } :
        sentinel_op2.impl).opstate = .on_connect) ∧
      ([['a'], ['1'], ['b'], ['2']] : List Bytes).length = 2 * 2 ∧
      sentinel_op2.resume
          { inst := ⟨[], [], []⟩, cfg := { sentinels := [['a'], ['1'], ['b'], ['2']] } }
          ⟨fun _ => none, fun i => if i = 0 then some .eof else some .operation_aborted⟩ none =
        .complete (some .operation_aborted)
          { inst := ⟨[], [], []⟩, cfg := { sentinels := [['a'], ['1'], ['b'], ['2']] } } :=
  ⟨rfl, rfl, (connect_fallback
      { inst := ⟨[], [], []⟩, cfg := { sentinels := [['a'], ['1'], ['b'], ['2']] } }
      ⟨fun _ => none, fun i => if i = 0 then some .eof else some .operation_aborted⟩ none 2
      rfl rfl).2.2 .operation_aborted (by decide)
      (fun j _ => ⟨rfl, by by_cases h : j = 0 <;> simp [h]⟩) rfl⟩

/-! ## Single commands of the builder -/

/-- C28 (the code at `hkeys`): for every key, `pipeline::hkeys(key)` appends a
three-item array: `*3\r\n$5\r\nHKEYS\r\n`, the bulk encoding of the key, and a
trailing empty bulk item `$0\r\n\r\n`. -/
theorem hkeys_trailing_bulk (P key : Bytes) :
    (pipeline.hkeys ⟨P⟩ key).payload =
      P ++ "*3\r\n$5\r\nHKEYS\r\n".toList ++ bulk_item key ++ "$0\r\n\r\n".toList := by
  simp only [pipeline.hkeys]
  rw [assemble_strs_segment _ _ _ _ (by simp)]
  have h1 : segment ["HKEYS".toList, key, []] =
      "*3\r\n$5\r\nHKEYS\r\n".toList ++ bulk_item key ++ "$0\r\n\r\n".toList := by
    have h2 : array_header (3 : Nat) ++ bulk_item "HKEYS".toList =
        "*3\r\n$5\r\nHKEYS\r\n".toList := rfl
    have h3 : bulk_item [] = "$0\r\n\r\n".toList := rfl
    rw [← h2, ← h3]
    simp [segment, bulk_items]
  have h4 : (["HKEYS".toList, key] ++ [[]] : List Bytes) = ["HKEYS".toList, key, []] := rfl
  rw [h4, h1]
  simp only [List.append_assoc]

/-- C29: for every key and integers `min` and `max`,
`pipeline::zrangebyscore(key, min, max)` appends one array of exactly 4 bulk
items: the command name (`zrangebyscore`), the key, the decimal text of `min`,
and as last item the text `inf` when `max = -1` and the decimal text of `max`
for every other value. -/
theorem zrangebyscore_upper_bound (P key : Bytes) (min max : Int) :
    (pipeline.zrangebyscore ⟨P⟩ key min max).payload =
      P ++ array_header 4 ++
        bulk_items ["zrangebyscore".toList, key, (toString min).toList,
          if max = -1 then "inf".toList else (toString max).toList] := by
  simp only [pipeline.zrangebyscore]
  rw [assemble_strs_segment _ _ _ _ (by simp)]
  by_cases h : max = -1
  · simp [h, segment, to_string_eq]
  · simp [h, segment, to_string_eq]

/-! ## The slot `sizes[0]` -/

theorem collapse_slot (d : Nat) : ∀ sz : List Int, sz.length = 6 → d ≤ 5 →
    (d = 0 → sz.getD 0 0 = 1 ∨ sz.getD 0 0 = 2) → (d ≠ 0 → sz.getD 0 0 = 2) →
    (∃ d1 sz1, collapse d sz = .stopped d1 sz1 ∧ d1 ≤ 5 ∧ sz1.length = 6 ∧
      sz1.getD d1 0 ≠ 0 ∧ (d1 = 0 → sz1.getD 0 0 = 1 ∨ sz1.getD 0 0 = 2) ∧
      (d1 ≠ 0 → sz1.getD 0 0 = 2)) ∨
      (collapse d sz = .signed_overflow ∧ ∃ i, i < d ∧ sz.getD i 0 = INT_MIN) := by
  induction d with
  | zero =>
    intro sz hlen _ h0 _
    have hne : sz.getD 0 0 ≠ 0 := by
      rcases h0 rfl with h | h <;> rw [h] <;> decide
    exact Or.inl ⟨0, sz, collapse_stay 0 sz hne, by omega, hlen, hne, fun _ => h0 rfl,
      fun h => absurd rfl h⟩
  | succ d ih =>
    intro sz hlen hd _ h1
    have h2 := h1 (Nat.succ_ne_zero d)
    by_cases hz : sz.getD (d + 1) 0 = 0
    · by_cases hm : sz.getD d 0 = INT_MIN
      · right
        refine ⟨?_, d, Nat.lt_succ_self d, hm⟩
        rw [collapse, if_pos hz, if_pos hm]
      · have hlen1 : (dec_size sz d).length = 6 := by rw [dec_size_length, hlen]
        have hd0 : (dec_size sz d).getD 0 0 = if 0 = d then sz.getD d 0 - 1 else sz.getD 0 0 :=
          dec_size_getD sz d 0 (by omega)
        rcases ih (dec_size sz d) hlen1 (by omega)
          (by
            intro hd'
            subst hd'
            left
            rw [hd0, if_pos rfl, h2]
            rfl)
          (by
            intro hd'
            rw [hd0, if_neg (fun h => hd' h.symm), h2]) with ⟨d1, sz1, hc, hrest⟩ | ⟨hc, i, hi, hmi⟩
        · left
          refine ⟨d1, sz1, ?_, hrest⟩
          rw [collapse_pop d sz hz hm, hc]
        · right
          refine ⟨by rw [collapse_pop d sz hz hm, hc], i, by omega, ?_⟩
          rw [dec_size_getD sz d i (by omega), if_neg (by omega)] at hmi
          exact hmi
    · exact Or.inl ⟨d + 1, sz, collapse_stay _ _ hz, hd, hlen, hz,
        fun h => absurd h (Nat.succ_ne_zero d), fun _ => h2⟩

theorem dec_size_slot (op : parse_op) (hinv : slot_inv op) :
    (dec_size op.sizes op.depth).length = 6 ∧
      (op.depth = 0 → (dec_size op.sizes op.depth).getD 0 0 = 1 ∨
        (dec_size op.sizes op.depth).getD 0 0 = 2) ∧
      (op.depth ≠ 0 → (dec_size op.sizes op.depth).getD 0 0 = 2) ∧
      (∀ i, i < op.depth → (dec_size op.sizes op.depth).getD i 0 = op.sizes.getD i 0) := by
  obtain ⟨_, hd, hlen, h0, _⟩ := hinv
  have hg := dec_size_getD op.sizes op.depth 0 (by omega)
  refine ⟨by rw [dec_size_length, hlen], ?_, ?_, ?_⟩
  · intro hz
    left
    rw [hg, if_pos hz.symm, hz, h0]
    rfl
  · intro hz
    rw [hg, if_neg (fun h => hz h.symm), h0]
  · intro i hi
    rw [dec_size_getD op.sizes op.depth i (by omega), if_neg (by omega)]

theorem line_slot_holds (op : parse_op) (n : Nat) (b : Bool) (hinv : slot_inv op) (hn : 3 ≤ n)
    (hbuf : n ≤ op.buf.length) : line_slot op (op.line n b) := by
  have hdec := dec_size_slot op hinv
  obtain ⟨hs, hd, hlen, h0, hsz⟩ := hinv
  have hdecok : ∀ r : response, line_slot op
      (if op.sizes.getD op.depth 0 = INT_MIN then .signed_overflow
        else .ok { op with res := r, sizes := dec_size op.sizes op.depth } false) := by
    intro r
    by_cases hm : op.sizes.getD op.depth 0 = INT_MIN
    · rw [if_pos hm]
      exact hm
    · rw [if_neg hm]
      exact ⟨hs, hd, hdec.1, hdec.2.1, hdec.2.2.1, (fun h => by cases h), Nat.le_succ _,
        hdec.2.2.2⟩
  have hsame : ∀ flag : Bool, line_slot op (.ok op flag) := fun flag =>
    ⟨hs, hd, hlen, fun _ => Or.inr h0, fun _ => h0, fun _ => ⟨hsz, h0⟩, Nat.le_succ _,
      fun _ _ => rfl⟩
  unfold parse_op.line
  by_cases hb : op.bulky = true
  · rw [if_pos hb]
    exact hdecok _
  · rw [if_neg hb, if_pos hsz]
    have hex : ∃ c t, op.buf = c :: t := by
      cases hbf : op.buf with
      | nil =>
        rw [hbf] at hbuf
        simp only [List.length_nil] at hbuf
        omega
      | cons c t => exact ⟨c, t, rfl⟩
    obtain ⟨c, t, hbf⟩ := hex
    have hh : op.buf.head? = some c := by rw [hbf]; rfl
    simp only [hh]
    by_cases h1 : c = '$'
    · rw [if_pos h1]
      by_cases h2 : (List.drop 1 op.buf).take 2 = ['-', '1']
      · rw [if_pos h2]
        exact hdecok _
      · rw [if_neg h2]
        exact hsame true
    · rw [if_neg h1]
      by_cases h3 : c = '+' ∨ c = '-' ∨ c = ':'
      · rw [if_pos h3]
        exact hdecok _
      · rw [if_neg h3]
        by_cases h4 : c = '*'
        · rw [if_pos h4]
          by_cases h5 : op.depth + 1 < 6
          · rw [if_pos h5]
            refine ⟨hs, by simp only; omega, by simp only [List.length_set]; exact hlen,
              fun h => absurd h (Nat.succ_ne_zero _), fun _ => ?_, (fun h => by cases h),
              Nat.le_refl _, fun i hi => ?_⟩
            · simp only
              rw [getD_set_ne _ _ _ _ (Nat.succ_ne_zero _), h0]
            · simp only at hi ⊢
              rw [getD_set_ne _ _ _ _ (by omega)]
          · rw [if_neg h5]
            refine ⟨by omega, by simpa using hb, ?_⟩
            rw [hh, h4]
        · rw [if_neg h4]
          cases b with
          | true =>
            rw [if_pos rfl]
            exact hsame false
          | false =>
            rw [if_neg (by decide)]
            trivial

theorem resume_slot_holds (op : parse_op) (ec : Option error_code) (n : Nat) (b : Bool)
    (hinv : slot_inv op) (hbuf : n ≤ op.buf.length) : resume_slot op (op.resume ec n b) := by
  have hs : op.start = 0 := hinv.1
  unfold parse_op.resume
  rw [if_neg (by rw [hs]; decide)]
  by_cases hcond : ec.isSome = true ∨ n < 3
  · rw [if_pos hcond]
    exact ⟨hinv.2.1, by rw [hinv.2.2.2.1]; decide⟩
  · rw [if_neg hcond]
    have hline := line_slot_holds op n b hinv (by omega) hbuf
    cases hl : op.line n b with
    | assert_failed => trivial
    | undefined =>
      rw [hl] at hline
      exact hline
    | signed_overflow =>
      rw [hl] at hline
      exact ⟨op.depth, Nat.le_refl _, hline⟩
    | ok op1 flag =>
      rw [hl] at hline
      obtain ⟨h1, h2, h3, h4, h5, h6, h7, h8⟩ := hline
      simp only
      by_cases hf : flag = true
      · obtain ⟨h9, h10⟩ := h6 hf
        rw [collapse_stay _ _ h9]
        simp only [hf, Bool.true_eq_false, and_false, if_false]
        exact ⟨rfl, h2, h3, h10, h9⟩
      · have hff : flag = false := by simpa using hf
        rcases collapse_slot op1.depth op1.sizes h3 h2 h4 h5 with
          ⟨d1, sz1, hc, k1, k2, k3, k4, k5⟩ | ⟨hc, i, hi, hmi⟩
        · rw [hc]
          simp only [hff, and_true]
          by_cases hd : d1 = 0
          · rw [if_pos hd]
            refine ⟨by simp only; omega, ?_⟩
            simp only
            rcases k4 hd with h | h <;> omega
          · rw [if_neg hd]
            exact ⟨rfl, k1, k2, k5 hd, k3⟩
        · rw [hc]
          refine ⟨i, by omega, ?_⟩
          rw [← h8 i hi]
          exact hmi

/-- C30 fails as stated: on the input `*2147483648\r\n+a\r\n` (nesting 1) the
array header stores `INT_MIN` as the frame count, and the resumption on the
line `+a` decrements it: a signed overflow, after which nothing is guaranteed
of `depth` and `sizes`. The state before that resumption satisfies
`slot_inv`. -/
theorem int_min_count_overflows :
    async_read 2 "*2147483648\r\n+a\r\n".toList ⟨[]⟩ = .signed_overflow ∧
      async_read 2 "*2147483648\r\n+a\r\n".toList ⟨[]⟩ true = .signed_overflow ∧
      async_read 1 "*2147483648\r\n+a\r\n".toList ⟨[]⟩ =
        .suspended { buf := "+a\r\n".toList, res := ⟨[]⟩, start := 0, depth := 1,
                     sizes := [2, INT_MIN, 1, 1, 1, 1], bulky := false } ∧
      slot_inv { buf := "+a\r\n".toList, res := ⟨[]⟩, start := 0, depth := 1,
                 sizes := [2, INT_MIN, 1, 1, 1, 1], bulky := false } := by
  refine ⟨rfl, rfl, rfl, rfl, by decide, rfl, rfl, by decide⟩

/-- C30 (as amended): the state in which a parse issues its first read
satisfies `slot_inv`, and from every state that satisfies it, in a build with
or without `NDEBUG`, for every outcome of the read and every content of the
buffer (with the byte count within the buffer), the resumption keeps it: the
next suspended state has `depth <= 5`, `sizes[0] = 2` and an open current
frame; a completion has `depth <= 5` and `sizes[0] >= 1`; the collapse loop
never leaves `sizes` below index 0; the only access outside `sizes` is the
push of an array header at depth 5; and a decrement overflows only when a
frame count at or below the current depth holds `INT_MIN`, so that there is
no overflow when no such count does. -/
theorem sentinel_slot_safety (op : parse_op) (ec : Option error_code) (n : Nat)
    (NDEBUG : Bool) (hinv : slot_inv op) (hbuf : n ≤ op.buf.length) :
    (∀ (buffer : Bytes) (res : response), slot_inv { buf := buffer, res := res, start := 0 }) ∧
      resume_slot op (op.resume ec n NDEBUG) ∧
      ((∀ i, i ≤ op.depth → op.sizes.getD i 0 ≠ INT_MIN) →
        op.resume ec n NDEBUG ≠ .signed_overflow) := by
  have h := resume_slot_holds op ec n NDEBUG hinv hbuf
  refine ⟨fun buffer res => ⟨rfl, by simp, rfl, rfl, by simp⟩, h, ?_⟩
  intro hno he
  rw [he] at h
  obtain ⟨i, hi, hm⟩ := h
  exact hno i hi hm

theorem sentinel_slot_safety_witness :
    slot_inv { buf := ['*', '1', '\r', '\n', '+', 'x', '\r', '\n'], res := ⟨[]⟩, start := 0 } ∧
      (4 : Nat) ≤ (['*', '1', '\r', '\n', '+', 'x', '\r', '\n'] : Bytes).length ∧
      resume_slot { buf := ['*', '1', '\r', '\n', '+', 'x', '\r', '\n'], res := ⟨[]⟩, start := 0 }
        (({ buf := ['*', '1', '\r', '\n', '+', 'x', '\r', '\n'], res := ⟨[]⟩, start := 0 } :
          parse_op).resume none 4 true) ∧
      ({ buf := ['*', '1', '\r', '\n', '+', 'x', '\r', '\n'], res := ⟨[]⟩, start := 0 } :
          parse_op).resume none 4 true ≠ .signed_overflow :=
  have h : slot_inv { buf := ['*', '1', '\r', '\n', '+', 'x', '\r', '\n'], res := ⟨[]⟩,
                      start := 0 } := ⟨rfl, by decide, rfl, rfl, by decide⟩
  ⟨h, by decide, (sentinel_slot_safety _ none 4 true h (by decide)).2.1,
    (sentinel_slot_safety _ none 4 true h (by decide)).2.2 (by
      intro i hi
      have hi0 : i = 0 := by simpa using hi
      subst hi0
      decide)⟩

/-! ## Count round trip and injectivity of the request encoding -/

theorem make_header_tail (to_ : Bytes) (n : Int) :
    (make_header to_ n).drop (to_.length + 1) = to_string n ++ ['\r', '\n'] := by
  have h : make_header to_ n = to_ ++ ('*' :: (to_string n ++ ['\r', '\n'])) := by
    simp [make_header]
  rw [h, List.drop_append_eq_append_drop]
  simp

theorem to_string_nonneg (n : Int) (h0 : 0 ≤ n) : to_string n = Nat.toDigits 10 n.toNat := by
  unfold to_string
  rw [if_neg (by omega)]

/-- C31: for every integer `n` with `0 <= n < 2^31` and every string `to`, the
bytes `make_header(to, n)` writes after the `*` are the decimal text of `n`
followed by `\r\n`, and `get_length` applied to them (whatever bytes follow)
returns `n`; stored in an `int` slot of `sizes` the value is still `n`. -/
theorem header_count_round_trip (to_ rest : Bytes) (n : Int) (h0 : 0 ≤ n) (h1 : n < 2 ^ 31) :
    (make_header to_ n).drop (to_.length + 1) = to_string n ++ ['\r', '\n'] ∧
      (get_length ((make_header to_ n).drop (to_.length + 1) ++ rest) : Int) = n ∧
      size_to_int (get_length ((make_header to_ n).drop (to_.length + 1) ++ rest)) = n := by
  have hk : n.toNat < 2 ^ 31 := by omega
  have hcast : (n.toNat : Int) = n := Int.toNat_of_nonneg h0
  have hg : get_length ((make_header to_ n).drop (to_.length + 1) ++ rest) = n.toNat := by
    rw [make_header_tail, to_string_nonneg n h0]
    have hl : Nat.toDigits 10 n.toNat ++ ['\r', '\n'] ++ rest =
        Nat.toDigits 10 n.toNat ++ '\r' :: ('\n' :: rest) := by simp
    rw [hl]
    exact get_length_digits n.toNat _ (by omega)
  refine ⟨make_header_tail to_ n, ?_, ?_⟩
  · rw [hg, hcast]
  · rw [hg, size_to_int_small _ hk, hcast]

theorem header_count_round_trip_witness :
    (0 : Int) ≤ 12 ∧ (12 : Int) < 2 ^ 31 ∧
      (make_header ['x'] 12).drop (['x'].length + 1) = to_string 12 ++ ['\r', '\n'] ∧
      (get_length ((make_header ['x'] 12).drop (['x'].length + 1) ++ ['$']) : Int) = 12 ∧
      size_to_int (get_length ((make_header ['x'] 12).drop (['x'].length + 1) ++ ['$'])) = 12 :=
  ⟨by decide, by decide, header_count_round_trip ['x'] ['$'] 12 (by decide) (by decide)⟩

theorem to_string_no_cr (i : Int) : ∀ c ∈ to_string i, c ≠ '\r' := by
  intro c hc
  unfold to_string at hc
  split_ifs at hc
  · rcases List.mem_cons.1 hc with h | h
    · rw [h]
      decide
    · exact digit_ne_cr c ((toDigits_spec _).2.1 c h)
  · exact digit_ne_cr c ((toDigits_spec _).2.1 c hc)

theorem array_header_cancel (a b : Int) (x y : Bytes)
    (h : array_header a ++ x = array_header b ++ y) : x = y := by
  simp only [array_header, ← to_string_eq, List.cons_append, List.append_assoc,
    List.cons.injEq, true_and] at h
  have h2 := (split_at_cr _ _ _ _ (to_string_no_cr a) (to_string_no_cr b) h).2
  simpa using h2

theorem bulk_items_cons (x : Bytes) (xs : List Bytes) :
    bulk_items (x :: xs) = bulk_item x ++ bulk_items xs := by
  simp [bulk_items]

theorem bulk_items_inj : ∀ xs ys : List Bytes, bulk_items xs = bulk_items ys → xs = ys := by
  intro xs
  induction xs with
  | nil =>
    intro ys h
    cases ys with
    | nil => rfl
    | cons y t =>
      rw [bulk_items_cons] at h
      simp [bulk_items, bulk_item] at h
  | cons x t ih =>
    intro ys h
    cases ys with
    | nil =>
      rw [bulk_items_cons] at h
      simp [bulk_items, bulk_item] at h
    | cons y t2 =>
      rw [bulk_items_cons, bulk_items_cons] at h
      obtain ⟨hxy, hrest⟩ := bulk_item_inj _ _ _ _ h
      rw [hxy, ih t2 hrest]

/-- C33: for every string `ret` appended to, every command name `cmd` and every
two lists of string arguments `xs` and `ys`, if the generic `assemble` (no
fixed arguments, arity 1) gives the same bytes for `xs` as for `ys`, then
`xs = ys`; the arguments are arbitrary byte strings. -/
theorem request_encoding_injective (ret cmd : Bytes) (xs ys : List Bytes)
    (h : assemble ret cmd [] (strs xs) 1 = assemble ret cmd [] (strs ys) 1) : xs = ys := by
  rw [assemble_eq, assemble_eq, items_strs, items_strs] at h
  have h1 := List.append_cancel_left h
  have h2 := array_header_cancel _ _ _ _ h1
  have h3 := bulk_items_inj _ _ h2
  simpa using h3

theorem request_encoding_injective_witness :
    assemble [] "SET".toList [] (strs [['a', '\r', '\n', '$'], ['1']]) 1 =
        assemble [] "SET".toList [] (strs [['a', '\r', '\n', '$'], ['1']]) 1 ∧
      ([['a', '\r', '\n', '$'], ['1']] : List Bytes) = [['a', '\r', '\n', '$'], ['1']] :=
  ⟨rfl, request_encoding_injective [] "SET".toList _ _ rfl⟩

/-! ## Failure condition of the integer sink -/

theorem takeWhile_digits_append (ds rest : Bytes) (hdig : ∀ c ∈ ds, is_digit c = true)
    (hrest : ∀ c, rest.head? = some c → is_digit c = false) :
    (ds ++ rest).takeWhile is_digit = ds := by
  induction ds with
  | nil =>
    cases rest with
    | nil => rfl
    | cons c t =>
      have h := hrest c rfl
      simp [List.takeWhile, h]
  | cons d t ih =>
    have hd := hdig d (by simp)
    rw [List.cons_append, List.takeWhile_cons, hd, if_pos rfl,
      ih (fun c hc => hdig c (by simp [hc]))]

theorem from_chars_invalid_iff (T : int_type) (s : Bytes) (value : Int) :
    (from_chars T s value).1.ec = .invalid_argument ↔
      ¬ ∃ d rest, is_digit d = true ∧
        (s = d :: rest ∨ (T.signed = true ∧ s = '-' :: d :: rest)) := by
  have hminus : is_digit '-' = false := by decide
  have key : ∀ (body : Bytes) (neg : Bool),
      ((if body.takeWhile is_digit = [] then
          ((⟨0, .invalid_argument⟩ : from_chars_result), value)
        else
          if T.min ≤ (if neg then -(digits_value (body.takeWhile is_digit) : Int)
                else (digits_value (body.takeWhile is_digit) : Int)) ∧
              (if neg then -(digits_value (body.takeWhile is_digit) : Int)
                else (digits_value (body.takeWhile is_digit) : Int)) ≤ T.max then
            (⟨(if neg then 1 else 0) + (body.takeWhile is_digit).length, .ok⟩,
              (if neg then -(digits_value (body.takeWhile is_digit) : Int)
                else (digits_value (body.takeWhile is_digit) : Int)))
          else
            (⟨(if neg then 1 else 0) + (body.takeWhile is_digit).length,
              .result_out_of_range⟩, value)).1.ec = .invalid_argument) ↔
        body.takeWhile is_digit = [] := by
    intro body neg
    by_cases h : body.takeWhile is_digit = []
    · simp [h]
    · rw [if_neg h]
      constructor
      · intro he
        split_ifs at he
      · intro he
        exact absurd he h
  have htw : ∀ body : Bytes, body.takeWhile is_digit = [] ↔
      ¬ ∃ d rest, is_digit d = true ∧ body = d :: rest := by
    intro body
    cases body with
    | nil => simp
    | cons c t =>
      by_cases hc : is_digit c = true
      · simp [List.takeWhile_cons, hc]
      · simp [List.takeWhile_cons, hc]
  unfold from_chars
  simp only
  rw [key, htw]
  by_cases hneg : (T.signed && decide (s.head? = some '-')) = true
  · rw [if_pos hneg]
    simp only [Bool.and_eq_true, decide_eq_true_eq] at hneg
    obtain ⟨hs, hh⟩ := hneg
    cases s with
    | nil => cases hh
    | cons c t =>
      simp only [List.head?_cons, Option.some.injEq] at hh
      subst hh
      simp only [List.drop_succ_cons, List.drop_zero, List.cons.injEq, true_and, hs]
      constructor
      · rintro h ⟨d, rest, hd, hor⟩
        rcases hor with ⟨h1, _⟩ | h2
        · rw [← h1, hminus] at hd
          cases hd
        · exact h ⟨d, rest, hd, h2⟩
      · rintro h ⟨d, rest, hd, ht⟩
        exact h ⟨d, rest, hd, Or.inr ht⟩
  · rw [if_neg hneg]
    constructor
    · rintro h ⟨d, rest, hd, hor⟩
      rcases hor with h1 | ⟨hs, h2⟩
      · exact h ⟨d, rest, hd, h1⟩
      · apply hneg
        simp [hs, h2]
    · rintro h ⟨d, rest, hd, ht⟩
      exact h ⟨d, rest, hd, Or.inl ht⟩

theorem from_chars_prefix (T : int_type) (neg : Bool) (ds rest : Bytes) (value : Int)
    (hds : ds ≠ []) (hdig : ∀ c ∈ ds, is_digit c = true)
    (hrest : ∀ c, rest.head? = some c → is_digit c = false)
    (hneg : neg = true → T.signed = true) :
    (from_chars T ((if neg then ['-'] else []) ++ ds ++ rest) value).1.ec ≠ .invalid_argument ∧
      (from_chars T ((if neg then ['-'] else []) ++ ds ++ rest) value).2 =
        if T.min ≤ (if neg then -(digits_value ds : Int) else (digits_value ds : Int)) ∧
            (if neg then -(digits_value ds : Int) else (digits_value ds : Int)) ≤ T.max then
          (if neg then -(digits_value ds : Int) else (digits_value ds : Int))
        else value := by
  have htw := takeWhile_digits_append ds rest hdig hrest
  have hminus : is_digit '-' = false := by decide
  cases neg with
  | true =>
    have hs := hneg rfl
    unfold from_chars
    simp only [if_true, List.cons_append, List.nil_append, List.head?_cons, hs, decide_True,
      Bool.and_self, List.drop_succ_cons, List.drop_zero, htw, hds, if_false]
    split <;> simp
  | false =>
    have hhead : (T.signed && decide ((ds ++ rest).head? = some '-')) = false := by
      cases ds with
      | nil => exact absurd rfl hds
      | cons d t =>
        have hd := hdig d (by simp)
        have hne : d ≠ '-' := by
          rintro rfl
          rw [hminus] at hd
          cases hd
        simp [hne]
    unfold from_chars
    simp only [Bool.false_eq_true, if_false, List.nil_append, hhead, htw, hds]
    split <;> simp

/-- C32 fails as stated for an unsigned `T`: the body `-5` has a prefix made of
`-` and a digit, and `response_number<unsigned>::on_number` raises on it. -/
theorem unsigned_sink_rejects_minus :
    response_number.on_number ⟨false, 32⟩ { result := 7 } ['-', '5'] =
        .error (.runtime_error "from_chars: Unable to convert") ∧
      ∃ d rest, is_digit d = true ∧ (['-', '5'] : Bytes) = '-' :: d :: rest :=
  ⟨rfl, '5', [], rfl, rfl⟩

/-- C32 (as amended): `response_number<T>::on_number(s)` raises if and only if
`s` has no prefix made of at least one decimal digit, preceded by an optional
`-` when `T` is signed (for an unsigned `T` a leading `-` is no match). A body
made of such a prefix `ds` (with `-` in front only for a signed `T`) followed
by bytes that do not start with a digit is accepted: result becomes the value
of the prefix when that value is representable in `T`, and is left unchanged
when the value is out of range for `T`. -/
theorem integer_sink_failure (T : int_type) (r : response_number) :
    (∀ s : Bytes, (∃ e, response_number.on_number T r s = .error e) ↔
        ¬ ∃ d rest, is_digit d = true ∧
          (s = d :: rest ∨ (T.signed = true ∧ s = '-' :: d :: rest))) ∧
      (∀ (neg : Bool) (ds rest : Bytes), ds ≠ [] → (∀ c ∈ ds, is_digit c = true) →
        (∀ c, rest.head? = some c → is_digit c = false) → (neg = true → T.signed = true) →
        response_number.on_number T r ((if neg then ['-'] else []) ++ ds ++ rest) =
          .ok { r with result :=
            if T.min ≤ (if neg then -(digits_value ds : Int) else (digits_value ds : Int)) ∧
                (if neg then -(digits_value ds : Int) else (digits_value ds : Int)) ≤ T.max then
              (if neg then -(digits_value ds : Int) else (digits_value ds : Int))
            else r.result }) := by
  constructor
  · intro s
    rw [← from_chars_invalid_iff T s r.result]
    unfold response_number.on_number from_string_view_int
    by_cases h : (from_chars T s r.result).1.ec = .invalid_argument
    · simp [h]
    · simp [h]
  · intro neg ds rest hds hdig hrest hneg
    obtain ⟨h1, h2⟩ := from_chars_prefix T neg ds rest r.result hds hdig hrest hneg
    unfold response_number.on_number from_string_view_int
    simp only [h1, if_false, h2]

theorem integer_sink_failure_witness :
    (['1', '2'] : Bytes) ≠ [] ∧ (∀ c ∈ (['1', '2'] : Bytes), is_digit c = true) ∧
      (∀ c, (['a', 'b', 'c'] : Bytes).head? = some c → is_digit c = false) ∧
      response_number.on_number ⟨true, 32⟩ { result := 7 } ['1', '2', 'a', 'b', 'c'] =
        .ok { result := 12 } ∧
      response_number.on_number ⟨true, 8⟩ { result := 7 } ['-', '3', '0', '0'] =
        .ok { result := 7 } :=
  ⟨by decide, by decide, by decide,
    (integer_sink_failure ⟨true, 32⟩ { result := 7 }).2 false ['1', '2'] ['a', 'b', 'c']
      (by decide) (by decide) (by decide) (by decide),
    (integer_sink_failure ⟨true, 8⟩ { result := 7 }).2 true ['3', '0', '0'] []
      (by decide) (by decide) (by decide) (by decide)⟩

/-! ## Termination of the parse loop -/

theorem find_crlf_bound : ∀ (l : Bytes) (i : Nat), find_crlf l = some i → i + 2 ≤ l.length := by
  intro l
  induction l with
  | nil => intro i h; simp [find_crlf] at h
  | cons c t ih =>
    intro i h
    rw [find_crlf] at h
    by_cases hc : c = '\r' ∧ t.head? = some '\n'
    · rw [if_pos hc] at h
      cases t with
      | nil => simp at hc
      | cons b u =>
        simp only [Option.some.injEq] at h
        simp only [List.length_cons]
        omega
    · rw [if_neg hc] at h
      cases hf : find_crlf t with
      | none => simp [hf] at h
      | some j =>
        simp only [hf, Option.map_some', Option.some.injEq] at h
        have := ih j hf
        simp only [List.length_cons]
        omega

theorem async_read_until_bound (buf : Bytes) : (async_read_until buf).2 ≤ buf.length := by
  unfold async_read_until
  cases hf : find_crlf buf with
  | none => simp
  | some i => exact find_crlf_bound buf i hf

theorem line_buf (op op1 : parse_op) (n : Nat) (b flag : Bool)
    (h : op.line n b = .ok op1 flag) : op1.buf = op.buf := by
  unfold parse_op.line at h
  by_cases hb : op.bulky = true
  · rw [if_pos hb] at h
    split_ifs at h
    cases h
    rfl
  · rw [if_neg hb] at h
    by_cases hsz : op.sizes.getD op.depth 0 ≠ 0
    · rw [if_pos hsz] at h
      cases hh : op.buf.head? with
      | none =>
        simp only [hh] at h
        cases h
      | some c =>
        simp only [hh] at h
        split_ifs at h <;> (cases h; rfl)
    · rw [if_neg hsz] at h
      cases h
      rfl

theorem line_assert (op : parse_op) (n : Nat) (b : Bool) (h : op.line n b = .assert_failed) :
    b = false ∧ op.bulky = false ∧ ∃ c, op.buf.head? = some c ∧
      c ≠ '$' ∧ c ≠ '+' ∧ c ≠ '-' ∧ c ≠ ':' ∧ c ≠ '*' := by
  unfold parse_op.line at h
  by_cases hb : op.bulky = true
  · rw [if_pos hb] at h
    split_ifs at h
  · rw [if_neg hb] at h
    by_cases hsz : op.sizes.getD op.depth 0 ≠ 0
    · rw [if_pos hsz] at h
      cases hh : op.buf.head? with
      | none =>
        simp only [hh] at h
        cases h
      | some c =>
        simp only [hh] at h
        by_cases h1 : c = '$'
        · rw [if_pos h1] at h
          split_ifs at h
        · rw [if_neg h1] at h
          by_cases h3 : c = '+' ∨ c = '-' ∨ c = ':'
          · rw [if_pos h3] at h
            split_ifs at h
          · rw [if_neg h3] at h
            by_cases h4 : c = '*'
            · rw [if_pos h4] at h
              split_ifs at h
            · rw [if_neg h4] at h
              cases b with
              | true => simp at h
              | false =>
                exact ⟨rfl, by simpa using hb, c, rfl, h1, fun e => h3 (Or.inl e),
                  fun e => h3 (Or.inr (Or.inl e)), fun e => h3 (Or.inr (Or.inr e)), h4⟩
    · rw [if_neg hsz] at h
      cases h

theorem resume_progress (op op1 : parse_op) (ec : Option error_code) (n : Nat) (b : Bool)
    (hs : op.start = 0) (h : op.resume ec n b = .suspended op1) :
    ec = none ∧ 3 ≤ n ∧ op1.buf = op.buf.drop n := by
  unfold parse_op.resume at h
  rw [if_neg (by rw [hs]; decide)] at h
  by_cases hcond : ec.isSome = true ∨ n < 3
  · rw [if_pos hcond] at h
    cases h
  · rw [if_neg hcond] at h
    have hec : ec = none := by
      cases ec with
      | none => rfl
      | some e => exact absurd (Or.inl rfl) hcond
    refine ⟨hec, by omega, ?_⟩
    cases hl : op.line n b with
    | assert_failed => rw [hl] at h; cases h
    | undefined => rw [hl] at h; cases h
    | signed_overflow => rw [hl] at h; cases h
    | ok op2 flag =>
      have hb := line_buf op op2 n b flag hl
      rw [hl] at h
      simp only at h
      cases hc : collapse op2.depth op2.sizes with
      | below_sentinel => rw [hc] at h; cases h
      | signed_overflow => rw [hc] at h; cases h
      | stopped d sz =>
        rw [hc] at h
        simp only at h
        split_ifs at h
        cases h
        simp only [hb]

theorem resume_assert (op op1 : parse_op) (ec : Option error_code) (n : Nat) (b : Bool)
    (hs : op.start = 0) (h : op.resume ec n b = .assert_failed op1) :
    b = false ∧ op1 = op ∧ op.bulky = false ∧ ∃ c, op.buf.head? = some c ∧
      c ≠ '$' ∧ c ≠ '+' ∧ c ≠ '-' ∧ c ≠ ':' ∧ c ≠ '*' := by
  unfold parse_op.resume at h
  rw [if_neg (by rw [hs]; decide)] at h
  by_cases hcond : ec.isSome = true ∨ n < 3
  · rw [if_pos hcond] at h
    cases h
  · rw [if_neg hcond] at h
    cases hl : op.line n b with
    | assert_failed =>
      rw [hl] at h
      simp only [outcome.assert_failed.injEq] at h
      have ha := line_assert op n b hl
      exact ⟨ha.1, h.symm, ha.2⟩
    | undefined => rw [hl] at h; cases h
    | signed_overflow => rw [hl] at h; cases h
    | ok op2 flag =>
      rw [hl] at h
      simp only at h
      cases hc : collapse op2.depth op2.sizes with
      | below_sentinel => rw [hc] at h; cases h
      | signed_overflow => rw [hc] at h; cases h
      | stopped d sz =>
        rw [hc] at h
        simp only at h
        split_ifs at h

theorem dec_size_sum : ∀ (l : List Int) (d : Nat), d < l.length →
    (dec_size l d).sum = l.sum - 1 := by
  intro l
  induction l with
  | nil => intro d h; simp at h
  | cons a t ih =>
    intro d h
    cases d with
    | zero =>
      simp only [dec_size, List.getD_cons_zero, List.set_cons_zero, List.sum_cons]
      omega
    | succ d =>
      have ht : d < t.length := by simpa using h
      have := ih d ht
      simp only [dec_size, List.getD_cons_succ, List.set_cons_succ, List.sum_cons] at this ⊢
      omega

theorem collapse_count (d : Nat) : ∀ (sizes : List Int) (d1 : Nat) (sizes1 : List Int),
    d < sizes.length → collapse d sizes = .stopped d1 sizes1 →
    d1 ≤ d ∧ sizes1.length = sizes.length ∧ sizes1.sum + ((d - d1 : Nat) : Int) = sizes.sum := by
  induction d with
  | zero =>
    intro sizes d1 sizes1 _ h
    rw [collapse] at h
    split_ifs at h
    simp only [collapse_result.stopped.injEq] at h
    obtain ⟨rfl, rfl⟩ := h
    simp
  | succ d ih =>
    intro sizes d1 sizes1 hd h
    rw [collapse] at h
    split_ifs at h
    · have hlen := dec_size_length sizes d
      obtain ⟨h1, h2, h3⟩ := ih (dec_size sizes d) d1 sizes1 (by rw [hlen]; omega) h
      have hsum := dec_size_sum sizes d (by omega)
      refine ⟨by omega, by rw [h2, hlen], ?_⟩
      rw [hsum] at h3
      have hc : ((d + 1 - d1 : Nat) : Int) = ((d - d1 : Nat) : Int) + 1 := by omega
      rw [hc]
      omega
    · simp only [collapse_result.stopped.injEq] at h
      obtain ⟨rfl, rfl⟩ := h
      simp

theorem run_ends (b : Bool) (fuel : Nat) : ∀ op : parse_op, slot_inv op →
    op.buf.length < 3 * fuel →
    (∃ ec op1, run fuel op b = .complete ec op1) ∨
      (b = false ∧ ∃ op1, run fuel op b = .assert_failed op1 ∧ op1.bulky = false ∧
        ∃ c, op1.buf.head? = some c ∧ c ≠ '$' ∧ c ≠ '+' ∧ c ≠ '-' ∧ c ≠ ':' ∧ c ≠ '*') ∨
      (run fuel op b = .undefined ∧ ∃ k op1, run k op b = .suspended op1 ∧
        op1.depth = 5 ∧ op1.bulky = false ∧ op1.buf.head? = some '*') ∨
      (run fuel op b = .signed_overflow ∧ ∃ k op1, run k op b = .suspended op1 ∧
        ∃ i, i ≤ op1.depth ∧ op1.sizes.getD i 0 = INT_MIN) := by
  induction fuel with
  | zero => intro op _ h; omega
  | succ fuel ih =>
    intro op hinv hlen
    have hs : op.start = 0 := hinv.1
    have hb := async_read_until_bound op.buf
    have hslot := resume_slot_holds op (async_read_until op.buf).1 (async_read_until op.buf).2 b
      hinv hb
    cases hres : op.resume (async_read_until op.buf).1 (async_read_until op.buf).2 b with
    | complete ec op1 =>
      left
      refine ⟨ec, op1, ?_⟩
      rw [run_succ_build]
      simp only [hres]
    | suspended op1 =>
      rw [hres] at hslot
      obtain ⟨_, hn, hbuf⟩ := resume_progress op op1 _ _ b hs hres
      have hl1 : op1.buf.length < 3 * fuel := by
        rw [hbuf, List.length_drop]
        omega
      have hrun : ∀ k, run (k + 1) op b = run k op1 b := by
        intro k
        rw [run_succ_build]
        simp only [hres]
      rw [hrun fuel]
      rcases ih op1 hslot hl1 with h | h | ⟨h, k, op2, hk, hrest⟩ | ⟨h, k, op2, hk, hrest⟩
      · exact Or.inl h
      · exact Or.inr (Or.inl h)
      · exact Or.inr (Or.inr (Or.inl ⟨h, k + 1, op2, by rw [hrun k, hk], hrest⟩))
      · exact Or.inr (Or.inr (Or.inr ⟨h, k + 1, op2, by rw [hrun k, hk], hrest⟩))
    | assert_failed op1 =>
      right
      left
      obtain ⟨hb0, he, hbk, hc⟩ := resume_assert op op1 _ _ b hs hres
      refine ⟨hb0, op1, ?_, ?_⟩
      · rw [run_succ_build]
        simp only [hres]
      · rw [he]
        exact ⟨hbk, hc⟩
    | undefined =>
      right
      right
      left
      rw [hres] at hslot
      refine ⟨?_, 0, op, rfl, hslot⟩
      rw [run_succ_build]
      simp only [hres]
    | signed_overflow =>
      right
      right
      right
      rw [hres] at hslot
      refine ⟨?_, 0, op, rfl, hslot⟩
      rw [run_succ_build]
      simp only [hres]

/-- C34 fails as stated: on the input `?x\r\n` (no nesting) a build with
assertions stops in `assert(false)` at the first line; whatever the number of
reads, the parse never completes. -/
theorem unknown_marker_never_completes :
    async_read 1 ['?', 'x', '\r', '\n'] ⟨[]⟩ =
        .assert_failed { buf := ['?', 'x', '\r', '\n'], res := ⟨[]⟩, start := 0 } ∧
      ∀ fuel ec op1, async_read fuel ['?', 'x', '\r', '\n'] ⟨[]⟩ ≠ .complete ec op1 := by
  have hres := resume_unknown_marker { buf := ['?', 'x', '\r', '\n'], res := ⟨[]⟩, start := 0 }
    '?' 4 (by simp) (by decide) rfl (by simp) rfl (by decide)
  have hread : async_read_until ['?', 'x', '\r', '\n'] = (none, 4) := rfl
  have hrun : ∀ f, async_read (f + 1) ['?', 'x', '\r', '\n'] ⟨[]⟩ =
      .assert_failed { buf := ['?', 'x', '\r', '\n'], res := ⟨[]⟩, start := 0 } :=
    fun f => run_assert f { buf := ['?', 'x', '\r', '\n'], res := ⟨[]⟩, start := 0 } _ none 4
      hread hres
  refine ⟨hrun 0, ?_⟩
  intro fuel ec op1 h
  cases fuel with
  | zero => cases h
  | succ f =>
    rw [hrun f] at h
    cases h

/-- C34 (as amended): for every input byte sequence `buffer`, with the
transport reporting end of stream once the buffer holds no further `\r\n`, in
a build with or without `NDEBUG`, the parse driven for `buffer.length / 3 + 1`
reads (or more) is no longer suspended. It has completed; or, in a build with
assertions only, it has stopped in `assert(false)` on a header line whose
first byte is none of `$ + - : *`; or (nesting above 5 levels only) it has
pushed an array header at depth 5; or it has decremented a frame count that
holds `INT_MIN`. Every resumption of the loop that issues a further read has
erased the `n >= 3` bytes of its line from the buffer, and a run of the
collapse loop from `depth = d` that stops at `d1` has `d1 <= d` and has lowered
the entries of `sizes` by `d - d1` in total, one per decrement. -/
theorem parse_loop_terminates (buffer : Bytes) (res : response) (NDEBUG : Bool) :
    (∀ fuel : Nat, buffer.length / 3 + 1 ≤ fuel →
      ((∃ ec op1, async_read fuel buffer res NDEBUG = .complete ec op1) ∨
        (NDEBUG = false ∧ ∃ op1, async_read fuel buffer res NDEBUG = .assert_failed op1 ∧
          op1.bulky = false ∧
          ∃ c, op1.buf.head? = some c ∧ c ≠ '$' ∧ c ≠ '+' ∧ c ≠ '-' ∧ c ≠ ':' ∧ c ≠ '*') ∨
        (async_read fuel buffer res NDEBUG = .undefined ∧
          ∃ k op1, async_read k buffer res NDEBUG = .suspended op1 ∧
            op1.depth = 5 ∧ op1.bulky = false ∧ op1.buf.head? = some '*') ∨
        (async_read fuel buffer res NDEBUG = .signed_overflow ∧
          ∃ k op1, async_read k buffer res NDEBUG = .suspended op1 ∧
            ∃ i, i ≤ op1.depth ∧ op1.sizes.getD i 0 = INT_MIN))) ∧
      (∀ (op op1 : parse_op) (ec : Option error_code) (n : Nat), op.start = 0 →
        n ≤ op.buf.length → op.resume ec n NDEBUG = .suspended op1 →
        3 ≤ n ∧ op1.buf.length + n = op.buf.length) ∧
      (∀ (d : Nat) (sizes : List Int) (d1 : Nat) (sizes1 : List Int), d < sizes.length →
        collapse d sizes = .stopped d1 sizes1 →
        d1 ≤ d ∧ sizes1.sum + ((d - d1 : Nat) : Int) = sizes.sum) := by
  refine ⟨?_, ?_, ?_⟩
  · intro fuel hfuel
    have hinv : slot_inv { buf := buffer, res := res, start := 0 } :=
      ⟨rfl, by simp, rfl, rfl, by simp⟩
    have hlen : ({ buf := buffer, res := res, start := 0 } : parse_op).buf.length < 3 * fuel := by
      show buffer.length < 3 * fuel
      omega
    exact run_ends NDEBUG fuel _ hinv hlen
  · intro op op1 ec n hs hn h
    obtain ⟨_, h3, hbuf⟩ := resume_progress op op1 ec n NDEBUG hs h
    refine ⟨h3, ?_⟩
    rw [hbuf, List.length_drop]
    omega
  · intro d sizes d1 sizes1 hd h
    obtain ⟨h1, _, h3⟩ := collapse_count d sizes d1 sizes1 hd h
    exact ⟨h1, h3⟩

theorem parse_loop_terminates_witness :
    (['?', 'x', '\r', '\n', '+', 'x', '\r', '\n'] : Bytes).length / 3 + 1 ≤ 3 ∧
      async_read 3 ['?', 'x', '\r', '\n', '+', 'x', '\r', '\n'] ⟨[]⟩ true =
        .complete none { buf := ['+', 'x', '\r', '\n'], res := ⟨[]⟩, start := 0 } ∧
      ((∃ ec op1, async_read 3 ['?', 'x', '\r', '\n', '+', 'x', '\r', '\n'] ⟨[]⟩ true =
          .complete ec op1) ∨
        (true = false ∧
          ∃ op1, async_read 3 ['?', 'x', '\r', '\n', '+', 'x', '\r', '\n'] ⟨[]⟩ true =
            .assert_failed op1 ∧ op1.bulky = false ∧
          ∃ c, op1.buf.head? = some c ∧ c ≠ '$' ∧ c ≠ '+' ∧ c ≠ '-' ∧ c ≠ ':' ∧ c ≠ '*') ∨
        (async_read 3 ['?', 'x', '\r', '\n', '+', 'x', '\r', '\n'] ⟨[]⟩ true = .undefined ∧
          ∃ k op1, async_read k ['?', 'x', '\r', '\n', '+', 'x', '\r', '\n'] ⟨[]⟩ true =
              .suspended op1 ∧
            op1.depth = 5 ∧ op1.bulky = false ∧ op1.buf.head? = some '*') ∨
        (async_read 3 ['?', 'x', '\r', '\n', '+', 'x', '\r', '\n'] ⟨[]⟩ true =
            .signed_overflow ∧
          ∃ k op1, async_read k ['?', 'x', '\r', '\n', '+', 'x', '\r', '\n'] ⟨[]⟩ true =
              .suspended op1 ∧
            ∃ i, i ≤ op1.depth ∧ op1.sizes.getD i 0 = INT_MIN)) ∧
      ((3 : Nat) ≤ 4 ∧ (['+', 'x', '\r', '\n'] : Bytes).length + 4 =
        (['*', '1', '\r', '\n', '+', 'x', '\r', '\n'] : Bytes).length) ∧
      ((0 : Nat) ≤ 1 ∧ ([1, 0, 1, 1, 1, 1] : List Int).sum + ((1 - 0 : Nat) : Int) =
        ([2, 0, 1, 1, 1, 1] : List Int).sum) :=
  ⟨by decide, rfl,
    (parse_loop_terminates ['?', 'x', '\r', '\n', '+', 'x', '\r', '\n'] ⟨[]⟩ true).1 3
      (by decide),
    (parse_loop_terminates [] ⟨[]⟩ false).2.1
      { buf := ['*', '1', '\r', '\n', '+', 'x', '\r', '\n'], res := ⟨[]⟩, start := 0 }
      { buf := ['+', 'x', '\r', '\n'], res := ⟨[]⟩, start := 0, depth := 1,
        sizes := [2, 1, 1, 1, 1, 1], bulky := false } none 4 rfl (by decide) rfl,
    (parse_loop_terminates [] ⟨[]⟩ false).2.2 1 [2, 0, 1, 1, 1, 1] 0 [1, 0, 1, 1, 1, 1]
      (by decide) rfl⟩

/-! ## The two builds

Every result of a build with assertions other than a failed `assert(false)` is
also the result of a build with `NDEBUG`: the builds differ only at a header
line whose first byte has no case in the switch. -/

theorem line_build (op : parse_op) (n : Nat) (h : op.line n false ≠ .assert_failed) :
    op.line n true = op.line n false := by
  unfold parse_op.line at h ⊢
  by_cases hb : op.bulky = true
  · simp only [if_pos hb]
  · simp only [if_neg hb] at h ⊢
    by_cases hsz : op.sizes.getD op.depth 0 ≠ 0
    · simp only [if_pos hsz] at h ⊢
      cases hh : op.buf.head? with
      | none => simp only [hh]
      | some c =>
        simp only [hh] at h ⊢
        by_cases h1 : c = '$'
        · simp only [if_pos h1]
        · simp only [if_neg h1] at h ⊢
          by_cases h3 : c = '+' ∨ c = '-' ∨ c = ':'
          · simp only [if_pos h3]
          · simp only [if_neg h3] at h ⊢
            by_cases h4 : c = '*'
            · simp only [if_pos h4]
            · simp only [if_neg h4] at h
              simp at h
    · simp only [if_neg hsz]

theorem resume_build (op : parse_op) (ec : Option error_code) (n : Nat)
    (h : ∀ op1, op.resume ec n false ≠ .assert_failed op1) :
    op.resume ec n true = op.resume ec n false := by
  unfold parse_op.resume at h ⊢
  by_cases hs : op.start = 1
  · simp only [if_pos hs]
  · simp only [if_neg hs] at h ⊢
    by_cases hcond : ec.isSome = true ∨ n < 3
    · simp only [if_pos hcond]
    · simp only [if_neg hcond] at h ⊢
      have hl : op.line n false ≠ .assert_failed := by
        intro he
        rw [he] at h
        exact h op rfl
      rw [line_build op n hl]

theorem run_build (fuel : Nat) : ∀ op : parse_op,
    (∀ op1, run fuel op false ≠ .assert_failed op1) → run fuel op true = run fuel op false := by
  induction fuel with
  | zero => intro op _; rfl
  | succ fuel ih =>
    intro op h
    rw [run_succ_build, run_succ_build] at *
    have hr : op.resume (async_read_until op.buf).1 (async_read_until op.buf).2 true =
        op.resume (async_read_until op.buf).1 (async_read_until op.buf).2 false := by
      apply resume_build
      intro op1 he
      rw [he] at h
      exact h op1 rfl
    rw [hr]
    cases hres : op.resume (async_read_until op.buf).1 (async_read_until op.buf).2 false with
    | suspended op1 =>
      rw [hres] at h
      exact ih op1 h
    | complete ec op1 => rfl
    | assert_failed op1 => rfl
    | undefined => rfl
    | signed_overflow => rfl

theorem async_read_build (fuel : Nat) (buffer : Bytes) (res : response)
    (h : ∀ op1, async_read fuel buffer res ≠ .assert_failed op1) :
    async_read fuel buffer res true = async_read fuel buffer res :=
  run_build fuel { buf := buffer, res := res, start := 0 } h

end resp
end aedis
